import Mathlib

/-!
Verification of the eComp evolutionary-compression codec.

Shallow embedding of the repository's Python sources:
  * `src/evolutionary_compression/compression/encoding.py`
  * `src/evolutionary_compression/compression/pipeline.py`
  * `src/evolutionary_compression/storage.py`
  * `src/evolutionary_compression/__init__.py`
Python `bytes` values become `List Nat` (each element < 256 by construction),
Python `str` becomes `String`/`List Char`, fallible code returns `Option`.
Modules of the repository that are not present in the source snapshot
(`io.py`, `config.py`, `compression/consensus.py`, `compression/rle.py`,
`diagnostics/checksums.py`) are modelled from the specification; each such
definition carries a doc comment starting with `Modelled from the spec:`.
External collaborators (zlib/zstd/xz/gzip compressors, UTF-8 codecs,
SHA-256) are taken as parameters of the model.
-/

namespace ECompV

/-- Big-endian 2-byte encoding, mirror of Python `struct.pack(">H", n)`
(the caller guarantees `n ≤ 65535`). -/
def u16be (n : Nat) : List Nat := [n / 256 % 256, n % 256]

/-- Big-endian 4-byte encoding, mirror of Python `struct.pack(">I", n)`
(the caller guarantees `n < 2^32`). -/
def u32be (n : Nat) : List Nat :=
  [n / 16777216 % 256, n / 65536 % 256, n / 256 % 256, n % 256]

/-- Big-endian 8-byte encoding, mirror of Python `struct.pack(">Q", n)`. -/
def u64be (n : Nat) : List Nat :=
  [n / 72057594037927936 % 256, n / 281474976710656 % 256,
   n / 1099511627776 % 256, n / 4294967296 % 256,
   n / 16777216 % 256, n / 65536 % 256, n / 256 % 256, n % 256]

/-- Big-endian value of a byte list, mirror of `struct.unpack` on the read side. -/
def beVal (bytes : List Nat) : Nat := bytes.foldl (fun acc b => acc * 256 + b) 0

/-- Take exactly `n` leading bytes of a stream, failing on underflow; the
sequential-cursor reads of the Python decoders are phrased through this. -/
def takeN (n : Nat) (l : List Nat) : Option (List Nat × List Nat) :=
  if n ≤ l.length then some (l.take n, l.drop n) else none

theorem takeN_append (xs rest : List Nat) :
    takeN xs.length (xs ++ rest) = some (xs, rest) := by
  unfold takeN
  rw [if_pos (by simp), List.take_left, List.drop_left]

theorem beVal_u16be (n : Nat) (h : n < 65536) : beVal (u16be n) = n := by
  unfold beVal u16be
  simp only [List.foldl]
  omega

theorem beVal_u32be (n : Nat) (h : n < 4294967296) : beVal (u32be n) = n := by
  unfold beVal u32be
  simp only [List.foldl]
  omega

/-- A run-length block, mirror of `rle.RunLengthBlock` (the dataclass fields
`consensus`, `bitmask`, `residues`, `run_length`). -/
structure RunLengthBlock where
  consensus : Char
  bitmask : List Nat
  residues : List Nat
  run_length : Nat
  deriving DecidableEq, Repr

/-- The `(consensus, bitmask, residues)` triple used as dictionary key in
`encoding.py`. -/
def blockKey (b : RunLengthBlock) : Char × List Nat × List Nat :=
  (b.consensus, b.bitmask, b.residues)

/-- Mirror of `encoding._trim_bitmask`: strip trailing zero bytes, returning
the trimmed mask and its length. -/
def trim_bitmask (bitmask : List Nat) : List Nat × Nat :=
  let t := (bitmask.reverse.dropWhile (fun b => b == 0)).reverse
  (t, t.length)

/-- First-occurrence tally of block keys weighted by run length, mirror of
the `Counter` loop in `encoding._build_dictionary` (Python `Counter`
preserves first-insertion order of keys). -/
def tallyKeys (blocks : List RunLengthBlock) :
    List ((Char × List Nat × List Nat) × Nat) :=
  blocks.foldl
    (fun acc b =>
      match acc.lookup (blockKey b) with
      | some c => acc.map (fun kv => if kv.1 = blockKey b then (kv.1, c + b.run_length) else kv)
      | none => acc ++ [(blockKey b, b.run_length)])
    []

/-- Mirror of `Counter.most_common(255)`: stable sort by count descending,
then keep at most 255 entries. -/
def mostCommon255 (tally : List ((Char × List Nat × List Nat) × Nat)) :
    List ((Char × List Nat × List Nat) × Nat) :=
  (tally.insertionSort (fun a b => b.2 ≤ a.2)).take 255

/-- Mirror of `encoding._build_dictionary`: keep the most common keys whose
reference savings beat the entry cost; returns the stored (trimmed-mask)
entries together with the key→index association list. -/
def build_dictionary (blocks : List RunLengthBlock) :
    List (Char × List Nat × List Nat) ×
      List ((Char × List Nat × List Nat) × Nat) :=
  (mostCommon255 (tallyKeys blocks)).foldl
    (fun acc kv =>
      let consensus := kv.1.1
      let bitmask := kv.1.2.1
      let residues := kv.1.2.2
      let freq := kv.2
      let trimmed := trim_bitmask bitmask
      let literal_size := 1 + 1 + 1 + 1 + trimmed.2 + 2 + residues.length
      let entry_size := 1 + 1 + trimmed.2 + 2 + residues.length
      let reference_size := 1 + 1 + 1
      if freq * literal_size ≤ entry_size + freq * reference_size then acc
      else (acc.1 ++ [(consensus, trimmed.1, residues)], acc.2 ++ [(kv.1, acc.1.length)]))
    ([], [])

/-- Serialization of one dictionary entry inside `encode_blocks` (consensus
byte, mask length byte, trimmed mask, residue length u16, residues). -/
def encodeDictEntry (e : Char × List Nat × List Nat) : List Nat :=
  e.1.toNat :: e.2.1.length :: e.2.1 ++ u16be e.2.2.length ++ e.2.2

/-- Serialization of one block inside `encode_blocks`: a dictionary
reference `[1, id, run]` or a literal `[0, run, consensus, mask_len] ++ mask
++ u16 residue length ++ residues`. -/
def encodeBlockEntry (dmap : List ((Char × List Nat × List Nat) × Nat))
    (b : RunLengthBlock) : List Nat :=
  match dmap.lookup (blockKey b) with
  | some dict_id => [1, dict_id, b.run_length]
  | none =>
      let trimmed := trim_bitmask b.bitmask
      0 :: b.run_length :: b.consensus.toNat :: trimmed.2 :: trimmed.1
        ++ u16be b.residues.length ++ b.residues

/-- Guard collecting the conditions under which the Python encoder raises:
`run_length` outside 1..255 (explicit `EncodingError`), a consensus that is
not a single byte (`bytearray.append` range), a trimmed mask longer than 255
bytes (`bytearray.append` range), residues longer than a u16
(`struct.pack(">H")`), or a block count that overflows `struct.pack(">I")`. -/
def encodableBlock (b : RunLengthBlock) : Prop :=
  1 ≤ b.run_length ∧ b.run_length ≤ 255 ∧ b.consensus.toNat ≤ 255 ∧
    (trim_bitmask b.bitmask).2 ≤ 255 ∧ b.residues.length ≤ 65535

instance (b : RunLengthBlock) : Decidable (encodableBlock b) := by
  unfold encodableBlock; infer_instance

/-- Mirror of `encoding.encode_blocks`: dictionary header, 4-byte block
count, then reference or literal entries.  Returns `none` exactly when the
Python code raises (see `encodableBlock`). -/
def encode_blocks (blocks : List RunLengthBlock) (bitmask_bytes bits_per_symbol : Nat) :
    Option (List Nat) :=
  if blocks.all (fun b => decide (encodableBlock b)) ∧ blocks.length < 4294967296 then
    let d := build_dictionary blocks
    some (d.1.length :: (d.1.flatMap encodeDictEntry)
      ++ u32be blocks.length
      ++ blocks.flatMap (encodeBlockEntry d.2))
  else none

/-- Read one dictionary entry in `decode_blocks`, padding the stored mask
back to `bitmask_bytes` with zero bytes. -/
def readDictEntry (bitmask_bytes : Nat) (l : List Nat) :
    Option ((Char × List Nat × List Nat) × List Nat) := do
  match l with
  | consensus_value :: mask_len :: rest =>
      if consensus_value < 128 then
        let (mask_slice, rest) ← takeN mask_len rest
        let (rlenBytes, rest) ← takeN 2 rest
        let (residues, rest) ← takeN (beVal rlenBytes) rest
        let bitmask := mask_slice ++ List.replicate (bitmask_bytes - mask_len) 0
        pure ((Char.ofNat consensus_value, bitmask, residues), rest)
      else none
  | _ => none

/-- Read `count` dictionary entries. -/
def readDict (count : Nat) (bitmask_bytes : Nat) (l : List Nat) :
    Option (List (Char × List Nat × List Nat) × List Nat) :=
  match count with
  | 0 => some ([], l)
  | count + 1 => do
      let (e, rest) ← readDictEntry bitmask_bytes l
      let (es, rest) ← readDict count bitmask_bytes rest
      pure (e :: es, rest)

/-- Read one block entry in `decode_blocks` (marker 1 = dictionary
reference, marker 0 = literal; any other marker raises). -/
def readBlockEntry (dictionary : List (Char × List Nat × List Nat))
    (bitmask_bytes : Nat) (l : List Nat) : Option (RunLengthBlock × List Nat) := do
  match l with
  | [] => none
  | marker :: rest =>
      if marker = 1 then
        match rest with
        | dict_id :: run_length :: rest =>
            match dictionary[dict_id]? with
            | some (consensus, bitmask, residues) =>
                pure (⟨consensus, bitmask, residues, run_length⟩, rest)
            | none => none
        | _ => none
      else if marker = 0 then
        match rest with
        | run_length :: consensus_value :: mask_len :: rest =>
            if consensus_value < 128 then
              let (mask_slice, rest) ← takeN mask_len rest
              let (rlenBytes, rest) ← takeN 2 rest
              let (residues, rest) ← takeN (beVal rlenBytes) rest
              let bitmask := mask_slice ++ List.replicate (bitmask_bytes - mask_len) 0
              pure (⟨Char.ofNat consensus_value, bitmask, residues, run_length⟩, rest)
            else none
        | _ => none
      else none

/-- Read `count` block entries. -/
def readBlocks (count : Nat) (dictionary : List (Char × List Nat × List Nat))
    (bitmask_bytes : Nat) (l : List Nat) : Option (List RunLengthBlock × List Nat) :=
  match count with
  | 0 => some ([], l)
  | count + 1 => do
      let (b, rest) ← readBlockEntry dictionary bitmask_bytes l
      let (bs, rest) ← readBlocks count dictionary bitmask_bytes rest
      pure (b :: bs, rest)

/-- Mirror of `encoding.decode_blocks`: an empty payload yields no blocks;
otherwise parse the dictionary, the 4-byte block count, and the entries.
`none` models a raised `DecodingError`. -/
def decode_blocks (payload : List Nat) (bitmask_bytes bits_per_symbol : Nat) :
    Option (List RunLengthBlock) := do
  match payload with
  | [] => some []
  | dict_count :: rest =>
      let (dictionary, rest) ← readDict dict_count bitmask_bytes rest
      let (bcBytes, rest) ← takeN 4 rest
      let (blocks, _) ← readBlocks (beVal bcBytes) dictionary bitmask_bytes rest
      pure blocks

theorem takeN_append_of_length (n : Nat) (xs rest : List Nat) (h : xs.length = n) :
    takeN n (xs ++ rest) = some (xs, rest) := by
  subst h; exact takeN_append xs rest

theorem trim_bitmask_snd (l : List Nat) : (trim_bitmask l).2 = (trim_bitmask l).1.length := rfl

theorem trim_bitmask_le (l : List Nat) : (trim_bitmask l).1.length ≤ l.length := by
  unfold trim_bitmask
  simp only [List.length_reverse]
  calc (l.reverse.dropWhile (fun b => b == 0)).length ≤ l.reverse.length :=
        (List.dropWhile_sublist _).length_le
    _ = l.length := List.length_reverse l

theorem trim_bitmask_pad (l : List Nat) :
    (trim_bitmask l).1 ++ List.replicate (l.length - (trim_bitmask l).1.length) 0 = l := by
  have hsplit := List.takeWhile_append_dropWhile (p := fun b => b == 0) (l := l.reverse)
  have htake : l.reverse.takeWhile (fun b => b == 0) =
      List.replicate (l.reverse.takeWhile (fun b => b == 0)).length 0 := by
    apply List.eq_replicate_of_mem
    intro b hb
    have := List.mem_takeWhile_imp hb
    simpa using this
  have hlen : (trim_bitmask l).1.length + (l.reverse.takeWhile (fun b => b == 0)).length
      = l.length := by
    have := congrArg List.length hsplit
    simp only [List.length_append, List.length_reverse] at this ⊢
    unfold trim_bitmask
    simp only [List.length_reverse]
    omega
  have : l = (trim_bitmask l).1 ++ (l.reverse.takeWhile (fun b => b == 0)).reverse := by
    conv_lhs => rw [← List.reverse_reverse l, ← hsplit]
    rw [List.reverse_append]
    rfl
  rw [htake, List.reverse_replicate] at this
  rw [← hlen]
  simpa using this.symm

theorem readDictEntry_encode (bb : Nat) (e : Char × List Nat × List Nat) (rest : List Nat)
    (hc : e.1.toNat < 128) (hr : e.2.2.length ≤ 65535) :
    readDictEntry bb (encodeDictEntry e ++ rest) =
      some ((e.1, e.2.1 ++ List.replicate (bb - e.2.1.length) 0, e.2.2), rest) := by
  obtain ⟨c, mask, residues⟩ := e
  simp only at hc hr
  unfold encodeDictEntry readDictEntry
  simp only [List.cons_append, List.append_assoc]
  rw [if_pos hc]
  rw [takeN_append_of_length mask.length mask _ rfl]
  simp only [Option.bind_eq_bind, Option.some_bind]
  rw [takeN_append_of_length 2 (u16be residues.length) _ rfl]
  simp only [Option.some_bind]
  rw [beVal_u16be residues.length (by omega)]
  rw [takeN_append_of_length residues.length residues rest rfl]
  simp [Char.ofNat_toNat]

/-- The padded form of stored dictionary entries produced by the decoder. -/
def padEntry (bb : Nat) (e : Char × List Nat × List Nat) : Char × List Nat × List Nat :=
  (e.1, e.2.1 ++ List.replicate (bb - e.2.1.length) 0, e.2.2)

theorem readDict_encode (bb : Nat) (es : List (Char × List Nat × List Nat)) (rest : List Nat)
    (h : ∀ e ∈ es, e.1.toNat < 128 ∧ e.2.2.length ≤ 65535) :
    readDict es.length bb (es.flatMap encodeDictEntry ++ rest) =
      some (es.map (padEntry bb), rest) := by
  induction es generalizing rest with
  | nil => simp [readDict]
  | cons e es ih =>
      simp only [List.flatMap_cons, List.length_cons, List.append_assoc, List.map_cons]
      unfold readDict
      rw [readDictEntry_encode bb e _ (h e (by simp)).1 (h e (by simp)).2]
      simp only [Option.bind_eq_bind, Option.some_bind]
      rw [ih rest (fun x hx => h x (by simp [hx]))]
      rfl

theorem readBlockEntry_ref (dict : List (Char × List Nat × List Nat)) (bb : Nat)
    (b : RunLengthBlock) (dict_id : Nat) (rest : List Nat)
    (hid : dict[dict_id]? = some (b.consensus, b.bitmask, b.residues)) :
    readBlockEntry dict bb (1 :: dict_id :: b.run_length :: rest) = some (b, rest) := by
  simp [readBlockEntry, hid]

theorem readBlockEntry_lit (dict : List (Char × List Nat × List Nat)) (bb : Nat)
    (b : RunLengthBlock) (rest : List Nat)
    (hc : b.consensus.toNat < 128) (hr : b.residues.length ≤ 65535)
    (hm : b.bitmask.length = bb) :
    readBlockEntry dict bb
      (0 :: b.run_length :: b.consensus.toNat :: (trim_bitmask b.bitmask).2
        :: (trim_bitmask b.bitmask).1 ++ u16be b.residues.length ++ b.residues ++ rest) =
      some (b, rest) := by
  have e1 : takeN (trim_bitmask b.bitmask).2
      ((trim_bitmask b.bitmask).1 ++ (u16be b.residues.length ++ (b.residues ++ rest))) =
      some ((trim_bitmask b.bitmask).1, u16be b.residues.length ++ (b.residues ++ rest)) := by
    rw [trim_bitmask_snd]; exact takeN_append_of_length _ _ _ rfl
  have e2 : takeN 2 (u16be b.residues.length ++ (b.residues ++ rest)) =
      some (u16be b.residues.length, b.residues ++ rest) :=
    takeN_append_of_length _ _ _ rfl
  have e3 : takeN (beVal (u16be b.residues.length)) (b.residues ++ rest) =
      some (b.residues, rest) := by
    rw [beVal_u16be _ (by omega)]; exact takeN_append_of_length _ _ _ rfl
  have epad : (trim_bitmask b.bitmask).1 ++
      List.replicate (bb - (trim_bitmask b.bitmask).2) 0 = b.bitmask := by
    rw [trim_bitmask_snd, ← hm]; exact trim_bitmask_pad b.bitmask
  simp [readBlockEntry, hc, List.append_assoc, e1, e2, e3, epad, Char.ofNat_toNat]

theorem readBlocks_encode (dict : List (Char × List Nat × List Nat))
    (dmap : List ((Char × List Nat × List Nat) × Nat)) (bb : Nat)
    (blocks : List RunLengthBlock) (rest : List Nat)
    (h : ∀ b ∈ blocks, b.consensus.toNat < 128 ∧ b.residues.length ≤ 65535 ∧
      b.bitmask.length = bb)
    (hd : ∀ b ∈ blocks, ∀ i, dmap.lookup (blockKey b) = some i →
      dict[i]? = some (b.consensus, b.bitmask, b.residues)) :
    readBlocks blocks.length dict bb (blocks.flatMap (encodeBlockEntry dmap) ++ rest) =
      some (blocks, rest) := by
  induction blocks generalizing rest with
  | nil => simp [readBlocks]
  | cons b bs ih =>
      simp only [List.flatMap_cons, List.length_cons, List.append_assoc]
      unfold readBlocks
      have hstep : readBlockEntry dict bb
          (encodeBlockEntry dmap b ++ (bs.flatMap (encodeBlockEntry dmap) ++ rest)) =
          some (b, bs.flatMap (encodeBlockEntry dmap) ++ rest) := by
        cases hl : dmap.lookup (blockKey b) with
        | some dict_id =>
            rw [show encodeBlockEntry dmap b = [1, dict_id, b.run_length] by
              simp [encodeBlockEntry, hl]]
            simp only [List.cons_append, List.nil_append]
            exact readBlockEntry_ref dict bb b dict_id _ (hd b (by simp) dict_id hl)
        | none =>
            rw [show encodeBlockEntry dmap b =
              0 :: b.run_length :: b.consensus.toNat :: (trim_bitmask b.bitmask).2
                :: (trim_bitmask b.bitmask).1 ++ u16be b.residues.length ++ b.residues by
              simp [encodeBlockEntry, hl]]
            have := readBlockEntry_lit dict bb b (bs.flatMap (encodeBlockEntry dmap) ++ rest)
              (h b (by simp)).1 (h b (by simp)).2.1 (h b (by simp)).2.2
            simpa [List.append_assoc] using this
      rw [hstep]
      simp only [Option.bind_eq_bind, Option.some_bind]
      rw [ih rest (fun x hx => h x (by simp [hx])) (fun x hx => hd x (by simp [hx]))]
      rfl

/-- The stored (mask-trimmed) dictionary entry for a key. -/
def storedEntry (k : Char × List Nat × List Nat) : Char × List Nat × List Nat :=
  (k.1, (trim_bitmask k.2.1).1, k.2.2)

/-- The fold body of `build_dictionary`. -/
def dictBody (acc : List (Char × List Nat × List Nat) ×
      List ((Char × List Nat × List Nat) × Nat))
    (kv : (Char × List Nat × List Nat) × Nat) :
    List (Char × List Nat × List Nat) × List ((Char × List Nat × List Nat) × Nat) :=
  let trimmed := trim_bitmask kv.1.2.1
  let literal_size := 1 + 1 + 1 + 1 + trimmed.2 + 2 + kv.1.2.2.length
  let entry_size := 1 + 1 + trimmed.2 + 2 + kv.1.2.2.length
  let reference_size := 1 + 1 + 1
  if kv.2 * literal_size ≤ entry_size + kv.2 * reference_size then acc
  else (acc.1 ++ [storedEntry kv.1], acc.2 ++ [(kv.1, acc.1.length)])

theorem build_dictionary_eq_fold (blocks : List RunLengthBlock) :
    build_dictionary blocks = (mostCommon255 (tallyKeys blocks)).foldl dictBody ([], []) := by
  unfold build_dictionary dictBody storedEntry
  rfl

theorem dictFold_lookup (l : List ((Char × List Nat × List Nat) × Nat))
    (acc : List (Char × List Nat × List Nat) × List ((Char × List Nat × List Nat) × Nat))
    (hinv : ∀ k i, acc.2.lookup k = some i → acc.1[i]? = some (storedEntry k)) :
    ∀ k i, (l.foldl dictBody acc).2.lookup k = some i →
      (l.foldl dictBody acc).1[i]? = some (storedEntry k) := by
  induction l generalizing acc with
  | nil => exact hinv
  | cons kv t ih =>
      simp only [List.foldl_cons]
      apply ih
      unfold dictBody
      by_cases hcase : kv.2 * (1 + 1 + 1 + 1 + (trim_bitmask kv.1.2.1).2 + 2 + kv.1.2.2.length)
          ≤ 1 + 1 + (trim_bitmask kv.1.2.1).2 + 2 + kv.1.2.2.length + kv.2 * (1 + 1 + 1)
      · simpa [hcase] using hinv
      · simp only [hcase, if_false]
        intro k i hk
        rcases hlk : acc.2.lookup k with _ | j
        · have hkk : k = kv.1 ∧ i = acc.1.length := by
            rw [List.lookup_append, hlk] at hk
            simp only [Option.none_or] at hk
            by_cases hke : k = kv.1
            · refine ⟨hke, ?_⟩
              subst hke
              have := hk
              simp only [List.lookup] at this
              simpa using this.symm
            · exfalso
              have : ((kv.1, acc.1.length) :: []).lookup k = none := by
                simp [List.lookup, beq_false_of_ne hke]
              rw [this] at hk
              exact Option.noConfusion hk
          obtain ⟨rfl, rfl⟩ := hkk
          simp
        · have hij : i = j := by
            rw [List.lookup_append, hlk] at hk
            simpa using hk.symm
          subst hij
          have hold := hinv k i hlk
          have hlt : i < acc.1.length := by
            have := List.getElem?_eq_some_iff.mp hold
            exact this.1
          rw [List.getElem?_append_left hlt]
          exact hold

theorem dictFold_mem (l : List ((Char × List Nat × List Nat) × Nat))
    (acc : List (Char × List Nat × List Nat) × List ((Char × List Nat × List Nat) × Nat)) :
    ∀ e ∈ (l.foldl dictBody acc).1, e ∈ acc.1 ∨ ∃ kv ∈ l, e = storedEntry kv.1 := by
  induction l generalizing acc with
  | nil => intro e he; exact Or.inl he
  | cons kv t ih =>
      intro e he
      simp only [List.foldl_cons] at he
      rcases ih (dictBody acc kv) e he with hacc | ⟨kv2, hkv2, he2⟩
      · unfold dictBody at hacc
        by_cases hcase : kv.2 * (1 + 1 + 1 + 1 + (trim_bitmask kv.1.2.1).2 + 2 + kv.1.2.2.length)
            ≤ 1 + 1 + (trim_bitmask kv.1.2.1).2 + 2 + kv.1.2.2.length + kv.2 * (1 + 1 + 1)
        · simp only [hcase, if_true] at hacc
          exact Or.inl hacc
        · simp only [hcase, if_false] at hacc
          rcases List.mem_append.mp hacc with h1 | h2
          · exact Or.inl h1
          · exact Or.inr ⟨kv, by simp, by simpa using h2⟩
      · exact Or.inr ⟨kv2, by simp [hkv2], he2⟩

/-- The fold body of `tallyKeys`. -/
def tallyBody (acc : List ((Char × List Nat × List Nat) × Nat)) (b : RunLengthBlock) :
    List ((Char × List Nat × List Nat) × Nat) :=
  match acc.lookup (blockKey b) with
  | some c => acc.map (fun kv => if kv.1 = blockKey b then (kv.1, c + b.run_length) else kv)
  | none => acc ++ [(blockKey b, b.run_length)]

theorem tallyKeys_eq_fold (blocks : List RunLengthBlock) :
    tallyKeys blocks = blocks.foldl tallyBody [] := rfl

theorem tallyFold_keys (l : List RunLengthBlock)
    (acc : List ((Char × List Nat × List Nat) × Nat)) :
    ∀ kv ∈ l.foldl tallyBody acc, kv.1 ∈ acc.map Prod.fst ∨ kv.1 ∈ l.map blockKey := by
  induction l generalizing acc with
  | nil => intro kv hkv; exact Or.inl (List.mem_map_of_mem _ hkv)
  | cons b t ih =>
      intro kv hkv
      simp only [List.foldl_cons] at hkv
      rcases ih (tallyBody acc b) kv hkv with h1 | h2
      · unfold tallyBody at h1
        rcases hl : acc.lookup (blockKey b) with _ | c
        · rw [hl] at h1
          simp only [List.map_append, List.mem_append] at h1
          rcases h1 with ha | hb
          · exact Or.inl ha
          · simp only [List.map_cons, List.map_nil, List.mem_singleton] at hb
            exact Or.inr (by simp [hb])
        · rw [hl] at h1
          simp only [List.map_map, List.mem_map] at h1
          obtain ⟨x, hx, hfx⟩ := h1
          have : kv.1 = x.1 := by
            by_cases hxe : x.1 = blockKey b <;> simp [Function.comp, hxe] at hfx <;>
              simp [hfx, hxe]
          rw [this]
          exact Or.inl (List.mem_map_of_mem _ hx)
      · exact Or.inr (by simp [h2])

theorem tallyKeys_mem (blocks : List RunLengthBlock) :
    ∀ kv ∈ tallyKeys blocks, kv.1 ∈ blocks.map blockKey := by
  intro kv hkv
  rw [tallyKeys_eq_fold] at hkv
  rcases tallyFold_keys blocks [] kv hkv with h | h
  · simp at h
  · exact h

theorem mostCommon255_mem (tally : List ((Char × List Nat × List Nat) × Nat)) :
    ∀ kv ∈ mostCommon255 tally, kv ∈ tally := by
  intro kv hkv
  unfold mostCommon255 at hkv
  exact (List.mem_insertionSort _).mp (List.mem_of_mem_take hkv)

theorem build_dictionary_entry_mem (blocks : List RunLengthBlock) :
    ∀ e ∈ (build_dictionary blocks).1, ∃ b ∈ blocks, e = storedEntry (blockKey b) := by
  intro e he
  rw [build_dictionary_eq_fold] at he
  rcases dictFold_mem _ ([], []) e he with h1 | ⟨kv, hkv, he2⟩
  · simp at h1
  · have := tallyKeys_mem blocks kv (mostCommon255_mem _ kv hkv)
    obtain ⟨b, hb, hbk⟩ := List.mem_map.mp this
    exact ⟨b, hb, by rw [he2, hbk]⟩

theorem build_dictionary_lookup (blocks : List RunLengthBlock) :
    ∀ k i, (build_dictionary blocks).2.lookup k = some i →
      (build_dictionary blocks).1[i]? = some (storedEntry k) := by
  rw [build_dictionary_eq_fold]
  exact dictFold_lookup _ ([], []) (by intro k i h; simp [List.lookup] at h)

theorem encode_decode_blocks (blocks : List RunLengthBlock) (bb bps : Nat)
    (hrun : ∀ b ∈ blocks, 1 ≤ b.run_length ∧ b.run_length ≤ 255)
    (hascii : ∀ b ∈ blocks, b.consensus.toNat < 128)
    (hmask : ∀ b ∈ blocks, b.bitmask.length = bb)
    (hres : ∀ b ∈ blocks, b.residues.length ≤ 65535)
    (hbb : bb ≤ 255) (hcount : blocks.length < 4294967296) :
    (encode_blocks blocks bb bps).bind (fun p => decode_blocks p bb bps) = some blocks := by
  have hguard : (blocks.all (fun b => decide (encodableBlock b)) = true) ∧
      blocks.length < 4294967296 := by
    refine ⟨List.all_eq_true.mpr (fun b hb => ?_), hcount⟩
    have h1 := hrun b hb
    have h2 := hascii b hb
    have h3 := hmask b hb
    have h4 := hres b hb
    have h5 : (trim_bitmask b.bitmask).2 ≤ 255 := by
      rw [trim_bitmask_snd]
      calc (trim_bitmask b.bitmask).1.length ≤ b.bitmask.length := trim_bitmask_le _
        _ = bb := h3
        _ ≤ 255 := hbb
    exact decide_eq_true (by exact ⟨h1.1, h1.2, by omega, h5, h4⟩)
  rw [show encode_blocks blocks bb bps = some ((build_dictionary blocks).1.length
      :: ((build_dictionary blocks).1.flatMap encodeDictEntry)
      ++ u32be blocks.length
      ++ blocks.flatMap (encodeBlockEntry (build_dictionary blocks).2)) by
    unfold encode_blocks
    rw [if_pos ⟨hguard.1, hguard.2⟩]]
  simp only [Option.some_bind]
  unfold decode_blocks
  simp only [List.cons_append, List.append_assoc]
  rw [readDict_encode bb (build_dictionary blocks).1 _ (by
    intro e he
    obtain ⟨b, hb, rfl⟩ := build_dictionary_entry_mem blocks e he
    exact ⟨hascii b hb, hres b hb⟩)]
  simp only [Option.bind_eq_bind, Option.some_bind]
  rw [takeN_append_of_length 4 (u32be blocks.length) _ rfl]
  simp only [Option.some_bind]
  rw [beVal_u32be blocks.length hcount]
  have hrb := readBlocks_encode ((build_dictionary blocks).1.map (padEntry bb))
    (build_dictionary blocks).2 bb blocks []
    (fun b hb => ⟨hascii b hb, hres b hb, hmask b hb⟩)
    (by
      intro b hb i hi
      have hstored := build_dictionary_lookup blocks (blockKey b) i hi
      rw [List.getElem?_map, hstored]
      have hpad : padEntry bb (storedEntry (blockKey b)) =
          (b.consensus, b.bitmask, b.residues) := by
        unfold padEntry storedEntry blockKey
        simp only
        rw [← hmask b hb, trim_bitmask_pad]
      simp [hpad])
  rw [List.append_nil] at hrb
  rw [hrb]
  rfl

/-- C9 (amended): encode/decode of run-length blocks is a round trip for
run lengths in 1..255, single ASCII consensus characters, full-width
bitmasks and u16-sized residues, provided additionally that the bitmask
width fits the one-byte stored-mask length field (`bitmask_bytes ≤ 255`)
and the block count fits the 4-byte count field. -/
theorem C9_encode_decode_roundtrip (blocks : List RunLengthBlock) (bb bps : Nat)
    (hrun : ∀ b ∈ blocks, 1 ≤ b.run_length ∧ b.run_length ≤ 255)
    (hascii : ∀ b ∈ blocks, b.consensus.toNat < 128)
    (hmask : ∀ b ∈ blocks, b.bitmask.length = bb)
    (hres : ∀ b ∈ blocks, b.residues.length ≤ 65535)
    (hbb : bb ≤ 255) (hcount : blocks.length < 4294967296) :
    (encode_blocks blocks bb bps).bind (fun p => decode_blocks p bb bps) = some blocks :=
  encode_decode_blocks blocks bb bps hrun hascii hmask hres hbb hcount

set_option maxRecDepth 4000 in
/-- C9 counterexample: with `bitmask_bytes = 256` a mask whose trimmed
length is 256 overflows the one-byte length field (`bytearray.append`
raises in Python), so the round trip fails as stated. -/
theorem C9_counterexample :
    (encode_blocks [⟨'A', List.replicate 255 0 ++ [1], [], 1⟩] 256 1).bind
      (fun p => decode_blocks p 256 1) ≠
      some [⟨'A', List.replicate 255 0 ++ [1], [], 1⟩] := by
  have henc : encode_blocks [⟨'A', List.replicate 255 0 ++ [1], [], 1⟩] 256 1 = none := by
    unfold encode_blocks
    rw [if_neg]
    intro hcontra
    have hall := List.all_eq_true.mp hcontra.1 ⟨'A', List.replicate 255 0 ++ [1], [], 1⟩
      (by simp)
    have henc2 := of_decide_eq_true hall
    have htrim : (trim_bitmask (List.replicate 255 0 ++ [1])).2 = 256 := by
      unfold trim_bitmask
      simp [List.reverse_append, List.dropWhile]
    unfold encodableBlock at henc2
    simp only at henc2
    omega
  rw [henc]
  simp

/-- Witness for the amended C9 round trip at a concrete block list. -/
theorem C9_witness :
    (encode_blocks [⟨'A', [0], [], 4⟩, ⟨'A', [2], [128], 1⟩] 1 1).bind
      (fun p => decode_blocks p 1 1) =
      some [⟨'A', [0], [], 4⟩, ⟨'A', [2], [128], 1⟩] :=
  C9_encode_decode_roundtrip _ 1 1 (by decide) (by decide) (by decide) (by decide)
    (by decide) (by decide)

/-- C10: the empty payload decodes to no blocks, and any non-empty payload
accepted by `decode_blocks` contains complete dictionary entries followed by
a complete 4-byte block count — so the empty input is the only silently
accepted truncation. -/
theorem C10_empty_only_silent_truncation (bb bps c : Nat) (t : List Nat) :
    decode_blocks [] bb bps = some [] ∧
    (∀ bs, decode_blocks (c :: t) bb bps = some bs →
      ∃ d rest, readDict c bb t = some (d, rest) ∧ 4 ≤ rest.length) := by
  constructor
  · rfl
  · intro bs hbs
    have hred : decode_blocks (c :: t) bb bps =
        (readDict c bb t).bind (fun p1 =>
          (takeN 4 p1.2).bind (fun p2 =>
            (readBlocks (beVal p2.1) p1.1 bb p2.2).bind (fun p3 => some p3.1))) := rfl
    rw [hred] at hbs
    rcases hd : readDict c bb t with _ | ⟨d, rest⟩
    · rw [hd] at hbs
      exact Option.noConfusion hbs
    · rw [hd] at hbs
      refine ⟨d, rest, rfl, ?_⟩
      simp only [Option.some_bind] at hbs
      rcases ht : takeN 4 rest with _ | pr
      · rw [ht] at hbs
        simp at hbs
      · unfold takeN at ht
        by_cases h4 : 4 ≤ rest.length
        · exact h4
        · rw [if_neg h4] at ht
          exact Option.noConfusion ht

/-- Witness for C10 at a concrete five-byte payload. -/
theorem C10_witness :
    ∃ d rest, readDict 0 1 [0, 0, 0, 0] = some (d, rest) ∧ 4 ≤ rest.length :=
  (C10_empty_only_silent_truncation 1 1 0 [0, 0, 0, 0]).2 [] (by decide)

/-- Modelled from the spec: the auxiliary metadata attached to an
`AlignmentFrame` (`io.py` is absent from the snapshot); only the
`source_format` and `tree_newick` keys are consulted by the codec. -/
structure FrameMeta where
  source_format : Option String
  tree_newick : Option String
  deriving DecidableEq, Repr

/-- Modelled from the spec: the derived sorted unique alphabet of a row set
(§3: "a derived sorted unique alphabet"). -/
def derivedAlphabet (seqs : List (List Char)) : List Char :=
  ((seqs.flatMap (fun s => s)).dedup).insertionSort (fun a b => a ≤ b)

/-- Modelled from the spec: `io.AlignmentFrame` — ordered identifiers,
equal-length rows, alphabet and open metadata (§3). -/
structure AlignmentFrame where
  ids : List String
  sequences : List (List Char)
  alphabet : List Char
  metadata : FrameMeta
  deriving DecidableEq, Repr

/-- Mirror of the frame's `num_sequences` property. -/
def AlignmentFrame.num_sequences (f : AlignmentFrame) : Nat := f.sequences.length

/-- Mirror of the frame's `alignment_length` property (0 for no rows). -/
def AlignmentFrame.alignment_length (f : AlignmentFrame) : Nat :=
  (f.sequences.headI).length

/-- Modelled from the spec: `io.alignment_from_sequences`, deriving the
alphabet from the rows when none is supplied. -/
def alignment_from_sequences (ids : List String) (seqs : List (List Char))
    (alphabet : Option (List Char)) (metadata : FrameMeta) : AlignmentFrame :=
  { ids := ids, sequences := seqs,
    alphabet := alphabet.getD (derivedAlphabet seqs), metadata := metadata }

/-- Mirror of `pipeline._select_sample_indices` with the cap of 256. -/
def select_sample_indices (length : Nat) : List Nat :=
  if length = 0 then []
  else if length ≤ 256 then List.range length
  else
    let step := max 1 (length / 256)
    let indices := (List.range ((length + step - 1) / step)).map (· * step)
    if indices.getLast? = some (length - 1) then indices else indices ++ [length - 1]

/-- Mismatch count over sampled columns, mirror of the inner loop of
`pipeline._build_distance_matrix` / `pipeline._approximate_distance`. -/
def mismatchCount (a b : List Char) (idxs : List Nat) : Nat :=
  (idxs.filter (fun i => !(a.getD i ' ' == b.getD i ' '))).length

/-- Mirror of `pipeline._build_distance_matrix`: the symmetric sampled
mismatch-count matrix (all zeros when the sample is empty). -/
def build_distance_matrix (seqs : List (List Char)) (sample : List Nat) :
    List (List Nat) :=
  (List.range seqs.length).map (fun i =>
    (List.range seqs.length).map (fun j =>
      if sample.isEmpty then 0 else mismatchCount (seqs.getD i []) (seqs.getD j []) sample))

/-- Matrix element access, mirror of `dist_matrix[i][j]`. -/
def mat (m : List (List Nat)) (i j : Nat) : Nat := (m.getD i []).getD j 0

/-- Mirror of `pipeline._order_cost`: sum of consecutive-row distances. -/
def order_cost (order : List Nat) (m : List (List Nat)) : Nat :=
  (order.zip order.tail).foldl (fun acc p => acc + mat m p.1 p.2) 0

/-- Comparison against the `float("inf")` keys of the Prim loop: `none`
stands for infinity. -/
def optLt : Option Nat → Option Nat → Bool
  | none, _ => false
  | some _, none => true
  | some a, some b => decide (a < b)

/-- `min(candidates, key=lambda idx: key[idx])`: the first candidate with
minimal key. -/
def argminKey (cands : List Nat) (key : List (Option Nat)) : Nat :=
  match cands with
  | [] => 0
  | c :: t => t.foldl (fun best idx =>
      if optLt (key.getD idx none) (key.getD best none) then idx else best) c

/-- One iteration of the Prim loop of `pipeline._mst_sequence_order`:
the state is the visitation order so far plus the key and parent arrays. -/
def primStep (m : List (List Nat)) (n : Nat)
    (st : List Nat × List (Option Nat) × List (Option Nat)) :
    List Nat × List (Option Nat) × List (Option Nat) :=
  let visitedOrder := st.1
  let key := st.2.1
  let parent := st.2.2
  let cands := (List.range n).filter (fun i => !(visitedOrder.contains i))
  let u := argminKey cands key
  let visited2 := visitedOrder ++ [u]
  let key2 := (List.range n).map (fun v =>
    if visited2.contains v then key.getD v none
    else if optLt (some (mat m u v)) (key.getD v none) then some (mat m u v)
    else key.getD v none)
  let parent2 := (List.range n).map (fun v =>
    if visited2.contains v then parent.getD v none
    else if optLt (some (mat m u v)) (key.getD v none) then some u
    else parent.getD v none)
  (visited2, key2, parent2)

/-- The Prim phase of `pipeline._mst_sequence_order`: `n` iterations from
`key[0] = 0`, all parents unset. -/
def primLoop (m : List (List Nat)) (n : Nat) :
    List Nat × List (Option Nat) × List (Option Nat) :=
  (List.range n).foldl (fun st _ => primStep m n st)
    ([], (List.range n).map (fun i => if i = 0 then some 0 else none),
      (List.range n).map (fun _ => none))

/-- Children of `u` in ascending child order, mirror of the adjacency lists
built from the parent array. -/
def adjChildren (parent : List (Option Nat)) (n u : Nat) : List Nat :=
  (List.range n).filter (fun child => parent.getD child none == some u)

/-- Children sorted by edge weight descending (stable), mirror of the
`sorted(..., reverse=True)` call before pushing on the DFS stack. -/
def sortedChildren (m : List (List Nat)) (parent : List (Option Nat)) (n u : Nat) :
    List Nat :=
  (adjChildren parent n u).insertionSort (fun a b => mat m u b ≤ mat m u a)

/-- The stack DFS of `pipeline._mst_sequence_order`; the Python stack pops
from the end, so the model keeps the top of the stack at the head and
pushes each sorted child list reversed.  `fuel` dominates the number of
pops (each node is pushed at most once). -/
def dfsLoop (m : List (List Nat)) (parent : List (Option Nat)) (n : Nat) :
    Nat → List Nat → List Nat → List Nat
  | 0, _, order => order
  | _ + 1, [], order => order
  | fuel + 1, node :: stackrest, order =>
      dfsLoop m parent n fuel ((sortedChildren m parent n node).reverse ++ stackrest)
        (order ++ [node])

/-- Mirror of `pipeline._mst_sequence_order`. -/
def mst_sequence_order (m : List (List Nat)) : List Nat :=
  let n := m.length
  if n = 0 then []
  else
    let parent := (primLoop m n).2.2
    dfsLoop m parent n (n * n + n + 1) [0] []

/-- One selection step of `pipeline._greedy_sequence_order`: the nearest
unused row (`min` over the remaining set in ascending index order). -/
def greedyPick (m : List (List Nat)) (current : Nat) (remaining : List Nat) : Nat :=
  match remaining with
  | [] => 0
  | c :: t => t.foldl (fun best idx =>
      if mat m current idx < mat m current best then idx else best) c

/-- The append loop of `pipeline._greedy_sequence_order`. -/
def greedyLoop (m : List (List Nat)) : Nat → Nat → List Nat → List Nat → List Nat
  | 0, _, _, order => order
  | fuel + 1, current, remaining, order =>
      match remaining with
      | [] => order
      | _ =>
          let nxt := greedyPick m current remaining
          greedyLoop m fuel nxt (remaining.erase nxt) (order ++ [nxt])

/-- Mirror of `pipeline._greedy_sequence_order`: start from the row with
the smallest distance-row sum, then repeatedly append the nearest unused
row. -/
def greedy_sequence_order (m : List (List Nat)) : List Nat :=
  let n := m.length
  if n = 0 then []
  else
    let start := (List.range n).foldl (fun best idx =>
      if (m.getD idx []).sum < (m.getD best []).sum then idx else best) 0
    greedyLoop m n start ((List.range n).erase start) [start]

/-- Deduplication of candidates by order value keeping the first label,
mirror of the `unique`/`ordered_keys` dictionary in `pipeline._choose_order`. -/
def dedupByOrder (candidates : List (String × List Nat)) : List (String × List Nat) :=
  candidates.foldl (fun acc c =>
    if acc.any (fun kv => kv.2 == c.2) then acc else acc ++ [c]) []

/-- The cost-contest fold of `pipeline._choose_order`: minimal cost wins,
equal costs are broken by the lexicographically smaller label. -/
def bestCandidate (m : List (List Nat)) (uniq : List (String × List Nat)) :
    Option (String × List Nat × Nat) :=
  uniq.foldl (fun best kv =>
    let cost := order_cost kv.2 m
    match best with
    | none => some (kv.1, kv.2, cost)
    | some b =>
        if cost < b.2.2 ∨ (cost = b.2.2 ∧ kv.1 < b.1) then some (kv.1, kv.2, cost)
        else some b) none

/-- Mirror of `pipeline._choose_order`; `env` is the already-lowercased
value of the `ECOMP_SEQUENCE_ORDER` environment variable (`"auto"` when the
variable is unset). -/
def choose_order (m : List (List Nat)) (candidates : List (String × List Nat))
    (env : String) : List Nat × String :=
  let uniq := dedupByOrder candidates
  if env = "baseline" ∨ env = "mst" ∨ env = "greedy" then
    match uniq.find? (fun kv => kv.1 == env) with
    | some kv => (kv.2, kv.1)
    | none =>
        match uniq with
        | kv :: _ => (kv.2, kv.1)
        | [] => ([], "baseline")
  else
    match bestCandidate m uniq with
    | some b => (b.2.1, "auto-" ++ b.1)
    | none => ([], "auto-")

/-- A parsed Newick node, mirror of the `_Node` class in
`pipeline._parse_newick` (label plus children). -/
inductive NNode where
  | mk : Option String → List NNode → NNode
  deriving Repr

/-- Mirror of `parse_label_length` in `pipeline._parse_newick`: read label
characters up to `):,;`, then skip a `:length` suffix. -/
def parseLabel (s : List Char) : Option String × List Char :=
  let stopChar := fun (c : Char) => c == ':' || c == ',' || c == ')' || c == ';'
  let lab := s.takeWhile (fun c => !(stopChar c))
  let rest := s.dropWhile (fun c => !(stopChar c))
  let rest2 := match rest with
    | ':' :: r => r.dropWhile (fun c => !(c == ',' || c == ')' || c == ';'))
    | _ => rest
  (if lab.isEmpty then none else some (String.mk lab), rest2)

mutual

/-- Mirror of `parse_subtree` in `pipeline._parse_newick` (the recursion is
fuelled; the fuel chosen by `parse_newick` dominates the recursion depth). -/
def parseSubtree : Nat → List Char → Option (NNode × List Char)
  | 0, _ => none
  | _ + 1, [] => none
  | fuel + 1, c :: rest =>
      if c = '(' then
        match parseSiblings fuel rest with
        | none => none
        | some (children, rest2) =>
            let lr := parseLabel rest2
            some (NNode.mk lr.1 children, lr.2)
      else
        let lr := parseLabel (c :: rest)
        some (NNode.mk lr.1 [], lr.2)

/-- The comma-separated-children loop of `parse_subtree`. -/
def parseSiblings : Nat → List Char → Option (List NNode × List Char)
  | 0, _ => none
  | fuel + 1, s =>
      match parseSubtree fuel s with
      | none => none
      | some (child, rest) =>
          match rest with
          | ',' :: r2 =>
              match parseSiblings fuel r2 with
              | none => none
              | some (cs, r3) => some (child :: cs, r3)
          | ')' :: r2 => some ([child], r2)
          | _ => none

end

/-- Mirror of `pipeline._parse_newick`: strip, require a trailing `;`,
parse one subtree and require the cursor to rest on `;`. -/
def parse_newick (s : String) : Option NNode :=
  let text := s.trim
  if text.endsWith ";" then
    match parseSubtree (2 * text.length + 2) text.data with
    | some (root, rest) =>
        match rest with
        | ';' :: _ => some root
        | _ => none
    | none => none
  else none

/-- `{seq_id: idx for idx, seq_id in enumerate(frame.ids)}`: for duplicate
identifiers the Python dict keeps the last index. -/
def lastIndexOf (ids : List String) (label : String) : Option Nat :=
  ((ids.enum.filter (fun p => p.2 == label)).getLast?).map (fun p => p.1)

mutual

/-- Mirror of the nested `traverse` function of
`pipeline._tree_guided_order`: collect leaf indices depth-first, failing on
unknown or repeated labels (an empty child list marks a leaf). -/
def traverseNode (idIx : String → Option Nat) : NNode → List Nat → Option (List Nat)
  | NNode.mk label children, acc =>
      match children with
      | [] =>
          match label with
          | none => none
          | some lab =>
              match idIx lab with
              | none => none
              | some i => if acc.contains i then none else some (acc ++ [i])
      | c :: cs => traverseList idIx (c :: cs) acc

/-- Sequential traversal of a child list. -/
def traverseList (idIx : String → Option Nat) : List NNode → List Nat → Option (List Nat)
  | [], acc => some acc
  | c :: cs, acc =>
      match traverseNode idIx c acc with
      | none => none
      | some acc2 => traverseList idIx cs acc2

end

/-- Mirror of `pipeline._tree_guided_order`: a depth-first leaf order from
the `tree_newick` metadata hint, validated to be a permutation of the row
indices. -/
def tree_guided_order (frame : AlignmentFrame) : Option (List Nat) :=
  match frame.metadata.tree_newick with
  | none => none
  | some tn =>
      if tn.trim.length = 0 then none
      else
        match parse_newick tn with
        | none => none
        | some root =>
            match traverseNode (lastIndexOf frame.ids) root [] with
            | none => none
            | some order =>
                if order.length ≠ frame.num_sequences then none
                else if order.insertionSort (fun a b => a ≤ b) ≠
                    List.range frame.num_sequences then none
                else some order

/-- Row reordering by an index list, mirror of the
`alignment_from_sequences(ids=[frame.ids[idx] for idx in order], ...)`
calls in `pipeline._compute_similarity_order`. -/
def reorderFrame (frame : AlignmentFrame) (order : List Nat) : AlignmentFrame :=
  alignment_from_sequences (order.map (fun i => frame.ids.getD i ""))
    (order.map (fun i => frame.sequences.getD i [])) (some frame.alphabet) frame.metadata

/-- Mirror of `pipeline._compute_similarity_order`; `env` is the lowered
`ECOMP_SEQUENCE_ORDER` value consulted by `_choose_order`. -/
def compute_similarity_order (frame : AlignmentFrame) (env : String) :
    AlignmentFrame × List Nat × String :=
  let n := frame.num_sequences
  let baseline := List.range n
  if n ≤ 2 then (frame, baseline, "baseline")
  else
    match tree_guided_order frame with
    | some tree_order =>
        if tree_order = baseline then (frame, tree_order, "tree")
        else (reorderFrame frame tree_order, tree_order, "tree")
    | none =>
        if frame.alignment_length = 0 then (frame, baseline, "baseline")
        else
          let sample := select_sample_indices frame.alignment_length
          let m := build_distance_matrix frame.sequences sample
          let candidates := [("baseline", baseline), ("mst", mst_sequence_order m),
            ("greedy", greedy_sequence_order m)]
          let chosen := choose_order m candidates env
          if chosen.1 = baseline then (frame, chosen.1, chosen.2)
          else (reorderFrame frame chosen.1, chosen.1, chosen.2)

/-- The fold body of `bestCandidate`. -/
def bestStep (m : List (List Nat)) (best : Option (String × List Nat × Nat))
    (kv : String × List Nat) : Option (String × List Nat × Nat) :=
  let cost := order_cost kv.2 m
  match best with
  | none => some (kv.1, kv.2, cost)
  | some b =>
      if cost < b.2.2 ∨ (cost = b.2.2 ∧ kv.1 < b.1) then some (kv.1, kv.2, cost)
      else some b

theorem bestCandidate_eq_fold (m : List (List Nat)) (l : List (String × List Nat)) :
    bestCandidate m l = l.foldl (bestStep m) none := rfl

theorem bestFold_some (m : List (List Nat)) (l : List (String × List Nat))
    (b0 : String × List Nat × Nat) (hco : b0.2.2 = order_cost b0.2.1 m) :
    ∃ b, l.foldl (bestStep m) (some b0) = some b ∧
      ((b.1, b.2.1) = (b0.1, b0.2.1) ∨ (b.1, b.2.1) ∈ l) ∧
      b.2.2 = order_cost b.2.1 m ∧ b.2.2 ≤ b0.2.2 ∧
      ∀ c ∈ l, b.2.2 ≤ order_cost c.2 m := by
  induction l generalizing b0 with
  | nil => exact ⟨b0, rfl, Or.inl rfl, hco, le_refl _, by simp⟩
  | cons kv t ih =>
      simp only [List.foldl_cons]
      by_cases hrep : order_cost kv.2 m < b0.2.2 ∨
          (order_cost kv.2 m = b0.2.2 ∧ kv.1 < b0.1)
      · have hstep : bestStep m (some b0) kv = some (kv.1, kv.2, order_cost kv.2 m) := by
          unfold bestStep
          simp only [if_pos hrep]
        rw [hstep]
        obtain ⟨b, hb, hmem, hbc, hble, hmin⟩ := ih (kv.1, kv.2, order_cost kv.2 m) rfl
        have hcostle : order_cost kv.2 m ≤ b0.2.2 := by
          rcases hrep with h | h
          · exact le_of_lt h
          · exact le_of_eq h.1
        refine ⟨b, hb, ?_, hbc, le_trans hble hcostle, ?_⟩
        · rcases hmem with h | h
          · have h2 : ((b.1, b.2.1) : String × List Nat) = kv := h
            exact Or.inr (by rw [h2]; exact List.mem_cons_self kv t)
          · exact Or.inr (List.mem_cons_of_mem _ h)
        · intro c hc
          rcases List.mem_cons.mp hc with rfl | hct
          · exact hble
          · exact hmin c hct
      · have hstep : bestStep m (some b0) kv = some b0 := by
          unfold bestStep
          simp only [if_neg hrep]
        rw [hstep]
        obtain ⟨b, hb, hmem, hbc, hble, hmin⟩ := ih b0 hco
        refine ⟨b, hb, ?_, hbc, hble, ?_⟩
        · rcases hmem with h | h
          · exact Or.inl h
          · exact Or.inr (List.mem_cons_of_mem _ h)
        · intro c hc
          rcases List.mem_cons.mp hc with rfl | hct
          · have : b0.2.2 ≤ order_cost c.2 m := by
              push_neg at hrep
              exact hrep.1
            exact le_trans hble this
          · exact hmin c hct

/-- The fold body of `dedupByOrder`. -/
def dedupBody (acc : List (String × List Nat)) (c : String × List Nat) :
    List (String × List Nat) :=
  if acc.any (fun kv => kv.2 == c.2) then acc else acc ++ [c]

theorem dedupByOrder_eq_fold (cands : List (String × List Nat)) :
    dedupByOrder cands = cands.foldl dedupBody [] := rfl

theorem dedupFold_subset (l : List (String × List Nat)) (acc : List (String × List Nat)) :
    ∀ u ∈ l.foldl dedupBody acc, u ∈ acc ∨ u ∈ l := by
  induction l generalizing acc with
  | nil => intro u hu; exact Or.inl hu
  | cons c t ih =>
      intro u hu
      simp only [List.foldl_cons] at hu
      rcases ih (dedupBody acc c) u hu with h1 | h2
      · unfold dedupBody at h1
        by_cases hany : acc.any (fun kv => kv.2 == c.2)
        · rw [if_pos hany] at h1
          exact Or.inl h1
        · rw [if_neg hany] at h1
          rcases List.mem_append.mp h1 with ha | hc
          · exact Or.inl ha
          · exact Or.inr (by simp at hc; simp [hc])
      · exact Or.inr (List.mem_cons_of_mem _ h2)

theorem dedupFold_mono (l : List (String × List Nat)) (acc : List (String × List Nat)) :
    ∀ u ∈ acc, u ∈ l.foldl dedupBody acc := by
  induction l generalizing acc with
  | nil => intro u hu; exact hu
  | cons c t ih =>
      intro u hu
      simp only [List.foldl_cons]
      apply ih
      unfold dedupBody
      by_cases hany : acc.any (fun kv => kv.2 == c.2)
      · rw [if_pos hany]; exact hu
      · rw [if_neg hany]; exact List.mem_append_left _ hu

theorem dedupFold_covers (l : List (String × List Nat)) (acc : List (String × List Nat)) :
    ∀ c ∈ l, ∃ u ∈ l.foldl dedupBody acc, u.2 = c.2 := by
  induction l generalizing acc with
  | nil => intro c hc; simp at hc
  | cons c0 t ih =>
      intro c hc
      simp only [List.foldl_cons]
      rcases List.mem_cons.mp hc with rfl | hct
      · unfold dedupBody
        by_cases hany : acc.any (fun kv => kv.2 == c.2)
        · rw [if_pos hany]
          obtain ⟨x, hx, hx2⟩ := List.any_eq_true.mp hany
          exact ⟨x, dedupFold_mono t acc x hx, by simpa using hx2⟩
        · rw [if_neg hany]
          exact ⟨c, dedupFold_mono t _ c (List.mem_append_right _ (by simp)), rfl⟩
      · exact ih _ c hct

theorem dedupByOrder_ne_nil (cands : List (String × List Nat)) (h : cands ≠ []) :
    dedupByOrder cands ≠ [] := by
  match cands, h with
  | c :: t, _ =>
      obtain ⟨u, hu, _⟩ := dedupFold_covers (c :: t) [] c (by simp)
      rw [dedupByOrder_eq_fold]
      intro hnil
      rw [hnil] at hu
      simp at hu

/-- In the auto path (no explicit override), `_choose_order` returns a
candidate of minimal cost and labels it `auto-<label>`. -/
theorem choose_order_auto (m : List (List Nat)) (cands : List (String × List Nat))
    (env : String) (henv : ¬(env = "baseline" ∨ env = "mst" ∨ env = "greedy"))
    (hne : cands ≠ []) :
    ∃ w ∈ cands, (choose_order m cands env).1 = w.2 ∧
      (choose_order m cands env).2 = "auto-" ++ w.1 ∧
      ∀ c ∈ cands, order_cost w.2 m ≤ order_cost c.2 m := by
  have huniq : dedupByOrder cands ≠ [] := dedupByOrder_ne_nil cands hne
  rcases hd : dedupByOrder cands with _ | ⟨kv, t⟩
  · exact absurd hd huniq
  · have hbest := bestFold_some m t (kv.1, kv.2, order_cost kv.2 m) rfl
    obtain ⟨b, hb, hmem, hbc, hble, hmin⟩ := hbest
    have hchoose : choose_order m cands env = (b.2.1, "auto-" ++ b.1) := by
      unfold choose_order
      rw [if_neg henv, hd]
      rw [show bestCandidate m (kv :: t) = some b by
        rw [bestCandidate_eq_fold]
        simpa [bestStep, List.foldl_cons] using hb]
    have hwmem : ((b.1, b.2.1) : String × List Nat) ∈ dedupByOrder cands := by
      rw [hd]
      rcases hmem with h | h
      · have h2 : ((b.1, b.2.1) : String × List Nat) = kv := h
        rw [h2]; exact List.mem_cons_self kv t
      · exact List.mem_cons_of_mem _ h
    refine ⟨(b.1, b.2.1), ?_, by rw [hchoose], by rw [hchoose], ?_⟩
    · rcases dedupFold_subset cands [] _ (by rw [← dedupByOrder_eq_fold]; exact hwmem)
        with h | h
      · simp at h
      · exact h
    · intro c hc
      obtain ⟨u, hu, hu2⟩ := dedupFold_covers cands [] c hc
      rw [← dedupByOrder_eq_fold, hd] at hu
      have hcost : order_cost u.2 m = order_cost c.2 m := by rw [hu2]
      have hbu : b.2.2 ≤ order_cost u.2 m := by
        rcases List.mem_cons.mp hu with rfl | hut
        · exact hble
        · exact hmin u hut
      calc order_cost b.2.1 m = b.2.2 := hbc.symm
        _ ≤ order_cost u.2 m := hbu
        _ = order_cost c.2 m := hcost

/-- The sampled distance matrix used by the similarity-order path for a
frame. -/
def frameMatrix (frame : AlignmentFrame) : List (List Nat) :=
  build_distance_matrix frame.sequences (select_sample_indices frame.alignment_length)

/-- C3 (amended): in the automatic cost-contest path (no explicit
`ECOMP_SEQUENCE_ORDER` override and no tree-guided order) the chosen row
order's consecutive-row sampled-distance cost is at most the baseline
(identity) cost, and the recorded label is either `baseline` (degenerate
frames) or `auto-` followed by the label of a winning candidate whose
order is the one returned; under an explicit override or a tree-guided
order the cost bound does not hold in general. -/
theorem C3_ordering_contract (frame : AlignmentFrame) (env : String)
    (henv : ¬(env = "baseline" ∨ env = "mst" ∨ env = "greedy"))
    (htree : tree_guided_order frame = none) :
    order_cost (compute_similarity_order frame env).2.1 (frameMatrix frame) ≤
      order_cost (List.range frame.num_sequences) (frameMatrix frame) ∧
    (((compute_similarity_order frame env).2.2 = "baseline" ∧
        (compute_similarity_order frame env).2.1 = List.range frame.num_sequences) ∨
      ∃ w ∈ [("baseline", List.range frame.num_sequences),
          ("mst", mst_sequence_order (frameMatrix frame)),
          ("greedy", greedy_sequence_order (frameMatrix frame))],
        (compute_similarity_order frame env).2.1 = w.2 ∧
        (compute_similarity_order frame env).2.2 = "auto-" ++ w.1) := by
  by_cases hn : frame.num_sequences ≤ 2
  · have hred : compute_similarity_order frame env =
        (frame, List.range frame.num_sequences, "baseline") := by
      unfold compute_similarity_order
      rw [if_pos hn]
    rw [hred]
    exact ⟨le_refl _, Or.inl ⟨rfl, rfl⟩⟩
  · have hred : compute_similarity_order frame env =
        (if frame.alignment_length = 0 then
          (frame, List.range frame.num_sequences, "baseline")
        else if (choose_order (frameMatrix frame)
            [("baseline", List.range frame.num_sequences),
              ("mst", mst_sequence_order (frameMatrix frame)),
              ("greedy", greedy_sequence_order (frameMatrix frame))] env).1 =
            List.range frame.num_sequences then
          (frame, (choose_order (frameMatrix frame)
            [("baseline", List.range frame.num_sequences),
              ("mst", mst_sequence_order (frameMatrix frame)),
              ("greedy", greedy_sequence_order (frameMatrix frame))] env).1,
            (choose_order (frameMatrix frame)
            [("baseline", List.range frame.num_sequences),
              ("mst", mst_sequence_order (frameMatrix frame)),
              ("greedy", greedy_sequence_order (frameMatrix frame))] env).2)
        else (reorderFrame frame ((choose_order (frameMatrix frame)
            [("baseline", List.range frame.num_sequences),
              ("mst", mst_sequence_order (frameMatrix frame)),
              ("greedy", greedy_sequence_order (frameMatrix frame))] env).1),
            (choose_order (frameMatrix frame)
            [("baseline", List.range frame.num_sequences),
              ("mst", mst_sequence_order (frameMatrix frame)),
              ("greedy", greedy_sequence_order (frameMatrix frame))] env).1,
            (choose_order (frameMatrix frame)
            [("baseline", List.range frame.num_sequences),
              ("mst", mst_sequence_order (frameMatrix frame)),
              ("greedy", greedy_sequence_order (frameMatrix frame))] env).2)) := by
      unfold compute_similarity_order
      rw [if_neg hn, htree]
      rfl
    rw [hred]
    by_cases hlen : frame.alignment_length = 0
    · rw [if_pos hlen]
      exact ⟨le_refl _, Or.inl ⟨rfl, rfl⟩⟩
    · rw [if_neg hlen]
      obtain ⟨w, hw, hw1, hw2, hwmin⟩ := choose_order_auto (frameMatrix frame)
        [("baseline", List.range frame.num_sequences),
          ("mst", mst_sequence_order (frameMatrix frame)),
          ("greedy", greedy_sequence_order (frameMatrix frame))] env henv (by simp)
      have hcost : order_cost (choose_order (frameMatrix frame)
          [("baseline", List.range frame.num_sequences),
            ("mst", mst_sequence_order (frameMatrix frame)),
            ("greedy", greedy_sequence_order (frameMatrix frame))] env).1
          (frameMatrix frame) ≤
          order_cost (List.range frame.num_sequences) (frameMatrix frame) := by
        rw [hw1]
        exact hwmin ("baseline", List.range frame.num_sequences) (by simp)
      by_cases hbase : (choose_order (frameMatrix frame)
          [("baseline", List.range frame.num_sequences),
            ("mst", mst_sequence_order (frameMatrix frame)),
            ("greedy", greedy_sequence_order (frameMatrix frame))] env).1 =
          List.range frame.num_sequences
      · rw [if_pos hbase]
        exact ⟨by rw [hbase], Or.inr ⟨w, hw, hw1, hw2⟩⟩
      · rw [if_neg hbase]
        exact ⟨hcost, Or.inr ⟨w, hw, hw1, hw2⟩⟩

/-- The four-row frame used to exercise the ordering claims. -/
def exFrameC3 : AlignmentFrame :=
  alignment_from_sequences ["s0", "s1", "s2", "s3"]
    [['A', 'A', 'A', 'A'], ['T', 'A', 'A', 'A'], ['T', 'T', 'A', 'A'], ['T', 'T', 'T', 'A']]
    none ⟨none, none⟩

/-- C3 counterexample: under the explicit override `greedy` the optimizer
returns the greedy order whose cost (4) exceeds the baseline cost (3), so
the cost bound does not hold on every selection path. -/
theorem C3_counterexample :
    order_cost (List.range exFrameC3.num_sequences) (frameMatrix exFrameC3) <
      order_cost (compute_similarity_order exFrameC3 "greedy").2.1 (frameMatrix exFrameC3) := by
  decide

/-- Witness for C3 at a concrete frame in the auto path. -/
theorem C3_witness :
    order_cost (compute_similarity_order exFrameC3 "auto").2.1 (frameMatrix exFrameC3) ≤
      order_cost (List.range exFrameC3.num_sequences) (frameMatrix exFrameC3) ∧
    (((compute_similarity_order exFrameC3 "auto").2.2 = "baseline" ∧
        (compute_similarity_order exFrameC3 "auto").2.1 = List.range exFrameC3.num_sequences) ∨
      ∃ w ∈ [("baseline", List.range exFrameC3.num_sequences),
          ("mst", mst_sequence_order (frameMatrix exFrameC3)),
          ("greedy", greedy_sequence_order (frameMatrix exFrameC3))],
        (compute_similarity_order exFrameC3 "auto").2.1 = w.2 ∧
        (compute_similarity_order exFrameC3 "auto").2.2 = "auto-" ++ w.1) :=
  C3_ordering_contract exFrameC3 "auto" (by decide) (by decide)

/-- The external collaborators consumed by the pipeline: the UTF-8 codec of
`str.encode`/`bytes.decode`, the generic compressors (`zstandard`, `zlib`,
`lzma`, `gzip`), and `diagnostics.checksums.alignment_checksum` (SHA-256,
absent from the snapshot and spec-modelled as an opaque digest function).
`zstdAvail` models whether the optional `zstandard` module imported. -/
structure Ext where
  utf8enc : String → List Nat
  utf8dec : List Nat → Option String
  zstdAvail : Bool
  zstdC : List Nat → List Nat
  zstdD : List Nat → Option (List Nat)
  zlibC : List Nat → List Nat
  zlibD : List Nat → Option (List Nat)
  xzC : List Nat → List Nat
  xzD : List Nat → Option (List Nat)
  gzipC : Nat → List Nat → List Nat
  gzipD : List Nat → Option (List Nat)
  sha : List (List Char) → String

/-- The documented inverse properties of the external codecs.  `gzipC`
takes the gzip header mtime as its first argument: Python's
`gzip.compress` reads the current clock and writes it into bytes 4..7 of
the output, so the compressed bytes are a function of the input *and* of
the time of the call (decompression ignores the stored mtime). -/
def Ext.RoundTrip (E : Ext) : Prop :=
  (∀ s, E.utf8dec (E.utf8enc s) = some s) ∧
  (∀ x, E.zstdD (E.zstdC x) = some x) ∧
  (∀ x, E.zlibD (E.zlibC x) = some x) ∧
  (∀ x, E.xzD (E.xzC x) = some x) ∧
  (∀ mt x, E.gzipD (E.gzipC mt x) = some x)

/-- A concrete instantiation of the collaborators (identity compressors,
code-point UTF-8 stand-in) used by the closed witnesses. -/
def extId : Ext where
  utf8enc := fun s => s.data.map Char.toNat
  utf8dec := fun l => some (String.mk (l.map Char.ofNat))
  zstdAvail := true
  zstdC := fun x => x
  zstdD := fun x => some x
  zlibC := fun x => x
  zlibD := fun x => some x
  xzC := fun x => x
  xzD := fun x => some x
  gzipC := fun _ x => x
  gzipD := fun x => some x
  sha := fun rows => String.mk (('h' :: rows.flatMap (fun r => r)).take 64)

theorem extId_roundTrip : extId.RoundTrip := by
  refine ⟨fun s => ?_, fun x => rfl, fun x => rfl, fun x => rfl, fun mt x => rfl⟩
  show some (String.mk ((s.data.map Char.toNat).map Char.ofNat)) = some s
  rw [List.map_map]
  have : (Char.ofNat ∘ Char.toNat) = id := by
    funext c
    exact Char.ofNat_toNat c
  rw [this, List.map_id]

/-- Mirror of `pipeline._encode_varint` (7-bit little-endian groups with a
continuation bit); the structural fuel dominates the loop count. -/
def encode_varint (v : Nat) : List Nat :=
  go v (v + 1)
where
  go : Nat → Nat → List Nat
    | _, 0 => []
    | v, fuel + 1 => if v < 128 then [v] else (v % 128 + 128) :: go (v / 128) fuel

/-- Mirror of `pipeline._decode_varint`: `none` models the raised
`ValueError` on underflow or a varint longer than `shift > 56` allows. -/
def decode_varint (l : List Nat) : Option (Nat × List Nat) :=
  go l 0 0
where
  go : List Nat → Nat → Nat → Option (Nat × List Nat)
    | [], _, _ => none
    | b :: rest, shift, acc =>
        let acc2 := acc + (b % 128) * 2 ^ shift
        if b < 128 then some (acc2, rest)
        else if 56 < shift + 7 then none
        else go rest (shift + 7) acc2

/-- The plain (mode-0) body of the sequence-ID block: varint name count,
then varint length plus UTF-8 bytes per name. -/
def seqIdPlain (E : Ext) (ids : List String) : List Nat :=
  encode_varint ids.length ++
    ids.flatMap (fun name => encode_varint (E.utf8enc name).length ++ E.utf8enc name)

/-- The compression contest of `pipeline._encode_sequence_ids`: zstd (mode
1) is tried first and accepted if it beats plain by at least 2 bytes; only
otherwise is zlib (mode 2) tried under the same margin; otherwise plain
(mode 0). -/
def seqIdSelect (E : Ext) (plain : List Nat) : Nat × List Nat :=
  let first := if E.zstdAvail ∧ (E.zstdC plain).length + 1 < plain.length
    then ((1 : Nat), E.zstdC plain) else ((0 : Nat), plain)
  if first.1 = 0 then
    if (E.zlibC plain).length + 1 < plain.length then ((2 : Nat), E.zlibC plain)
    else ((0 : Nat), plain)
  else first

/-- Mirror of `pipeline._encode_sequence_ids`: `ECID`, version 2, varint
block length, mode byte, payload. -/
def encode_sequence_ids (E : Ext) (ids : List String) : List Nat :=
  let plain := seqIdPlain E ids
  let sel := seqIdSelect E plain
  [69, 67, 73, 68] ++ [2] ++ encode_varint (sel.2.length + 1) ++ (sel.1 :: sel.2)

/-- C8 (amended): the sequence-ID encoder tries zstd (mode 1) first and
accepts it as soon as it beats the plain encoding by at least 2 bytes —
without comparing it against zlib; only when zstd is unavailable or missed
the margin is zlib (mode 2) tried under the same margin; otherwise plain
mode 0 is written.  The emitted block is `ECID`, version 2, a varint block
length and the mode byte followed by the selected payload. -/
theorem C8_seqid_selection (E : Ext) (ids : List String) :
    encode_sequence_ids E ids = [69, 67, 73, 68] ++ [2]
      ++ encode_varint ((seqIdSelect E (seqIdPlain E ids)).2.length + 1)
      ++ ((seqIdSelect E (seqIdPlain E ids)).1 :: (seqIdSelect E (seqIdPlain E ids)).2) ∧
    ((E.zstdAvail = true ∧
        (E.zstdC (seqIdPlain E ids)).length + 2 ≤ (seqIdPlain E ids).length ∧
        seqIdSelect E (seqIdPlain E ids) = (1, E.zstdC (seqIdPlain E ids))) ∨
      (¬(E.zstdAvail = true ∧
          (E.zstdC (seqIdPlain E ids)).length + 2 ≤ (seqIdPlain E ids).length) ∧
        (E.zlibC (seqIdPlain E ids)).length + 2 ≤ (seqIdPlain E ids).length ∧
        seqIdSelect E (seqIdPlain E ids) = (2, E.zlibC (seqIdPlain E ids))) ∨
      (¬(E.zstdAvail = true ∧
          (E.zstdC (seqIdPlain E ids)).length + 2 ≤ (seqIdPlain E ids).length) ∧
        ¬((E.zlibC (seqIdPlain E ids)).length + 2 ≤ (seqIdPlain E ids).length) ∧
        seqIdSelect E (seqIdPlain E ids) = (0, seqIdPlain E ids))) := by
  refine ⟨rfl, ?_⟩
  by_cases hz : E.zstdAvail ∧ (E.zstdC (seqIdPlain E ids)).length + 1 < (seqIdPlain E ids).length
  · left
    refine ⟨hz.1, by omega, ?_⟩
    unfold seqIdSelect
    rw [if_pos hz]
    rfl
  · have hz2 : ¬(E.zstdAvail = true ∧
        (E.zstdC (seqIdPlain E ids)).length + 2 ≤ (seqIdPlain E ids).length) := by
      intro hc
      exact hz ⟨hc.1, by omega⟩
    have hsel0 : seqIdSelect E (seqIdPlain E ids) =
        (if (E.zlibC (seqIdPlain E ids)).length + 1 < (seqIdPlain E ids).length
          then ((2 : Nat), E.zlibC (seqIdPlain E ids))
          else ((0 : Nat), seqIdPlain E ids)) := by
      unfold seqIdSelect
      rw [if_neg hz]
      rfl
    by_cases hl : (E.zlibC (seqIdPlain E ids)).length + 1 < (seqIdPlain E ids).length
    · right; left
      exact ⟨hz2, by omega, by rw [hsel0, if_pos hl]⟩
    · right; right
      exact ⟨hz2, by omega, by rw [hsel0, if_neg hl]⟩

/-- The collaborator instantiation exhibiting the C8 counterexample: zstd
barely beats plain while zlib is strictly smaller. -/
def extC8 : Ext := { extId with zstdC := fun _ => [0, 0], zlibC := fun _ => [0] }

/-- C8 counterexample: mode 1 is accepted (zstd beats plain by exactly 2)
even though the zlib candidate also beats plain by ≥ 2 bytes and is
strictly smaller, so the encoder does not accept the smallest qualifying
candidate. -/
theorem C8_counterexample :
    (seqIdSelect extC8 (seqIdPlain extC8 ["ab"])).1 = 1 ∧
    (extC8.zlibC (seqIdPlain extC8 ["ab"])).length + 2 ≤ (seqIdPlain extC8 ["ab"]).length ∧
    (extC8.zlibC (seqIdPlain extC8 ["ab"])).length <
      (extC8.zstdC (seqIdPlain extC8 ["ab"])).length := by
  decide

/-- The metadata record assembled by `compress_alignment` (the dict keys of
`pipeline.py` lines 504-525 as structure fields; `format_version` comes from
the absent `config.py` and is spec-modelled as an opaque string). -/
structure Metadata where
  format_version : String
  codec : String
  num_sequences : Nat
  alignment_length : Nat
  alphabet : List Char
  source_format : String
  checksum_sha256 : Option String
  run_length_blocks : Nat
  max_run_length : Nat
  columns_with_deviations : Nat
  bitmask_bytes : Nat
  bits_per_symbol : Nat
  payload_encoding : String
  payload_encoded_bytes : Nat
  payload_raw_bytes : Nat
  sequence_id_codec : String
  ordering_strategy : String
  sequence_permutation : Option (List Nat)
  sequence_ids : Option (List String)
  fallback : Option (String × String)
  deriving DecidableEq, Repr

/-- Mirror of `pipeline._alignment_to_fasta_bytes`: `>id\nrow\n` repeated,
UTF-8 encoded. -/
def alignment_to_fasta_bytes (E : Ext) (frame : AlignmentFrame) : List Nat :=
  E.utf8enc (String.join ((frame.ids.zip frame.sequences).map
    (fun p => ">" ++ p.1 ++ "\n" ++ String.mk p.2 ++ "\n")))

/-- Mirror of `pipeline._maybe_use_gzip_fallback`: gzip the FASTA form of
the original frame; replace the payload when the gzip is at least 2 bytes
smaller than the structured payload and smaller than the FASTA itself,
clearing the permutation and recording the fallback (the `codec` field is
not touched).  `mt` is the clock value `gzip.compress` stamps into the
gzip header at the moment of the call. -/
def maybe_use_gzip_fallback (E : Ext) (mt : Nat) (original : AlignmentFrame)
    (payload : List Nat) (md : Metadata) : List Nat × Metadata :=
  let fasta := alignment_to_fasta_bytes E original
  let gz := E.gzipC mt fasta
  if gz.length + 1 < payload.length ∧ gz.length < fasta.length then
    (gz, { md with
      sequence_permutation := none,
      fallback := some ("gzip", md.source_format),
      payload_encoding := "gzip",
      payload_encoded_bytes := gz.length,
      payload_raw_bytes := fasta.length })
  else (payload, md)

/-- C2 (amended): exactly when the gzip of the original frame's FASTA beats
the structured payload by at least 2 bytes and is smaller than the FASTA,
the payload is replaced by the gzip bytes, the permutation entry is
removed, `payload_encoding` becomes `gzip`, the sizes are updated and a
fallback record `("gzip", source_format)` is added; the metadata `codec`
field is left unchanged (it stays `ecomp`; nothing sets `fallback-gzip`). -/
theorem C2_gzip_fallback (E : Ext) (mt : Nat) (original : AlignmentFrame)
    (payload : List Nat) (md : Metadata) :
    ((E.gzipC mt (alignment_to_fasta_bytes E original)).length + 2 ≤ payload.length ∧
        (E.gzipC mt (alignment_to_fasta_bytes E original)).length <
          (alignment_to_fasta_bytes E original).length →
      maybe_use_gzip_fallback E mt original payload md =
        (E.gzipC mt (alignment_to_fasta_bytes E original), { md with
          sequence_permutation := none,
          fallback := some ("gzip", md.source_format),
          payload_encoding := "gzip",
          payload_encoded_bytes := (E.gzipC mt (alignment_to_fasta_bytes E original)).length,
          payload_raw_bytes := (alignment_to_fasta_bytes E original).length })) ∧
    (¬((E.gzipC mt (alignment_to_fasta_bytes E original)).length + 2 ≤ payload.length ∧
        (E.gzipC mt (alignment_to_fasta_bytes E original)).length <
          (alignment_to_fasta_bytes E original).length) →
      maybe_use_gzip_fallback E mt original payload md = (payload, md)) ∧
    (maybe_use_gzip_fallback E mt original payload md).2.codec = md.codec := by
  refine ⟨?_, ?_, ?_⟩
  · intro h
    unfold maybe_use_gzip_fallback
    rw [if_pos ⟨by omega, h.2⟩]
  · intro h
    unfold maybe_use_gzip_fallback
    rw [if_neg (by
      intro hc
      exact h ⟨by omega, hc.2⟩)]
  · unfold maybe_use_gzip_fallback
    by_cases h : (E.gzipC mt (alignment_to_fasta_bytes E original)).length + 1 < payload.length ∧
        (E.gzipC mt (alignment_to_fasta_bytes E original)).length <
          (alignment_to_fasta_bytes E original).length
    · rw [if_pos h]
    · rw [if_neg h]

/-- Collaborator instantiation whose gzip output is tiny, used to trigger
the fallback concretely. -/
def extGz : Ext := { extId with gzipC := fun _ _ => [0, 0] }

/-- A concrete metadata value as produced by the structured path. -/
def mdC2 : Metadata where
  format_version := "1.0"
  codec := "ecomp"
  num_sequences := 4
  alignment_length := 4
  alphabet := ['A', 'T']
  source_format := "fasta"
  checksum_sha256 := some "d"
  run_length_blocks := 1
  max_run_length := 4
  columns_with_deviations := 4
  bitmask_bytes := 1
  bits_per_symbol := 1
  payload_encoding := "raw"
  payload_encoded_bytes := 5
  payload_raw_bytes := 5
  sequence_id_codec := "inline"
  ordering_strategy := "baseline"
  sequence_permutation := none
  sequence_ids := none
  fallback := none

/-- C2 counterexample: the fallback fires (gzip record added, payload
replaced) yet the metadata `codec` field still reads `ecomp`, not
`fallback-gzip` as the claim states. -/
theorem C2_counterexample :
    (maybe_use_gzip_fallback extGz 0 exFrameC3 [9, 9, 9, 9, 9] mdC2).2.fallback =
      some ("gzip", "fasta") ∧
    (maybe_use_gzip_fallback extGz 0 exFrameC3 [9, 9, 9, 9, 9] mdC2).2.payload_encoding =
      "gzip" ∧
    (maybe_use_gzip_fallback extGz 0 exFrameC3 [9, 9, 9, 9, 9] mdC2).2.codec = "ecomp" ∧
    ("ecomp" : String) ≠ "fallback-gzip" := by
  decide

/-- Witness for the amended C2 at the same concrete input. -/
theorem C2_witness :
    maybe_use_gzip_fallback extGz 0 exFrameC3 [9, 9, 9, 9, 9] mdC2 =
      (extGz.gzipC 0 (alignment_to_fasta_bytes extGz exFrameC3), { mdC2 with
        sequence_permutation := none,
        fallback := some ("gzip", mdC2.source_format),
        payload_encoding := "gzip",
        payload_encoded_bytes := (extGz.gzipC 0 (alignment_to_fasta_bytes extGz exFrameC3)).length,
        payload_raw_bytes := (alignment_to_fasta_bytes extGz exFrameC3).length }) :=
  (C2_gzip_fallback extGz 0 exFrameC3 [9, 9, 9, 9, 9] mdC2).1 (by decide)

theorem beVal_u64be (n : Nat) (h : n < 18446744073709551616) : beVal (u64be n) = n := by
  unfold beVal u64be
  simp only [List.foldl]
  omega

/-- The metadata blob: canonical JSON stored plainly, or `ECMZ` plus a
1-byte codec version plus the zlib-compressed JSON when that is smaller by
at least the prefix size plus one byte (mirror of the choice in
`storage.write_metadata`; `jsonBytes` is the canonical JSON rendering —
`json.dumps(..., sort_keys=True, separators=(",", ":"))` — produced by the
external JSON library). -/
def metadataBlob (E : Ext) (jsonBytes : List Nat) : List Nat :=
  let compressed := E.zlibC jsonBytes
  if compressed.length + 4 + 1 < jsonBytes.length then
    [69, 67, 77, 90] ++ [1] ++ compressed
  else jsonBytes

/-- Modelled from the spec: `ecomp.storage.write_archive` (the single-file
archive writer is absent from the snapshot; only `write_payload` and the
sidecar `write_metadata` are present).  Per §4.10/§6: magic `ECMP`, three
version bytes, big-endian u64 payload length, big-endian u32 metadata
length, payload bytes, metadata blob. -/
def write_archive (E : Ext) (vmaj vmin vpat : Nat) (payload jsonBytes : List Nat) :
    List Nat :=
  [69, 67, 77, 80] ++ [vmaj, vmin, vpat] ++ u64be payload.length
    ++ u32be (metadataBlob E jsonBytes).length ++ payload ++ metadataBlob E jsonBytes

/-- C5: the archive is one byte string: magic, three version bytes, a
big-endian u64 payload length and u32 metadata length that decode back to
the true lengths, the payload, then the metadata blob, which is the
canonical JSON either plain or `ECMZ`-prefixed zlib exactly when the
compressed form wins by at least the prefix size (5) plus one byte. -/
theorem C5_archive_layout (E : Ext) (vmaj vmin vpat : Nat) (payload jsonBytes : List Nat)
    (hp : payload.length < 18446744073709551616)
    (hm : (metadataBlob E jsonBytes).length < 4294967296) :
    write_archive E vmaj vmin vpat payload jsonBytes =
      [69, 67, 77, 80] ++ [vmaj, vmin, vpat] ++ u64be payload.length
        ++ u32be (metadataBlob E jsonBytes).length ++ payload ++ metadataBlob E jsonBytes ∧
    beVal (u64be payload.length) = payload.length ∧
    beVal (u32be (metadataBlob E jsonBytes).length) = (metadataBlob E jsonBytes).length ∧
    (jsonBytes.length ≥ (E.zlibC jsonBytes).length + 6 →
      metadataBlob E jsonBytes = [69, 67, 77, 90] ++ [1] ++ E.zlibC jsonBytes) ∧
    (jsonBytes.length < (E.zlibC jsonBytes).length + 6 →
      metadataBlob E jsonBytes = jsonBytes) := by
  refine ⟨rfl, beVal_u64be _ hp, beVal_u32be _ hm, ?_, ?_⟩
  · intro h
    unfold metadataBlob
    rw [if_pos (by omega)]
  · intro h
    unfold metadataBlob
    rw [if_neg (by omega)]

/-- Witness for C5 at a concrete payload and metadata rendering. -/
theorem C5_witness :
    write_archive extId 0 3 1 [7, 7] [123, 125] =
      [69, 67, 77, 80] ++ [0, 3, 1] ++ u64be 2 ++ u32be 2 ++ [7, 7]
        ++ metadataBlob extId [123, 125] ∧
    beVal (u64be ([7, 7] : List Nat).length) = 2 ∧
    beVal (u32be (metadataBlob extId [123, 125]).length) = 2 := by
  have h := C5_archive_layout extId 0 3 1 [7, 7] [123, 125] (by decide) (by decide)
  refine ⟨?_, ?_, ?_⟩
  · have h1 := h.1
    rw [h1]
    rfl
  · exact h.2.1
  · have : (metadataBlob extId [123, 125]) = [123, 125] := by decide
    rw [this]
    exact beVal_u32be 2 (by decide)

/-- Modelled from the spec: `consensus.ColumnProfile` — per-column
consensus character plus the ordered `(row_index, residue)` deviations
(§3, `consensus.py` is absent from the snapshot). -/
structure ColumnProfile where
  consensus : Char
  deviations : List (Nat × Char)
  deriving DecidableEq, Repr

/-- Modelled from the spec: the consensus choice of §4.1 — the most
frequent character of the column, ties broken by lexicographically smaller
character. -/
def consensusOf (col : List Char) : Char :=
  let sorted := col.dedup.insertionSort (fun a b => a ≤ b)
  sorted.foldl (fun best c => if col.count c > col.count best then c else best) sorted.headI

/-- Modelled from the spec: `consensus.collect_column_profiles` — one
profile per column left-to-right, deviations in ascending row index
(§4.1). -/
def collect_column_profiles (frame : AlignmentFrame) : List ColumnProfile :=
  (List.range frame.alignment_length).map (fun j =>
    let col := frame.sequences.map (fun row => row.getD j ' ')
    let cons := consensusOf col
    { consensus := cons,
      deviations := (col.enum.filter (fun p => !(p.2 == cons))) })

/-- The profile equivalence key of §3 (consensus plus ordered deviation
list). -/
def profileKey (p : ColumnProfile) : Char × List (Nat × Char) :=
  (p.consensus, p.deviations)

/-- MSB-first bits of a value at a fixed width, the packing unit of §4.2. -/
def bitsOfValue (v : Nat) : Nat → List Bool
  | 0 => []
  | b + 1 => bitsOfValue (v / 2) b ++ [decide (v % 2 = 1)]

theorem bitsOfValue_length (v bits : Nat) : (bitsOfValue v bits).length = bits := by
  induction bits generalizing v with
  | zero => rfl
  | succ b ih => simp [bitsOfValue, ih]

/-- A (up to) 8-bit group read MSB-first into a byte. -/
def bitsToByte (bs : List Bool) : Nat :=
  bs.foldl (fun acc b => acc * 2 + (if b then 1 else 0)) 0

/-- MSB-first byte packing of a bit stream, zero-padded to a whole byte
(§4.2: "big-endian bit packing (MSB first within each byte)"). -/
def packBits (l : List Bool) : List Nat :=
  go l (l.length + 1)
where
  go : List Bool → Nat → List Nat
    | _, 0 => []
    | [], _ + 1 => []
    | l, fuel + 1 =>
        bitsToByte (l.take 8 ++ List.replicate (8 - (l.take 8).length) false)
          :: go (l.drop 8) fuel

/-- Modelled from the spec: the per-block deviation bitmask of §4.2 — bit
`i` (least-significant-first within byte `i / 8`) is set iff row `i`
deviates; width `ceil(num_sequences / 8)` bytes. -/
def bitmaskOf (devRows : List Nat) (n : Nat) : List Nat :=
  (List.range ((n + 7) / 8)).map (fun byteIdx =>
    (List.range 8).foldl (fun acc bit =>
      if devRows.contains (byteIdx * 8 + bit) then acc + 2 ^ bit else acc) 0)

/-- The packed residues of one profile: alphabet indices of the deviation
characters in row order at `bits_per_symbol` bits each (§4.2). -/
def packedResidues (p : ColumnProfile) (alphabet : List Char) (bits : Nat) : List Nat :=
  packBits (p.deviations.flatMap (fun d => bitsOfValue (alphabet.indexOf d.2) bits))

/-- The run-length block for one profile run (§3/§4.2). -/
def blockOfProfile (p : ColumnProfile) (n : Nat) (alphabet : List Char) (bits run : Nat) :
    RunLengthBlock :=
  { consensus := p.consensus,
    bitmask := bitmaskOf (p.deviations.map Prod.fst) n,
    residues := packedResidues p alphabet bits,
    run_length := run }

/-- The fold body of `collect_run_length_blocks`: extend the open block on
an equivalent profile while the run is below 255, otherwise emit. -/
def rleStep (n : Nat) (alphabet : List Char) (bits : Nat)
    (acc : List RunLengthBlock × Option (ColumnProfile × Nat)) (p : ColumnProfile) :
    List RunLengthBlock × Option (ColumnProfile × Nat) :=
  match acc.2 with
  | none => (acc.1, some (p, 1))
  | some (cur, run) =>
      if profileKey cur = profileKey p ∧ run < 255 then (acc.1, some (cur, run + 1))
      else (acc.1 ++ [blockOfProfile cur n alphabet bits run], some (p, 1))

/-- Modelled from the spec: `rle.collect_run_length_blocks` — left-to-right
grouping of equivalent adjacent profiles with runs capped at 255
(§4.2, `rle.py` is absent from the snapshot). -/
def collect_run_length_blocks (profiles : List ColumnProfile) (n : Nat)
    (alphabet : List Char) (bits : Nat) : List RunLengthBlock :=
  let r := profiles.foldl (rleStep n alphabet bits) ([], none)
  match r.2 with
  | none => r.1
  | some (cur, run) => r.1 ++ [blockOfProfile cur n alphabet bits run]

/-- Mirror of `encoding._popcount` on one byte
(`bin(byte).count("1")` for byte values below 256). -/
def popcountByte (b : Nat) : Nat :=
  (List.range 8).countP (fun i => b / 2 ^ i % 2 = 1)

/-- Mirror of `encoding._popcount` over a byte string. -/
def popcountBytes (l : List Nat) : Nat := (l.map popcountByte).sum

theorem popcountByte_ofBits (p : Nat → Bool) :
    popcountByte ((List.range 8).foldl (fun acc bit => if p bit then acc + 2 ^ bit else acc) 0) =
      (List.range 8).countP p := by
  have e : List.range 8 = [0, 1, 2, 3, 4, 5, 6, 7] := rfl
  rw [e]
  rcases h0 : p 0 <;> rcases h1 : p 1 <;> rcases h2 : p 2 <;> rcases h3 : p 3 <;>
    rcases h4 : p 4 <;> rcases h5 : p 5 <;> rcases h6 : p 6 <;> rcases h7 : p 7 <;>
    simp [h0, h1, h2, h3, h4, h5, h6, h7, popcountByte] <;> decide

theorem chunk_countP (rows : List Nat) (B : Nat) :
    ((List.range B).map (fun j =>
      (List.range 8).countP (fun bit => rows.contains (j * 8 + bit)))).sum =
      (List.range (8 * B)).countP (fun i => rows.contains i) := by
  induction B with
  | zero => simp
  | succ B ih =>
      rw [show List.range (B + 1) = List.range B ++ [B] from List.range_succ B,
        List.map_append, List.sum_append]
      have h8 : 8 * (B + 1) = 8 * B + 8 := by ring
      rw [h8, List.range_add, List.countP_append, List.countP_map, ih]
      simp only [List.map_cons, List.map_nil, List.sum_cons, List.sum_nil, Nat.add_zero]
      congr 1
      apply List.countP_congr
      intro bit _
      simp [Function.comp, Nat.mul_comm]

theorem countP_contains_range (rows : List Nat) (M : Nat) (hnd : rows.Nodup)
    (hlt : ∀ r ∈ rows, r < M) :
    (List.range M).countP (fun i => rows.contains i) = rows.length := by
  rw [List.countP_eq_length_filter]
  have hperm : ((List.range M).filter (fun i => rows.contains i)).Perm rows := by
    rw [List.perm_ext_iff_of_nodup ((List.nodup_range M).filter _) hnd]
    intro a
    simp only [List.mem_filter, List.mem_range]
    constructor
    · intro h
      simpa using h.2
    · intro h
      exact ⟨hlt a h, by simpa using h⟩
  exact hperm.length_eq

theorem popcount_bitmaskOf (rows : List Nat) (n : Nat) (hnd : rows.Nodup)
    (hlt : ∀ r ∈ rows, r < n) :
    popcountBytes (bitmaskOf rows n) = rows.length := by
  unfold popcountBytes bitmaskOf
  rw [List.map_map]
  have hcong : (List.range ((n + 7) / 8)).map (popcountByte ∘ fun byteIdx =>
      (List.range 8).foldl (fun acc bit =>
        if rows.contains (byteIdx * 8 + bit) then acc + 2 ^ bit else acc) 0) =
      (List.range ((n + 7) / 8)).map (fun j =>
        (List.range 8).countP (fun bit => rows.contains (j * 8 + bit))) := by
    apply List.map_congr_left
    intro j _
    exact popcountByte_ofBits (fun bit => rows.contains (j * 8 + bit))
  rw [hcong, chunk_countP]
  exact countP_contains_range rows _ hnd (fun r hr => by
    have := hlt r hr
    omega)

theorem packBits_go_length (fuel : Nat) : ∀ l : List Bool, l.length < fuel →
    (packBits.go l fuel).length = (l.length + 7) / 8 := by
  induction fuel with
  | zero => intro l h; omega
  | succ fuel ih =>
      intro l h
      match l with
      | [] => simp [packBits.go]
      | b :: t =>
          rw [show packBits.go (b :: t) (fuel + 1) =
            bitsToByte ((b :: t).take 8 ++
              List.replicate (8 - ((b :: t).take 8).length) false)
              :: packBits.go ((b :: t).drop 8) fuel from rfl]
          rw [List.length_cons, ih _ (by simp [List.length_drop] at h ⊢; omega)]
          simp only [List.length_drop, List.length_cons]
          omega

theorem packBits_length (l : List Bool) : (packBits l).length = (l.length + 7) / 8 :=
  packBits_go_length (l.length + 1) l (by omega)

theorem packedResidues_length (p : ColumnProfile) (alphabet : List Char) (bits : Nat) :
    (packedResidues p alphabet bits).length = (p.deviations.length * bits + 7) / 8 := by
  unfold packedResidues
  rw [packBits_length]
  congr 1
  have : (p.deviations.flatMap (fun d => bitsOfValue (alphabet.indexOf d.2) bits)).length =
      p.deviations.length * bits := by
    rw [List.length_flatMap]
    simp only [Function.comp_def]
    have : (p.deviations.map (fun d =>
        (bitsOfValue (alphabet.indexOf d.2) bits).length)) =
        p.deviations.map (fun _ => bits) := by
      apply List.map_congr_left
      intro d _
      exact bitsOfValue_length _ _
    rw [this]
    induction p.deviations with
    | nil => simp
    | cons d t ihd => simp [ihd, Nat.succ_mul, Nat.add_comm]
  rw [this]

theorem profile_deviation_rows (frame : AlignmentFrame) :
    ∀ p ∈ collect_column_profiles frame,
      (p.deviations.map Prod.fst).Nodup ∧
      ∀ r ∈ p.deviations.map Prod.fst, r < frame.num_sequences := by
  intro p hp
  unfold collect_column_profiles at hp
  obtain ⟨j, _, rfl⟩ := List.mem_map.mp hp
  set col := frame.sequences.map (fun row => row.getD j ' ') with hcol
  have hsub : (((col.enum.filter
      (fun q => !(q.2 == consensusOf col))).map Prod.fst)).Sublist
      (col.enum.map Prod.fst) :=
    (List.filter_sublist col.enum).map Prod.fst
  rw [List.enum_map_fst] at hsub
  have hlen : col.length = frame.num_sequences := by
    rw [hcol, List.length_map]
    rfl
  constructor
  · exact hsub.nodup (List.nodup_range _)
  · intro r hr
    have := hsub.subset hr
    rw [hlen] at this
    exact List.mem_range.mp this

/-- The pending run of the open block in the RLE fold state. -/
def pendRun : Option (ColumnProfile × Nat) → Nat
  | none => 0
  | some (_, r) => r

theorem rleStep_none (n : Nat) (alphabet : List Char) (bits : Nat)
    (acc : List RunLengthBlock × Option (ColumnProfile × Nat)) (p : ColumnProfile)
    (h : acc.2 = none) :
    rleStep n alphabet bits acc p = (acc.1, some (p, 1)) := by
  unfold rleStep
  rw [h]

theorem rleStep_ext (n : Nat) (alphabet : List Char) (bits : Nat)
    (acc : List RunLengthBlock × Option (ColumnProfile × Nat)) (p cur : ColumnProfile)
    (run : Nat) (h : acc.2 = some (cur, run))
    (hext : profileKey cur = profileKey p ∧ run < 255) :
    rleStep n alphabet bits acc p = (acc.1, some (cur, run + 1)) := by
  unfold rleStep
  rw [h]
  exact if_pos hext

theorem rleStep_emit (n : Nat) (alphabet : List Char) (bits : Nat)
    (acc : List RunLengthBlock × Option (ColumnProfile × Nat)) (p cur : ColumnProfile)
    (run : Nat) (h : acc.2 = some (cur, run))
    (hext : ¬(profileKey cur = profileKey p ∧ run < 255)) :
    rleStep n alphabet bits acc p =
      (acc.1 ++ [blockOfProfile cur n alphabet bits run], some (p, 1)) := by
  unfold rleStep
  rw [h]
  exact if_neg hext

theorem rleFold_sum (n : Nat) (alphabet : List Char) (bits : Nat)
    (profiles : List ColumnProfile)
    (acc : List RunLengthBlock × Option (ColumnProfile × Nat)) :
    ((profiles.foldl (rleStep n alphabet bits) acc).1.map RunLengthBlock.run_length).sum +
      pendRun (profiles.foldl (rleStep n alphabet bits) acc).2 =
      (acc.1.map RunLengthBlock.run_length).sum + pendRun acc.2 + profiles.length := by
  induction profiles generalizing acc with
  | nil => simp
  | cons p t ih =>
      simp only [List.foldl_cons, List.length_cons]
      rw [ih (rleStep n alphabet bits acc p)]
      rcases hacc : acc.2 with _ | ⟨cur, run⟩
      · rw [rleStep_none n alphabet bits acc p hacc]
        simp [pendRun, hacc]
        omega
      · by_cases hext : profileKey cur = profileKey p ∧ run < 255
        · rw [rleStep_ext n alphabet bits acc p cur run hacc hext]
          simp [pendRun, hacc]
          omega
        · rw [rleStep_emit n alphabet bits acc p cur run hacc hext]
          simp [pendRun, hacc, blockOfProfile]
          omega

theorem rleFold_blocks (n : Nat) (alphabet : List Char) (bits : Nat)
    (profiles : List ColumnProfile)
    (acc : List RunLengthBlock × Option (ColumnProfile × Nat)) :
    (∀ b ∈ (profiles.foldl (rleStep n alphabet bits) acc).1,
      b ∈ acc.1 ∨ ∃ p, ((∃ r0, acc.2 = some (p, r0)) ∨ p ∈ profiles) ∧
        ∃ run, b = blockOfProfile p n alphabet bits run) ∧
    (∀ cur run, (profiles.foldl (rleStep n alphabet bits) acc).2 = some (cur, run) →
      (∃ r0, acc.2 = some (cur, r0)) ∨ cur ∈ profiles) := by
  induction profiles generalizing acc with
  | nil =>
      refine ⟨fun b hb => Or.inl hb, fun cur run h => Or.inl ?_⟩
      simp only [List.foldl_nil] at h
      exact ⟨run, h⟩
  | cons p t ih =>
      simp only [List.foldl_cons]
      obtain ⟨ih1, ih2⟩ := ih (rleStep n alphabet bits acc p)
      constructor
      · intro b hb
        rcases ih1 b hb with h1 | ⟨q, hq, run, hrun⟩
        · rcases hacc : acc.2 with _ | ⟨cur, crun⟩
          · rw [rleStep_none n alphabet bits acc p hacc] at h1
            exact Or.inl h1
          · by_cases hext : profileKey cur = profileKey p ∧ crun < 255
            · rw [rleStep_ext n alphabet bits acc p cur crun hacc hext] at h1
              exact Or.inl h1
            · rw [rleStep_emit n alphabet bits acc p cur crun hacc hext] at h1
              rcases List.mem_append.mp h1 with ha | hb2
              · exact Or.inl ha
              · exact Or.inr ⟨cur, Or.inl ⟨crun, rfl⟩, crun, by simpa using hb2⟩
        · rcases hq with ⟨r0, hq1⟩ | hq2
          · rcases hacc : acc.2 with _ | ⟨cur, crun⟩
            · rw [rleStep_none n alphabet bits acc p hacc] at hq1
              simp at hq1
              exact Or.inr ⟨q, Or.inr (by simp [hq1.1]), run, hrun⟩
            · by_cases hext : profileKey cur = profileKey p ∧ crun < 255
              · rw [rleStep_ext n alphabet bits acc p cur crun hacc hext] at hq1
                simp at hq1
                exact Or.inr ⟨q, Or.inl ⟨crun, by simp [hq1.1]⟩, run, hrun⟩
              · rw [rleStep_emit n alphabet bits acc p cur crun hacc hext] at hq1
                simp at hq1
                exact Or.inr ⟨q, Or.inr (by simp [hq1.1]), run, hrun⟩
          · exact Or.inr ⟨q, Or.inr (List.mem_cons_of_mem _ hq2), run, hrun⟩
      · intro cur run h
        rcases ih2 cur run h with ⟨r0, hr0⟩ | hmem
        · rcases hacc : acc.2 with _ | ⟨c0, crun⟩
          · rw [rleStep_none n alphabet bits acc p hacc] at hr0
            simp at hr0
            exact Or.inr (by simp [hr0.1])
          · by_cases hext : profileKey c0 = profileKey p ∧ crun < 255
            · rw [rleStep_ext n alphabet bits acc p c0 crun hacc hext] at hr0
              simp at hr0
              exact Or.inl ⟨crun, by simp [hr0.1]⟩
            · rw [rleStep_emit n alphabet bits acc p c0 crun hacc hext] at hr0
              simp at hr0
              exact Or.inr (by simp [hr0.1])
        · exact Or.inr (List.mem_cons_of_mem _ hmem)

theorem rle_blocks_from_profiles (profiles : List ColumnProfile) (n : Nat)
    (alphabet : List Char) (bits : Nat) :
    ∀ b ∈ collect_run_length_blocks profiles n alphabet bits,
      ∃ p ∈ profiles, ∃ run, b = blockOfProfile p n alphabet bits run := by
  intro b hb
  simp only [collect_run_length_blocks] at hb
  obtain ⟨h1, h2⟩ := rleFold_blocks n alphabet bits profiles ([], none)
  rcases hfold : (profiles.foldl (rleStep n alphabet bits) ([], none)).2 with _ | ⟨cur, run⟩
  · rw [hfold] at hb
    rcases h1 b hb with hube | ⟨p, hp, run, hrun⟩
    · simp at hube
    · rcases hp with ⟨r0, hp1⟩ | hp2
      · simp at hp1
      · exact ⟨p, hp2, run, hrun⟩
  · rw [hfold] at hb
    rcases List.mem_append.mp hb with hb1 | hb2
    · rcases h1 b hb1 with hube | ⟨p, hp, run2, hrun⟩
      · simp at hube
      · rcases hp with ⟨r0, hp1⟩ | hp2
        · simp at hp1
        · exact ⟨p, hp2, run2, hrun⟩
    · rcases h2 cur run hfold with ⟨r0, hr0⟩ | hmem
      · simp at hr0
      · exact ⟨cur, hmem, run, by simpa using hb2⟩

theorem collect_column_profiles_length (frame : AlignmentFrame) :
    (collect_column_profiles frame).length = frame.alignment_length := by
  unfold collect_column_profiles
  simp

/-- C7 (amended): every block emitted for a frame stores exactly
`popcount(bitmask)` deviation residues, occupying
`ceil(popcount(bitmask) * bits_per_symbol / 8)` bytes of packed residues,
and the run lengths of all emitted blocks sum to the alignment's column
count. -/
theorem C7_block_consistency (frame : AlignmentFrame) (bits : Nat) :
    (∀ b ∈ collect_run_length_blocks (collect_column_profiles frame)
        frame.num_sequences frame.alphabet bits,
      b.residues.length = (popcountBytes b.bitmask * bits + 7) / 8) ∧
    ((collect_run_length_blocks (collect_column_profiles frame)
        frame.num_sequences frame.alphabet bits).map RunLengthBlock.run_length).sum =
      frame.alignment_length := by
  constructor
  · intro b hb
    obtain ⟨p, hp, run, rfl⟩ := rle_blocks_from_profiles _ _ _ _ b hb
    obtain ⟨hnd, hlt⟩ := profile_deviation_rows frame p hp
    show (packedResidues p frame.alphabet bits).length = _
    rw [packedResidues_length]
    have hpc : popcountBytes (blockOfProfile p frame.num_sequences frame.alphabet bits
        run).bitmask = p.deviations.length := by
      show popcountBytes (bitmaskOf (p.deviations.map Prod.fst) frame.num_sequences) = _
      rw [popcount_bitmaskOf _ _ hnd hlt]
      simp
    rw [hpc]
  · simp only [collect_run_length_blocks]
    have hsum := rleFold_sum frame.num_sequences frame.alphabet bits
      (collect_column_profiles frame) ([], none)
    rcases hfold : ((collect_column_profiles frame).foldl
        (rleStep frame.num_sequences frame.alphabet bits) ([], none)).2
      with _ | ⟨cur, run⟩
    · rw [hfold] at hsum
      simp only [pendRun] at hsum
      rw [← collect_column_profiles_length frame]
      simpa using hsum
    · rw [hfold] at hsum
      simp only [pendRun] at hsum
      rw [← collect_column_profiles_length frame]
      simp only [List.map_append, List.sum_append, List.map_cons, List.map_nil,
        List.sum_cons, List.sum_nil, blockOfProfile]
      simp only [List.map_nil, List.sum_nil] at hsum
      omega

/-- The five-row, one-column frame exercising the block-consistency
formula. -/
def exFrameC7 : AlignmentFrame :=
  alignment_from_sequences ["r0", "r1", "r2", "r3", "r4"]
    [['A'], ['A'], ['A'], ['T'], ['T']] none ⟨none, none⟩

/-- C7 counterexample: a block with two deviations packed at one bit per
symbol stores them in a single residue byte, so
`length(residues) / bits_per_symbol` rounded up is 1 while the bitmask
popcount is 2 — the claim's formula relating the two is false. -/
theorem C7_counterexample :
    ∃ b ∈ collect_run_length_blocks (collect_column_profiles exFrameC7)
        exFrameC7.num_sequences exFrameC7.alphabet 1,
      popcountBytes b.bitmask ≠ (b.residues.length + 1 - 1) / 1 := by
  decide

theorem encode_varint_go_fuel (v f1 f2 : Nat) (h1 : v < f1) (h2 : v < f2) :
    encode_varint.go v f1 = encode_varint.go v f2 := by
  induction v using Nat.strong_induction_on generalizing f1 f2 with
  | _ v ih =>
      match f1, h1, f2, h2 with
      | fa + 1, _, fb + 1, _ =>
          rw [show encode_varint.go v (fa + 1) = if v < 128 then [v]
            else (v % 128 + 128) :: encode_varint.go (v / 128) fa from rfl]
          rw [show encode_varint.go v (fb + 1) = if v < 128 then [v]
            else (v % 128 + 128) :: encode_varint.go (v / 128) fb from rfl]
          by_cases hv : v < 128
          · rw [if_pos hv, if_pos hv]
          · rw [if_neg hv, if_neg hv]
            have hd : v / 128 < v := Nat.div_lt_self (by omega) (by omega)
            rw [ih (v / 128) hd fa fb (by omega) (by omega)]

theorem encode_varint_unfold (v : Nat) :
    encode_varint v = if v < 128 then [v]
      else (v % 128 + 128) :: encode_varint (v / 128) := by
  show encode_varint.go v (v + 1) = _
  rw [show encode_varint.go v (v + 1) = if v < 128 then [v]
    else (v % 128 + 128) :: encode_varint.go (v / 128) v from rfl]
  by_cases hv : v < 128
  · rw [if_pos hv, if_pos hv]
  · rw [if_neg hv, if_neg hv]
    have hd : v / 128 < v := Nat.div_lt_self (by omega) (by omega)
    rw [encode_varint_go_fuel (v / 128) v (v / 128 + 1) hd (by omega)]
    rfl

theorem decode_varint_go_cons (b : Nat) (rest : List Nat) (shift acc : Nat) :
    decode_varint.go (b :: rest) shift acc =
      if b < 128 then some (acc + b % 128 * 2 ^ shift, rest)
      else if 56 < shift + 7 then none
      else decode_varint.go rest (shift + 7) (acc + b % 128 * 2 ^ shift) := rfl

theorem decode_varint_go_encode (v : Nat) :
    ∀ shift acc (rest : List Nat), shift ≤ 56 → shift % 7 = 0 →
      v < 2 ^ (63 - shift) →
      decode_varint.go (encode_varint v ++ rest) shift acc =
        some (acc + v * 2 ^ shift, rest) := by
  induction v using Nat.strong_induction_on with
  | _ v ih =>
      intro shift acc rest hsh hmod hv
      rw [encode_varint_unfold v]
      by_cases hsmall : v < 128
      · rw [if_pos hsmall]
        simp only [List.singleton_append]
        rw [decode_varint_go_cons]
        rw [if_pos hsmall, Nat.mod_eq_of_lt hsmall]
      · rw [if_neg hsmall]
        have hb : ¬(v % 128 + 128 < 128) := by omega
        simp only [List.cons_append]
        rw [decode_varint_go_cons]
        rw [if_neg hb]
        have hshift49 : shift ≤ 49 := by
          rcases Nat.lt_or_ge shift 56 with h | h
          · omega
          · exfalso
            have hsh56 : shift = 56 := by omega
            rw [hsh56] at hv
            norm_num at hv
            omega
        rw [if_neg (by omega)]
        have hmod2 : (v % 128 + 128) % 128 = v % 128 := by omega
        rw [hmod2]
        have hrec := ih (v / 128) (Nat.div_lt_self (by omega) (by omega))
          (shift + 7) (acc + v % 128 * 2 ^ shift) rest (by omega) (by omega)
          (by
            have h3 : 63 - shift = (63 - (shift + 7)) + 7 := by omega
            have h1 : v < 2 ^ (63 - (shift + 7)) * 2 ^ 7 := by
              rw [← pow_add, ← h3]
              exact hv
            have h2 : (2 : Nat) ^ 7 = 128 := rfl
            rw [h2] at h1
            exact (Nat.div_lt_iff_lt_mul (by omega)).mpr h1)
        rw [hrec]
        have harith : acc + v % 128 * 2 ^ shift + v / 128 * 2 ^ (shift + 7) =
            acc + v * 2 ^ shift := by
          rw [pow_add]
          have h2 : (2 : Nat) ^ 7 = 128 := rfl
          rw [h2]
          have hvsplit : v % 128 + 128 * (v / 128) = v := Nat.mod_add_div v 128
          calc acc + v % 128 * 2 ^ shift + v / 128 * (2 ^ shift * 128) =
              acc + (v % 128 + 128 * (v / 128)) * 2 ^ shift := by ring
            _ = acc + v * 2 ^ shift := by rw [hvsplit]
        rw [harith]

theorem decode_varint_encode (v : Nat) (rest : List Nat) (h : v < 9223372036854775808) :
    decode_varint (encode_varint v ++ rest) = some (v, rest) := by
  show decode_varint.go (encode_varint v ++ rest) 0 0 = _
  rw [decode_varint_go_encode v 0 0 rest (by omega) (by omega) (by norm_num; omega)]
  simp

theorem bitsToByte_append_bit (xs : List Bool) (x : Bool) :
    bitsToByte (xs ++ [x]) = 2 * bitsToByte xs + (if x then 1 else 0) := by
  unfold bitsToByte
  rw [List.foldl_append]
  simp [Nat.mul_comm]

theorem bitsToByte_lt (xs : List Bool) : bitsToByte xs < 2 ^ xs.length := by
  induction xs using List.reverseRecOn with
  | nil => simp [bitsToByte]
  | append_singleton xs x ih =>
      rw [bitsToByte_append_bit]
      simp only [List.length_append, List.length_cons, List.length_nil, pow_add]
      rcases x <;> simp <;> omega

theorem bitsToByte_bitsOfValue (v n : Nat) (h : v < 2 ^ n) :
    bitsToByte (bitsOfValue v n) = v := by
  induction n generalizing v with
  | zero =>
      simp only [pow_zero, Nat.lt_one_iff] at h
      simp [h, bitsOfValue, bitsToByte]
  | succ b ih =>
      show bitsToByte (bitsOfValue (v / 2) b ++ [decide (v % 2 = 1)]) = v
      rw [bitsToByte_append_bit, ih (v / 2) (by
        rw [pow_succ] at h
        omega)]
      rcases Nat.mod_two_eq_zero_or_one v with h2 | h2 <;> simp [h2] <;> omega

theorem bitsOfValue_bitsToByte (g : List Bool) :
    bitsOfValue (bitsToByte g) g.length = g := by
  induction g using List.reverseRecOn with
  | nil => rfl
  | append_singleton xs x ih =>
      rw [bitsToByte_append_bit]
      simp only [List.length_append, List.length_cons, List.length_nil]
      show bitsOfValue ((2 * bitsToByte xs + if x then 1 else 0) / 2) (xs.length) ++ _ = _
      have hdiv : (2 * bitsToByte xs + if x then 1 else 0) / 2 = bitsToByte xs := by
        rcases x <;> simp <;> omega
      have hmod : ((2 * bitsToByte xs + if x then 1 else 0) % 2 = 1) = (x = true) := by
        rcases x <;> simp <;> omega
      rw [hdiv, ih]
      congr 1
      simp only [hmod]
      rcases x <;> simp

theorem bitsOfValue_split (a b n m : Nat) (hb : b < 2 ^ m) :
    bitsOfValue (a * 2 ^ m + b) (n + m) = bitsOfValue a n ++ bitsOfValue b m := by
  induction m generalizing b with
  | zero =>
      simp only [pow_zero, Nat.lt_one_iff] at hb
      simp [hb, bitsOfValue]
  | succ m ih =>
      have e1 : n + (m + 1) = (n + m) + 1 := by omega
      rw [e1]
      show bitsOfValue ((a * 2 ^ (m + 1) + b) / 2) (n + m) ++
        [decide ((a * 2 ^ (m + 1) + b) % 2 = 1)] = _
      have h2 : a * 2 ^ (m + 1) + b = 2 * (a * 2 ^ m) + b := by ring
      have hdiv : (a * 2 ^ (m + 1) + b) / 2 = a * 2 ^ m + b / 2 := by
        rw [h2]
        omega
      have hmod : (a * 2 ^ (m + 1) + b) % 2 = b % 2 := by
        rw [h2]
        omega
      rw [hdiv, hmod, ih (b / 2) (by
        rw [pow_succ] at hb
        omega)]
      show _ = bitsOfValue a n ++ (bitsOfValue (b / 2) m ++ [decide (b % 2 = 1)])
      rw [List.append_assoc]

/-- The bit expansion of a byte string (MSB first within each byte). -/
def bytesToBits (data : List Nat) : List Bool :=
  data.flatMap (fun b => bitsOfValue b 8)

theorem bitsOfValue_bitsToByte8 (g : List Bool) (h : g.length = 8) :
    bitsOfValue (bitsToByte g) 8 = g := by
  rw [← h]
  exact bitsOfValue_bitsToByte g

theorem bytesToBits_packBits_go (fuel : Nat) : ∀ l : List Bool, l.length < fuel →
    bytesToBits (packBits.go l fuel) =
      l ++ List.replicate ((8 - l.length % 8) % 8) false := by
  induction fuel with
  | zero => intro l h; omega
  | succ fuel ih =>
      intro l h
      match l with
      | [] => simp [packBits.go, bytesToBits]
      | b :: t =>
          rw [show packBits.go (b :: t) (fuel + 1) =
            bitsToByte ((b :: t).take 8 ++
              List.replicate (8 - ((b :: t).take 8).length) false)
              :: packBits.go ((b :: t).drop 8) fuel from rfl]
          rw [show bytesToBits (bitsToByte ((b :: t).take 8 ++
              List.replicate (8 - ((b :: t).take 8).length) false)
              :: packBits.go ((b :: t).drop 8) fuel) =
            bitsOfValue (bitsToByte ((b :: t).take 8 ++
              List.replicate (8 - ((b :: t).take 8).length) false)) 8 ++
              bytesToBits (packBits.go ((b :: t).drop 8) fuel) from rfl]
          have hchunklen : ((b :: t).take 8 ++
              List.replicate (8 - ((b :: t).take 8).length) false).length = 8 := by
            simp only [List.length_append, List.length_replicate, List.length_take,
              List.length_cons]
            omega
          rw [bitsOfValue_bitsToByte8 _ hchunklen]
          rw [ih ((b :: t).drop 8) (by
            simp only [List.length_drop, List.length_cons]
            simp only [List.length_cons] at h
            omega)]
          rcases Nat.lt_or_ge (b :: t).length 8 with hlen | hlen
          · rw [List.take_of_length_le (by omega), List.drop_of_length_le (by omega)]
            simp only [List.length_nil, Nat.zero_mod, Nat.sub_zero, Nat.mod_self,
              List.replicate_zero, List.append_nil, List.append_assoc, List.nil_append,
              List.drop_nil]
            congr 2
            simp only [List.length_cons] at hlen ⊢
            omega
          · have htl : ((b :: t).take 8).length = 8 := by
              simp only [List.length_take]
              omega
            rw [htl]
            simp only [Nat.sub_self, List.replicate_zero, List.append_nil]
            conv_rhs => rw [← List.take_append_drop 8 (b :: t)]
            rw [List.append_assoc]
            congr 2
            simp only [List.length_drop, List.length_cons]
            simp only [List.length_cons] at hlen
            have hmod : (t.length + 1 - 8) % 8 = (t.length + 1) % 8 := by
              omega
            rw [hmod, List.take_append_drop]
            simp

theorem bytesToBits_packBits (l : List Bool) :
    bytesToBits (packBits l) = l ++ List.replicate ((8 - l.length % 8) % 8) false :=
  bytesToBits_packBits_go (l.length + 1) l (by omega)

/-- The greedy fixed-width group reader over a bit stream. -/
def groupsOf (bits : Nat) : Nat → List Bool → List Nat
  | 0, _ => []
  | count + 1, stream => bitsToByte (stream.take bits) :: groupsOf bits count (stream.drop bits)

/-- The buffer loop of `pipeline._decode_residues` (fuelled; the fuel
chosen by `decode_residues` dominates the loop count). -/
def decodeResiduesGo (bits : Nat) : Nat → Nat → List Nat → Nat → Nat → Option (List Nat)
  | 0, _, _, _, _ => none
  | _ + 1, 0, _, _, _ => some []
  | fuel + 1, count + 1, data, buffer, nbits =>
      if nbits < bits then
        match data with
        | [] => none
        | b :: rest => decodeResiduesGo bits fuel (count + 1) rest (buffer * 256 + b) (nbits + 8)
      else
        match decodeResiduesGo bits fuel count data (buffer % 2 ^ (nbits - bits)) (nbits - bits) with
        | none => none
        | some vs => some (buffer / 2 ^ (nbits - bits) % 2 ^ bits :: vs)

/-- Mirror of `pipeline._decode_residues`: read `count` fixed-width symbol
codes MSB-first and map them through the alphabet (`none` models the raised
`ValueError` on underflow or an out-of-alphabet code). -/
def decode_residues (data : List Nat) (count bits : Nat) (alphabet : List Char) :
    Option (List Char) :=
  if count = 0 then some []
  else
    match decodeResiduesGo bits (count + data.length + 1) count data 0 0 with
    | none => none
    | some values =>
        if values.all (fun v => v < alphabet.length) then
          some (values.map (fun v => alphabet.getD v ' '))
        else none

theorem decodeResiduesGo_succ (bits fuel count : Nat) (data : List Nat)
    (buffer nbits : Nat) :
    decodeResiduesGo bits (fuel + 1) (count + 1) data buffer nbits =
      (if nbits < bits then
        match data with
        | [] => none
        | b :: rest =>
            decodeResiduesGo bits fuel (count + 1) rest (buffer * 256 + b) (nbits + 8)
      else
        match decodeResiduesGo bits fuel count data
            (buffer % 2 ^ (nbits - bits)) (nbits - bits) with
        | none => none
        | some vs => some (buffer / 2 ^ (nbits - bits) % 2 ^ bits :: vs)) := rfl

theorem decodeResiduesGo_spec (bits : Nat) (hbits : 1 ≤ bits) :
    ∀ fuel count data buffer nbits,
      count + data.length < fuel →
      buffer < 2 ^ nbits →
      count * bits ≤ nbits + 8 * data.length →
      (∀ x ∈ data, x < 256) →
      decodeResiduesGo bits fuel count data buffer nbits =
        some (groupsOf bits count (bitsOfValue buffer nbits ++ bytesToBits data)) := by
  intro fuel
  induction fuel with
  | zero => intro count data buffer nbits h; omega
  | succ fuel ih =>
      intro count data buffer nbits hfuel hbuf hbits2 hdata
      match count with
      | 0 => rfl
      | count + 1 =>
          by_cases hlt : nbits < bits
          · rw [decodeResiduesGo_succ, if_pos hlt]
            rcases data with _ | ⟨b, rest⟩
            · exfalso
              have hge : bits ≤ (count + 1) * bits := Nat.le_mul_of_pos_left bits (by omega)
              simp only [List.length_nil, Nat.mul_zero, Nat.add_zero] at hbits2
              omega
            · have hb : b < 256 := hdata b (by simp)
              show decodeResiduesGo bits fuel (count + 1) rest (buffer * 256 + b)
                (nbits + 8) = _
              rw [ih (count + 1) rest (buffer * 256 + b) (nbits + 8)
                (by simp only [List.length_cons] at hfuel; omega)
                (by
                  calc buffer * 256 + b < 2 ^ nbits * 256 := by omega
                    _ = 2 ^ (nbits + 8) := by rw [pow_add]; norm_num)
                (by simp only [List.length_cons] at hbits2; omega)
                (fun x hx => hdata x (by simp [hx]))]
              congr 2
              rw [show bytesToBits (b :: rest) = bitsOfValue b 8 ++ bytesToBits rest from rfl]
              rw [← List.append_assoc]
              congr 1
              have hsp := bitsOfValue_split buffer b nbits 8 (by omega)
              rw [show (2 : Nat) ^ 8 = 256 from rfl] at hsp
              exact hsp
          · rw [decodeResiduesGo_succ, if_neg hlt]
            have hmul : (count + 1) * bits = count * bits + bits := by ring
            rw [ih count data (buffer % 2 ^ (nbits - bits)) (nbits - bits)
              (by omega)
              (Nat.mod_lt _ (by positivity))
              (by omega) hdata]
            unfold groupsOf
            have hsplit : bitsOfValue buffer nbits =
                bitsOfValue (buffer / 2 ^ (nbits - bits)) bits ++
                  bitsOfValue (buffer % 2 ^ (nbits - bits)) (nbits - bits) := by
              have hdecomp : buffer / 2 ^ (nbits - bits) * 2 ^ (nbits - bits) +
                  buffer % 2 ^ (nbits - bits) = buffer := by
                rw [Nat.mul_comm]
                exact Nat.div_add_mod buffer _
              have hb2 : buffer % 2 ^ (nbits - bits) < 2 ^ (nbits - bits) :=
                Nat.mod_lt _ (by positivity)
              have he : bits + (nbits - bits) = nbits := by omega
              calc bitsOfValue buffer nbits =
                  bitsOfValue (buffer / 2 ^ (nbits - bits) * 2 ^ (nbits - bits) +
                    buffer % 2 ^ (nbits - bits)) (bits + (nbits - bits)) := by
                    rw [hdecomp, he]
                _ = _ := bitsOfValue_split _ _ bits (nbits - bits) hb2
            rw [hsplit, List.append_assoc]
            have hlenb : (bitsOfValue (buffer / 2 ^ (nbits - bits)) bits).length = bits :=
              bitsOfValue_length _ _
            rw [List.take_append_of_le_length (by omega),
              List.drop_append_of_le_length (by omega)]
            rw [List.take_of_length_le (by omega), List.drop_of_length_le (by omega)]
            simp only [List.nil_append, List.drop_nil]
            have hdivlt : buffer / 2 ^ (nbits - bits) < 2 ^ bits := by
              rw [Nat.div_lt_iff_lt_mul (by positivity)]
              calc buffer < 2 ^ nbits := hbuf
                _ = 2 ^ bits * 2 ^ (nbits - bits) := by
                  rw [← pow_add]
                  congr 1
                  omega
            congr 2
            · rw [Nat.mod_eq_of_lt hdivlt]
              exact (bitsToByte_bitsOfValue _ bits hdivlt).symm
            · cases count <;> rfl

theorem groupsOf_encode (bits : Nat) (values : List Nat) (extra : List Bool)
    (hv : ∀ v ∈ values, v < 2 ^ bits) :
    groupsOf bits values.length (values.flatMap (fun v => bitsOfValue v bits) ++ extra) =
      values := by
  induction values with
  | nil => rfl
  | cons v t ih =>
      simp only [List.flatMap_cons, List.length_cons, List.append_assoc]
      unfold groupsOf
      have hlen : (bitsOfValue v bits).length = bits := bitsOfValue_length v bits
      rw [List.take_append_of_le_length (by omega), List.drop_append_of_le_length (by omega)]
      rw [List.take_of_length_le (by omega), List.drop_of_length_le (by omega)]
      simp only [List.nil_append, List.drop_nil]
      rw [bitsToByte_bitsOfValue v bits (hv v (by simp))]
      rw [ih (fun x hx => hv x (by simp [hx]))]

theorem packBits_go_lt (fuel : Nat) : ∀ (l : List Bool), ∀ x ∈ packBits.go l fuel, x < 256 := by
  induction fuel with
  | zero => intro l x hx; simp [packBits.go] at hx
  | succ fuel ih =>
      intro l x hx
      match l with
      | [] => simp [packBits.go] at hx
      | b :: t =>
          rw [show packBits.go (b :: t) (fuel + 1) =
            bitsToByte ((b :: t).take 8 ++
              List.replicate (8 - ((b :: t).take 8).length) false)
              :: packBits.go ((b :: t).drop 8) fuel from rfl] at hx
          rcases List.mem_cons.mp hx with rfl | hxt
          · have hchunklen : ((b :: t).take 8 ++
                List.replicate (8 - ((b :: t).take 8).length) false).length = 8 := by
              simp only [List.length_append, List.length_replicate, List.length_take,
                List.length_cons]
              omega
            have := bitsToByte_lt ((b :: t).take 8 ++
              List.replicate (8 - ((b :: t).take 8).length) false)
            rw [hchunklen] at this
            exact this
          · exact ih _ x hxt

theorem flatMap_bitsOfValue_length (values : List Nat) (bits : Nat) :
    (values.flatMap (fun v => bitsOfValue v bits)).length = values.length * bits := by
  induction values with
  | nil => simp
  | cons v t ih =>
      simp only [List.flatMap_cons, List.length_append, List.length_cons, ih,
        bitsOfValue_length]
      ring

theorem decode_residues_packed (values : List Nat) (bits : Nat) (alphabet : List Char)
    (hbits : 1 ≤ bits) (hv : ∀ v ∈ values, v < 2 ^ bits)
    (halpha : ∀ v ∈ values, v < alphabet.length) :
    decode_residues (packBits (values.flatMap (fun v => bitsOfValue v bits)))
      values.length bits alphabet =
      some (values.map (fun v => alphabet.getD v ' ')) := by
  match values with
  | [] => rfl
  | v0 :: vt =>
      unfold decode_residues
      rw [if_neg (by simp)]
      have hgo := decodeResiduesGo_spec bits hbits
        ((v0 :: vt).length + (packBits ((v0 :: vt).flatMap (fun v => bitsOfValue v bits))).length + 1)
        (v0 :: vt).length (packBits ((v0 :: vt).flatMap (fun v => bitsOfValue v bits))) 0 0
        (by omega) (by norm_num)
        (by
          rw [packBits_length, flatMap_bitsOfValue_length]
          omega)
        (packBits_go_lt _ _)
      rw [hgo]
      have hstream : bitsOfValue 0 0 ++
          bytesToBits (packBits ((v0 :: vt).flatMap (fun v => bitsOfValue v bits))) =
          (v0 :: vt).flatMap (fun v => bitsOfValue v bits) ++
            List.replicate ((8 - ((v0 :: vt).flatMap
              (fun v => bitsOfValue v bits)).length % 8) % 8) false := by
        rw [show bitsOfValue 0 0 = [] from rfl, List.nil_append, bytesToBits_packBits]
      rw [hstream, groupsOf_encode bits (v0 :: vt) _ hv]
      have hall : ((v0 :: vt).all fun v => decide (v < alphabet.length)) = true := by
        rw [List.all_eq_true]
        intro v hvv
        exact decide_eq_true (halpha v hvv)
      simp [hall]

/-- The name-list reader shared by both versions of
`pipeline._decode_sequence_ids`: `count` entries, each a varint length plus
that many UTF-8 name bytes; `none` models the raised `ValueError`s
(truncated varint, entry past the end, invalid UTF-8). -/
def readNames (E : Ext) : Nat → List Nat → Option (List String × List Nat)
  | 0, data => some ([], data)
  | k + 1, data => do
      let (nameLen, rest) ← decode_varint data
      let (nameBytes, rest2) ← takeN nameLen rest
      match E.utf8dec nameBytes with
      | none => none
      | some name => do
          let (names, rest3) ← readNames E k rest2
          pure (name :: names, rest3)

/-- The version-1 body of `pipeline._decode_sequence_ids`: inline varint
count and name list, which must end exactly on the block boundary.  The
varints are modelled as reading within the declared block. -/
def seqIdBlockV1 (E : Ext) (blockBytes remaining : List Nat) :
    Option (List String × List Nat) := do
  let (count, out1) ← decode_varint blockBytes
  let (ids, leftover) ← readNames E count out1
  if leftover = [] then pure (ids, remaining) else none

/-- The version-2 body of `pipeline._decode_sequence_ids`: a mode byte,
then the plain (0), zstd (1, raising when zstandard is unavailable) or
zlib (2) compressed name list; trailing bytes inside the decompressed
block are ignored (the cursor jumps to the block end). -/
def seqIdBlockV2 (E : Ext) (blockBytes remaining : List Nat) :
    Option (List String × List Nat) := do
  match blockBytes with
  | [] => none
  | mode :: encoded =>
      let output ←
        if mode = 0 then some encoded
        else if mode = 1 then (if E.zstdAvail then E.zstdD encoded else none)
        else if mode = 2 then E.zlibD encoded
        else none
      let (count, out1) ← decode_varint output
      let (ids, _) ← readNames E count out1
      pure (ids, remaining)

/-- Mirror of `pipeline._decode_sequence_ids`: `ECID` magic, a version
byte, a varint block length bounded by the buffer, then the version-1 or
version-2 block body; returns the identifiers and the bytes after the
block. -/
def decode_sequence_ids (E : Ext) (buffer : List Nat) :
    Option (List String × List Nat) := do
  match buffer with
  | 69 :: 67 :: 73 :: 68 :: version :: rest =>
      let (block_length, rest2) ← decode_varint rest
      let (blockBytes, remaining) ← takeN block_length rest2
      if version = 1 then seqIdBlockV1 E blockBytes remaining
      else if version = 2 then seqIdBlockV2 E blockBytes remaining
      else none
  | _ => none

theorem decode_sequence_ids_magic (E : Ext) (version : Nat) (rest : List Nat) :
    decode_sequence_ids E (69 :: 67 :: 73 :: 68 :: version :: rest) =
      (decode_varint rest).bind (fun p =>
        (takeN p.1 p.2).bind (fun q =>
          if version = 1 then seqIdBlockV1 E q.1 q.2
          else if version = 2 then seqIdBlockV2 E q.1 q.2
          else none)) := rfl

theorem seqIdBlockV2_cons (E : Ext) (mode : Nat) (encoded remaining : List Nat) :
    seqIdBlockV2 E (mode :: encoded) remaining =
      (if mode = 0 then some encoded
        else if mode = 1 then (if E.zstdAvail then E.zstdD encoded else none)
        else if mode = 2 then E.zlibD encoded
        else none).bind (fun output =>
        (decode_varint output).bind (fun p =>
          (readNames E p.1 p.2).bind (fun q => some (q.1, remaining)))) := by
  by_cases h0 : mode = 0
  · subst h0; rfl
  by_cases h1 : mode = 1
  · subst h1; rfl
  by_cases h2 : mode = 2
  · subst h2; rfl
  simp only [seqIdBlockV2]
  rw [if_neg h0, if_neg h1, if_neg h2, if_neg h0, if_neg h1, if_neg h2]
  rfl

theorem readNames_encode (E : Ext) (hE : ∀ s, E.utf8dec (E.utf8enc s) = some s)
    (ids : List String) (tail : List Nat)
    (hname : ∀ s ∈ ids, (E.utf8enc s).length < 9223372036854775808) :
    readNames E ids.length
      (ids.flatMap (fun name => encode_varint (E.utf8enc name).length ++ E.utf8enc name)
        ++ tail) = some (ids, tail) := by
  induction ids generalizing tail with
  | nil => rfl
  | cons s t ih =>
      simp only [List.flatMap_cons, List.length_cons, List.append_assoc]
      unfold readNames
      rw [decode_varint_encode _ _ (hname s (by simp))]
      simp only [Option.bind_eq_bind, Option.some_bind]
      rw [takeN_append_of_length (E.utf8enc s).length (E.utf8enc s) _ rfl]
      simp only [Option.some_bind]
      rw [hE s]
      rw [ih tail (fun x hx => hname x (by simp [hx]))]
      rfl

theorem decode_encode_sequence_ids (E : Ext) (hE : E.RoundTrip) (ids : List String)
    (tail : List Nat)
    (hblk : (seqIdSelect E (seqIdPlain E ids)).2.length + 1 < 9223372036854775808)
    (hcount : ids.length < 9223372036854775808)
    (hname : ∀ s ∈ ids, (E.utf8enc s).length < 9223372036854775808) :
    decode_sequence_ids E (encode_sequence_ids E ids ++ tail) = some (ids, tail) := by
  have hplain : decode_varint (seqIdPlain E ids) =
      some (ids.length,
        ids.flatMap (fun name => encode_varint (E.utf8enc name).length ++ E.utf8enc name)) := by
    unfold seqIdPlain
    exact decode_varint_encode _ _ hcount
  have hnames : ∀ junk : List Nat, (readNames E ids.length
      (ids.flatMap (fun name => encode_varint (E.utf8enc name).length ++ E.utf8enc name)
        ++ junk)).bind (fun p => some (p.1, tail)) = some (ids, tail) := by
    intro junk
    rw [readNames_encode E hE.1 ids junk hname]
    rfl
  have hnames0 : (readNames E ids.length
      (ids.flatMap (fun name => encode_varint (E.utf8enc name).length ++ E.utf8enc name))).bind
        (fun p => some (p.1, tail)) = some (ids, tail) := by
    have := hnames []
    rwa [List.append_nil] at this
  rw [show encode_sequence_ids E ids ++ tail =
      69 :: 67 :: 73 :: 68 :: 2 ::
        (encode_varint ((seqIdSelect E (seqIdPlain E ids)).2.length + 1)
          ++ (((seqIdSelect E (seqIdPlain E ids)).1 :: (seqIdSelect E (seqIdPlain E ids)).2)
            ++ tail)) by
    unfold encode_sequence_ids
    simp [List.append_assoc]]
  rw [decode_sequence_ids_magic]
  rw [decode_varint_encode _ _ hblk]
  simp only [Option.bind_eq_bind, Option.some_bind]
  rw [takeN_append_of_length ((seqIdSelect E (seqIdPlain E ids)).2.length + 1)
    ((seqIdSelect E (seqIdPlain E ids)).1 :: (seqIdSelect E (seqIdPlain E ids)).2) tail
    (by simp)]
  simp only [Option.some_bind]
  show seqIdBlockV2 E
      ((seqIdSelect E (seqIdPlain E ids)).1 :: (seqIdSelect E (seqIdPlain E ids)).2) tail =
    some (ids, tail)
  by_cases hz : E.zstdAvail ∧ (E.zstdC (seqIdPlain E ids)).length + 1 < (seqIdPlain E ids).length
  · have hsel : seqIdSelect E (seqIdPlain E ids) = (1, E.zstdC (seqIdPlain E ids)) := by
      unfold seqIdSelect
      rw [if_pos hz]
      rfl
    rw [hsel]
    rw [seqIdBlockV2_cons]
    rw [show (if (1 : Nat) = 0 then some (E.zstdC (seqIdPlain E ids))
        else if (1 : Nat) = 1 then
          (if E.zstdAvail then E.zstdD (E.zstdC (seqIdPlain E ids)) else none)
        else if (1 : Nat) = 2 then E.zlibD (E.zstdC (seqIdPlain E ids))
        else none) =
        (if E.zstdAvail then E.zstdD (E.zstdC (seqIdPlain E ids)) else none) by simp]
    rw [if_pos hz.1]
    rw [hE.2.1 (seqIdPlain E ids)]
    simp only [Option.some_bind]
    rw [hplain]
    simp only [Option.some_bind]
    exact hnames0
  · have hsel0 : seqIdSelect E (seqIdPlain E ids) =
        (if (E.zlibC (seqIdPlain E ids)).length + 1 < (seqIdPlain E ids).length
          then ((2 : Nat), E.zlibC (seqIdPlain E ids))
          else ((0 : Nat), seqIdPlain E ids)) := by
      unfold seqIdSelect
      rw [if_neg hz]
      rfl
    by_cases hl : (E.zlibC (seqIdPlain E ids)).length + 1 < (seqIdPlain E ids).length
    · rw [hsel0, if_pos hl]
      rw [seqIdBlockV2_cons]
      rw [show (if (2 : Nat) = 0 then some (E.zlibC (seqIdPlain E ids))
          else if (2 : Nat) = 1 then
            (if E.zstdAvail then E.zstdD (E.zlibC (seqIdPlain E ids)) else none)
          else if (2 : Nat) = 2 then E.zlibD (E.zlibC (seqIdPlain E ids))
          else none) = E.zlibD (E.zlibC (seqIdPlain E ids)) by simp]
      rw [hE.2.2.1 (seqIdPlain E ids)]
      simp only [Option.some_bind]
      rw [hplain]
      simp only [Option.some_bind]
      exact hnames0
    · rw [hsel0, if_neg hl]
      rw [seqIdBlockV2_cons]
      rw [show (if (0 : Nat) = 0 then some (seqIdPlain E ids)
          else if (0 : Nat) = 1 then
            (if E.zstdAvail then E.zstdD (seqIdPlain E ids) else none)
          else if (0 : Nat) = 2 then E.zlibD (seqIdPlain E ids)
          else none) = some (seqIdPlain E ids) by simp]
      simp only [Option.some_bind]
      rw [hplain]
      simp only [Option.some_bind]
      exact hnames0

/-- `math.ceil(math.log2 k)` of `compress_alignment`, modelled exactly as
the least `e` with `k ≤ 2 ^ e` (0 for `k = 0`, which the caller excludes
via `max(len(alphabet), 1)`). -/
def ceilLog2 (k : Nat) : Nat :=
  ((List.range (k + 1)).find? (fun e => k ≤ 2 ^ e)).getD 0

theorem find_range_first : ∀ (m : Nat) (p : Nat → Bool) (x : Nat),
    (List.range m).find? p = some x → p x = true ∧ ∀ y < x, p y = false := by
  intro m
  induction m with
  | zero =>
      intro p x h
      simp [List.range_zero] at h
  | succ n ih =>
      intro p x h
      rw [List.range_succ_eq_map] at h
      by_cases hp : p 0
      · rw [List.find?_cons_of_pos _ hp] at h
        cases h
        exact ⟨hp, fun y hy => absurd hy (Nat.not_lt_zero y)⟩
      · rw [List.find?_cons_of_neg _ hp] at h
        rw [List.find?_map] at h
        rcases Option.map_eq_some'.mp h with ⟨x', hx', rfl⟩
        obtain ⟨h1, h2⟩ := ih (fun t => p (Nat.succ t)) x' hx'
        refine ⟨h1, ?_⟩
        intro y hy
        match y with
        | 0 => exact Bool.not_eq_true _ |>.mp hp
        | y + 1 => exact h2 y (by omega)

theorem ceilLog2_le_pow (k : Nat) : k ≤ 2 ^ ceilLog2 k := by
  have hk : k ≤ 2 ^ k := Nat.le_of_lt (Nat.lt_two_pow k)
  have hsome : ((List.range (k + 1)).find? (fun e => k ≤ 2 ^ e)).isSome := by
    rw [List.find?_isSome]
    exact ⟨k, by simp, by simpa using hk⟩
  rcases ho : (List.range (k + 1)).find? (fun e => k ≤ 2 ^ e) with _ | e
  · rw [ho] at hsome
    simp at hsome
  · unfold ceilLog2
    rw [ho]
    simpa using List.find?_some ho

theorem ceilLog2_min (k e : Nat) (h : k ≤ 2 ^ e) : ceilLog2 k ≤ e := by
  rcases ho : (List.range (k + 1)).find? (fun t => k ≤ 2 ^ t) with _ | x
  · unfold ceilLog2
    rw [ho]
    exact Nat.zero_le e
  · unfold ceilLog2
    rw [ho]
    simp only [Option.getD_some]
    by_contra hlt
    push_neg at hlt
    have := (find_range_first _ _ _ ho).2 e hlt
    simp [h] at this

/-- `bits_per_symbol = max(1, math.ceil(math.log2(max(len(alphabet), 1))))`
from `compress_alignment`. -/
def bits_per_symbol_of (alphabet : List Char) : Nat :=
  max 1 (ceilLog2 (max alphabet.length 1))

theorem bits_per_symbol_pos (alphabet : List Char) : 1 ≤ bits_per_symbol_of alphabet :=
  Nat.le_max_left 1 _

theorem alphabet_le_pow_bits (alphabet : List Char) :
    alphabet.length ≤ 2 ^ bits_per_symbol_of alphabet := by
  calc alphabet.length ≤ max alphabet.length 1 := Nat.le_max_left _ _
    _ ≤ 2 ^ ceilLog2 (max alphabet.length 1) := ceilLog2_le_pow _
    _ ≤ 2 ^ bits_per_symbol_of alphabet :=
        Nat.pow_le_pow_right (by omega) (Nat.le_max_right 1 _)

theorem bits_per_symbol_le_eight (alphabet : List Char) (h : alphabet.length ≤ 256) :
    bits_per_symbol_of alphabet ≤ 8 := by
  have h1 : max alphabet.length 1 ≤ 2 ^ 8 := by
    simp only [Nat.max_le]
    exact ⟨by omega, by omega⟩
  have := ceilLog2_min (max alphabet.length 1) 8 h1
  unfold bits_per_symbol_of
  omega

/-- `min(payload_candidates, key=lambda item: len(item[1]))` of
`compress_alignment`: the earliest candidate of minimal payload length
(Python `min` keeps the first on ties); the third component carries the
measured compression seconds, which the key ignores. -/
def minByLen3 (cands : List (String × List Nat × Nat)) : String × List Nat × Nat :=
  match cands with
  | [] => ("", [], 0)
  | c :: t => t.foldl (fun best kv => if kv.2.1.length < best.2.1.length then kv else best) c

theorem minByLen3_mem (c : String × List Nat × Nat) (t : List (String × List Nat × Nat)) :
    minByLen3 (c :: t) ∈ c :: t := by
  show t.foldl (fun best kv => if kv.2.1.length < best.2.1.length then kv else best) c ∈ c :: t
  have : ∀ (l : List (String × List Nat × Nat)) (b : String × List Nat × Nat)
      (s : List (String × List Nat × Nat)), b ∈ s → (∀ x ∈ l, x ∈ s) →
      l.foldl (fun best kv => if kv.2.1.length < best.2.1.length then kv else best) b ∈ s := by
    intro l
    induction l with
    | nil => intro b s hb _; exact hb
    | cons x xs ih =>
        intro b s hb hl
        simp only [List.foldl_cons]
        by_cases hx : x.2.1.length < b.2.1.length
        · rw [if_pos hx]
          exact ih x s (hl x (by simp)) (fun y hy => hl y (by simp [hy]))
        · rw [if_neg hx]
          exact ih b s hb (fun y hy => hl y (by simp [hy]))
  exact this t c (c :: t) (by simp) (fun x hx => by simp [hx])

theorem minByLen3_proj (l1 l2 : List (String × List Nat × Nat))
    (h : l1.map (fun c => (c.1, c.2.1)) = l2.map (fun c => (c.1, c.2.1))) :
    ((minByLen3 l1).1, (minByLen3 l1).2.1) = ((minByLen3 l2).1, (minByLen3 l2).2.1) := by
  have hfold : ∀ (t1 t2 : List (String × List Nat × Nat))
      (b1 b2 : String × List Nat × Nat),
      t1.map (fun c => (c.1, c.2.1)) = t2.map (fun c => (c.1, c.2.1)) →
      (b1.1, b1.2.1) = (b2.1, b2.2.1) →
      ((t1.foldl (fun best kv => if kv.2.1.length < best.2.1.length then kv else best) b1).1,
        (t1.foldl (fun best kv => if kv.2.1.length < best.2.1.length then kv else best) b1).2.1) =
      ((t2.foldl (fun best kv => if kv.2.1.length < best.2.1.length then kv else best) b2).1,
        (t2.foldl (fun best kv => if kv.2.1.length < best.2.1.length then kv else best) b2).2.1) := by
    intro t1
    induction t1 with
    | nil =>
        intro t2 b1 b2 ht hb
        cases t2 with
        | nil => exact hb
        | cons y ys => simp at ht
    | cons x xs ih =>
        intro t2 b1 b2 ht hb
        cases t2 with
        | nil => simp at ht
        | cons y ys =>
            simp only [List.map_cons, List.cons.injEq] at ht
            simp only [List.foldl_cons]
            have hx1 : x.2.1 = y.2.1 := congrArg Prod.snd ht.1
            have hb1 : b1.2.1 = b2.2.1 := congrArg Prod.snd hb
            by_cases hc : x.2.1.length < b1.2.1.length
            · rw [if_pos hc, if_pos (by rw [← hx1, ← hb1]; exact hc)]
              exact ih ys x y ht.2 ht.1
            · rw [if_neg hc, if_neg (by rw [← hx1, ← hb1]; exact hc)]
              exact ih ys b1 b2 ht.2 hb
  cases l1 with
  | nil =>
      cases l2 with
      | nil => rfl
      | cons y ys => simp at h
  | cons x xs =>
      cases l2 with
      | nil => simp at h
      | cons y ys =>
          simp only [List.map_cons, List.cons.injEq] at h
          exact hfold xs ys x y h.2 h.1

/-- Mirror of `pipeline._iter_deviation_indices`: the ascending row indices
whose bitmask bit (LSB-first within each byte) is set; `none` models the
`IndexError` raised when the mask is shorter than the row count needs. -/
def iter_deviation_indices (bitmask : List Nat) (n : Nat) : Option (List Nat) :=
  if (n + 7) / 8 ≤ bitmask.length then
    some ((List.range n).filter (fun i => bitmask.getD (i / 8) 0 / 2 ^ (i % 8) % 2 = 1))
  else none

theorem foldl_bits_acc (f : Nat → Bool) (l : List Nat) (a : Nat) :
    l.foldl (fun acc bit => if f bit then acc + 2 ^ bit else acc) a =
      a + ((l.filter f).map (fun b => 2 ^ b)).sum := by
  induction l generalizing a with
  | nil => simp
  | cons x xs ih =>
      simp only [List.foldl_cons]
      by_cases hx : f x
      · rw [if_pos hx, ih, List.filter_cons_of_pos hx, List.map_cons, List.sum_cons]
        omega
      · rw [if_neg hx, ih, List.filter_cons_of_neg hx]

theorem bitsum_range_lt (f : Nat → Bool) (j : Nat) :
    (((List.range j).filter f).map (fun b => 2 ^ b)).sum < 2 ^ j := by
  induction j with
  | zero => simp
  | succ j ih =>
      rw [List.range_succ, List.filter_append, List.map_append, List.sum_append]
      have hpow : 2 ^ (j + 1) = 2 ^ j + 2 ^ j := by ring
      by_cases hj : f j
      · rw [show ([j].filter f) = [j] from List.filter_cons_of_pos hj]
        simp only [List.map_cons, List.map_nil, List.sum_cons, List.sum_nil]
        omega
      · rw [show ([j].filter f) = [] from List.filter_cons_of_neg hj]
        simp only [List.map_nil, List.sum_nil]
        omega

theorem bitsum_dvd (f : Nat → Bool) (m : Nat) (l : List Nat) (hl : ∀ x ∈ l, m ≤ x) :
    2 ^ m ∣ ((l.filter f).map (fun b => 2 ^ b)).sum := by
  induction l with
  | nil => simp
  | cons x xs ih =>
      by_cases hx : f x
      · rw [List.filter_cons_of_pos hx, List.map_cons, List.sum_cons]
        exact Nat.dvd_add (Nat.pow_dvd_pow 2 (hl x (by simp)))
          (ih (fun y hy => hl y (by simp [hy])))
      · rw [List.filter_cons_of_neg hx]
        exact ih (fun y hy => hl y (by simp [hy]))

theorem foldl_bits_test (f : Nat → Bool) (j : Nat) (hj : j < 8) :
    ((List.range 8).foldl (fun acc bit => if f bit then acc + 2 ^ bit else acc) 0)
      / 2 ^ j % 2 = (if f j then 1 else 0) := by
  rw [foldl_bits_acc, Nat.zero_add]
  have h8 : (8 : Nat) = (j + 1) + (8 - (j + 1)) := by omega
  rw [h8, List.range_add, List.range_succ]
  simp only [List.filter_append, List.map_append, List.sum_append]
  have hA : (((List.range j).filter f).map (fun b => 2 ^ b)).sum < 2 ^ j :=
    bitsum_range_lt f j
  have hB : 2 ^ (j + 1) ∣
      ((((List.range (8 - (j + 1))).map (fun x => (j + 1) + x)).filter f).map
        (fun b => 2 ^ b)).sum := by
    apply bitsum_dvd
    intro x hx
    obtain ⟨t, _, rfl⟩ := List.mem_map.mp hx
    omega
  obtain ⟨d, hd⟩ := hB
  rw [hd]
  have hpos : 0 < 2 ^ j := Nat.pos_pow_of_pos j (by omega)
  by_cases hfj : f j
  · rw [show ([j].filter f) = [j] from List.filter_cons_of_pos hfj]
    simp only [List.map_cons, List.map_nil, List.sum_cons, List.sum_nil, Nat.add_zero,
      if_pos hfj]
    have hrw : (((List.range j).filter f).map (fun b => 2 ^ b)).sum + 2 ^ j
        + 2 ^ (j + 1) * d =
        (((List.range j).filter f).map (fun b => 2 ^ b)).sum + 2 ^ j * (1 + 2 * d) := by
      ring
    rw [hrw, Nat.add_mul_div_left _ _ hpos, Nat.div_eq_of_lt hA]
    omega
  · rw [show ([j].filter f) = [] from List.filter_cons_of_neg hfj]
    simp only [List.map_nil, List.sum_nil, Nat.add_zero, if_neg hfj]
    have hrw : (((List.range j).filter f).map (fun b => 2 ^ b)).sum + 2 ^ (j + 1) * d =
        (((List.range j).filter f).map (fun b => 2 ^ b)).sum + 2 ^ j * (2 * d) := by
      ring
    rw [hrw, Nat.add_mul_div_left _ _ hpos, Nat.div_eq_of_lt hA]
    omega

theorem bitmaskOf_test (rows : List Nat) (n i : Nat) (hi : i < n) :
    (bitmaskOf rows n).getD (i / 8) 0 / 2 ^ (i % 8) % 2 =
      (if rows.contains i then 1 else 0) := by
  have hidx : i / 8 < (n + 7) / 8 := by omega
  have hget : (bitmaskOf rows n).getD (i / 8) 0 =
      (List.range 8).foldl (fun acc bit =>
        if rows.contains (i / 8 * 8 + bit) then acc + 2 ^ bit else acc) 0 := by
    unfold bitmaskOf
    rw [List.getD_eq_getElem?_getD, List.getElem?_map, List.getElem?_range hidx]
    rfl
  rw [hget, foldl_bits_test (fun bit => rows.contains (i / 8 * 8 + bit)) (i % 8)
    (Nat.mod_lt i (by omega))]
  rw [show i / 8 * 8 + i % 8 = i by omega]

theorem iter_deviation_indices_bitmaskOf (q : Nat → Bool) (n : Nat) :
    iter_deviation_indices (bitmaskOf ((List.range n).filter q) n) n =
      some ((List.range n).filter q) := by
  unfold iter_deviation_indices
  have hlen : (bitmaskOf ((List.range n).filter q) n).length = (n + 7) / 8 := by
    unfold bitmaskOf
    simp
  rw [if_pos (by rw [hlen])]
  congr 1
  apply List.filter_congr
  intro i hi
  have hi' : i < n := List.mem_range.mp hi
  have htest := bitmaskOf_test ((List.range n).filter q) n i hi'
  rw [htest]
  by_cases hq : q i
  · have hc : ((List.range n).filter q).contains i = true := by
      simpa using List.mem_filter.mpr ⟨hi, hq⟩
    rw [hc]
    simp [hq]
  · have hc : ((List.range n).filter q).contains i = false := by
      rw [Bool.eq_false_iff]
      intro hcontra
      have hmem : i ∈ (List.range n).filter q := by simpa using hcontra
      exact absurd (List.mem_filter.mp hmem).2 (by simp [hq])
    rw [hc]
    simp [hq]

/-- Character-level whitespace strip of one line (Python `str.strip`). -/
def stripChars (l : List Char) : List Char :=
  ((l.dropWhile Char.isWhitespace).reverse.dropWhile Char.isWhitespace).reverse

/-- Mirror of `pipeline._parse_fasta_bytes` on the decoded character
stream: split on newlines (the FASTA this codec writes uses `\n` only),
strip each line, skip blanks, start a new record at `>` (whose identifier
is the rest of the line) and append every other line to the open record;
the Boolean tracks Python's `current_id is not None`. -/
def parse_fasta_chars (data : List Char) : List String × List (List Char) :=
  let step := fun (st : List String × List (List Char) × Bool × List Char)
      (raw : List Char) =>
    let line := stripChars raw
    if line.isEmpty then st
    else
      match line with
      | '>' :: name =>
          if st.2.2.1 then
            (st.1 ++ [String.mk name], st.2.1 ++ [st.2.2.2], true, [])
          else
            (st.1 ++ [String.mk name], st.2.1, true, [])
      | _ => (st.1, st.2.1, st.2.2.1, st.2.2.2 ++ line)
  let r := (data.splitOn '\n').foldl step ([], [], false, [])
  if r.2.2.1 then (r.1, r.2.1 ++ [r.2.2.2]) else (r.1, r.2.1)

/-- Mirror of `pipeline._decompress_fallback`: gzip-decompress the payload,
re-parse it as FASTA and restore the recorded `source_format`; any other
fallback type raises. -/
def decompress_fallback (E : Ext) (payload : List Nat) (fb : String × String) :
    Option AlignmentFrame := do
  if fb.1 = "gzip" then
    let data ← E.gzipD payload
    let s ← E.utf8dec data
    let pf := parse_fasta_chars s.data
    pure { alignment_from_sequences pf.1 pf.2 none ⟨none, none⟩ with
      metadata := ⟨some fb.2, none⟩ }
  else none

/-- Mirror of the permutation-inversion loop of `decompress_alignment`:
`inverse[original_index] = new_pos` over `enumerate(permutation)`, later
assignments overwriting earlier ones and the initial zeros surviving
unassigned slots; `none` models the `IndexError` raised by an entry that
is out of range. -/
def invertPerm (perm : List Nat) : Option (List Nat) :=
  if perm.all (fun i => decide (i < perm.length)) then
    some ((List.range perm.length).map (fun idx =>
      (((perm.enum.filter (fun q => q.2 == idx)).getLast?).map Prod.fst).getD 0))
  else none

/-- One reconstructed column of the `decompress_alignment` loop body:
consensus everywhere, then the decoded residue characters at the deviation
indices (the index list is duplicate-free, so first-match lookup agrees
with the source's sequential writes). -/
def column_of_block (b : RunLengthBlock) (n bits : Nat) (alphabet : List Char) :
    Option (List Char) := do
  let idxs ← iter_deviation_indices b.bitmask n
  let residues ← decode_residues b.residues idxs.length bits alphabet
  pure ((List.range n).map (fun row => ((idxs.zip residues).lookup row).getD b.consensus))

/-- The column-expansion loop of `decompress_alignment`: each block
contributes `run_length` copies of its reconstructed column and the column
budget must come out exactly (`none` models both the overflow and the
shortfall `ValueError`s); a zero-run block contributes nothing because the
source's inner loop body never executes for it. -/
def colsGo (n bits : Nat) (alphabet : List Char) :
    List RunLengthBlock → Nat → Option (List (List Char))
  | [], 0 => some []
  | [], _ + 1 => none
  | b :: bs, budget =>
      if b.run_length = 0 then colsGo n bits alphabet bs budget
      else if b.run_length ≤ budget then do
        let col ← column_of_block b n bits alphabet
        let rest ← colsGo n bits alphabet bs (budget - b.run_length)
        pure (List.replicate b.run_length col ++ rest)
      else none

/-- Modelled from the spec: `diagnostics.checksums.alignment_checksum` is
the SHA-256 hex digest over the row contents (`checksums.py` is absent
from the snapshot); the hash itself is the `sha` collaborator. -/
def alignment_checksum (E : Ext) (seqs : List (List Char)) : String := E.sha seqs

/-- Mirror of `pipeline.decompress_alignment`: fallback dispatch, metadata
guards, payload decode, inline sequence-ID block, then the block-decode
call.  The call at pipeline.py:587 passes four arguments
(`payload_data, bitmask_bytes, bits_per_symbol, alphabet`) to the
three-parameter `encoding.decode_blocks`, so Python raises `TypeError`
there on every structured decode; the bind is modelled as `none` and the
remaining statements (column expansion, transposition, permutation
inversion, mirrored below as the source writes them) are unreachable.
`none` models every raised error. -/
def decompress_alignment (E : Ext) (payload : List Nat) (md : Metadata) :
    Option AlignmentFrame := do
  match md.fallback with
  | some fb => decompress_fallback E payload fb
  | none =>
      let expected := md.alignment_length
      let n := md.num_sequences
      let _ ← (match md.sequence_ids with
        | some l => if l.length = n then some () else none
        | none => some ())
      let alphabet := md.alphabet
      let _ ← (if md.bitmask_bytes = 0 then none else some ())
      let bits ← (if md.bits_per_symbol = 0 then
          (if alphabet.isEmpty then none else some (max 1 (ceilLog2 alphabet.length)))
        else some md.bits_per_symbol)
      let decodedPayload ←
        (if md.payload_encoding = "zstd" then
          (if E.zstdAvail then E.zstdD payload else none)
        else if md.payload_encoding = "xz" then E.xzD payload
        else if md.payload_encoding = "zlib" then E.zlibD payload
        else if md.payload_encoding = "raw" then some payload
        else none)
      let (idsFromPayload, payloadData) ←
        (match decodedPayload with
          | 69 :: 67 :: 73 :: 68 :: rest =>
              (decode_sequence_ids E (69 :: 67 :: 73 :: 68 :: rest)).map
                (fun p => (some p.1, p.2))
          | other => some ((none : Option (List String)), other))
      let sequence_ids ←
        (match md.sequence_ids, idsFromPayload with
          | none, none => none
          | none, some l => some l
          | some l, none => some l
          | some l, some l2 => if l = l2 then some l else none)
      let _ ← (if sequence_ids.length = n then some () else none)
      -- pipeline.py:587: decode_blocks(payload_data, bitmask_bytes, bits_per_symbol,
      -- alphabet) — a 4-argument call of the 3-parameter decode_blocks: TypeError.
      let blocks ← (none : Option (List RunLengthBlock))
      let columns ← colsGo n bits alphabet blocks expected
      let rows := (List.range n).map (fun r => columns.map (fun col => col.getD r ' '))
      let perm := (md.sequence_permutation).getD []
      if perm.isEmpty then
        pure (alignment_from_sequences sequence_ids rows (some alphabet)
          ⟨some md.source_format, none⟩)
      else do
        let inv ← invertPerm perm
        let _ ← (if inv.all (fun k => decide (k < n)) then some () else none)
        pure (alignment_from_sequences
          (inv.map (fun k => sequence_ids.getD k ""))
          (inv.map (fun k => rows.getD k []))
          (some alphabet) ⟨some md.source_format, none⟩)

/-- The payload-plus-metadata result record of `compress_alignment`. -/
structure CompressedAlignment where
  payload : List Nat
  metadata : Metadata
  deriving DecidableEq, Repr

/-- Mirror of `pipeline.compress_alignment`; `env` is the lowered
`ECOMP_SEQUENCE_ORDER` override consulted by `_choose_order`,
`tzstd`/`tzlib`/`txz` stand for the measured compressor seconds carried
through the candidate tuples exactly as in the source, and `mt` is the
clock value gzip would stamp in `_maybe_use_gzip_fallback`.
`FORMAT_VERSION` comes from the absent `config.py` and is spec-modelled
as `"1.0"`.  The call at pipeline.py:477 passes four arguments
(`run_length_blocks, bitmask_bytes, bits_per_symbol, frame.alphabet`) to
the three-parameter `encoding.encode_blocks`, so Python raises
`TypeError` there for every frame; the bind is modelled as `none` and the
statements after it (mirrored below as the source writes them) are
unreachable. -/
def compress_alignment (E : Ext) (env : String) (tzstd tzlib txz mt : Nat)
    (frame : AlignmentFrame) : Option CompressedAlignment := do
  let original := frame
  let cso := compute_similarity_order frame env
  let frame2 := cso.1
  let permutation := cso.2.1
  let order_label := cso.2.2
  let checksum_value := alignment_checksum E original.sequences
  let column_profiles := collect_column_profiles frame2
  let alphabet := frame2.alphabet
  let bits := bits_per_symbol_of alphabet
  let blocks := collect_run_length_blocks column_profiles frame2.num_sequences alphabet bits
  let bitmask_bytes := (frame2.num_sequences + 7) / 8
  -- pipeline.py:477: encode_blocks(run_length_blocks, bitmask_bytes,
  -- bits_per_symbol, frame.alphabet) — a 4-argument call of the 3-parameter
  -- encode_blocks: TypeError before the encoder runs.
  let run_length_payload ← (none : Option (List Nat))
  let seq_id_block := encode_sequence_ids E frame2.ids
  let raw_payload := seq_id_block ++ run_length_payload
  let candidates := ("raw", raw_payload, 0) ::
    ((if E.zstdAvail then [("zstd", E.zstdC raw_payload, tzstd)] else []) ++
      [("zlib", E.zlibC raw_payload, tzlib), ("xz", E.xzC raw_payload, txz)])
  let winner := minByLen3 candidates
  let max_run_length := (blocks.map RunLengthBlock.run_length).foldl max 0
  let deviation_columns := (column_profiles.filter (fun p => !p.deviations.isEmpty)).length
  let md : Metadata := {
    format_version := "1.0",
    codec := "ecomp",
    num_sequences := frame2.num_sequences,
    alignment_length := frame2.alignment_length,
    alphabet := alphabet,
    source_format := (frame2.metadata.source_format).getD "unknown",
    checksum_sha256 := some checksum_value,
    run_length_blocks := blocks.length,
    max_run_length := max_run_length,
    columns_with_deviations := deviation_columns,
    bitmask_bytes := bitmask_bytes,
    bits_per_symbol := bits,
    payload_encoding := winner.1,
    payload_encoded_bytes := winner.2.1.length,
    payload_raw_bytes := raw_payload.length,
    sequence_id_codec := "inline",
    ordering_strategy := order_label,
    sequence_permutation :=
      if permutation ≠ List.range frame2.num_sequences then some permutation else none,
    sequence_ids := none,
    fallback := none }
  let final := maybe_use_gzip_fallback E mt original winner.2.1 md
  pure ⟨final.1, final.2⟩

/-- Mirror of `__init__.decompress_file` restricted to its in-memory core:
decompress, then (when `validate_checksum` is on) compare the recomputed
row checksum against a *truthy* stored `checksum_sha256` (the source's
`if expected and checksum != expected` treats a missing entry and the
empty string as no expectation); `none` models the raised mismatch
`ValueError`.  File reads and the final `write_alignment` are outside the
model. -/
def decompress_file (E : Ext) (payload : List Nat) (md : Metadata)
    (validate_checksum : Bool) : Option AlignmentFrame := do
  let frame ← decompress_alignment E payload md
  if validate_checksum then
    let checksum := alignment_checksum E frame.sequences
    match md.checksum_sha256 with
    | some expected =>
        if expected ≠ "" ∧ checksum ≠ expected then none else pure frame
    | none => pure frame
  else pure frame

/-- C1 (code bug): `compress_alignment` raises `TypeError` for every input
frame — pipeline.py:477 passes four arguments to the three-parameter
`encoding.encode_blocks` — so `decompress(compress(F))` never returns a
frame, let alone one equal to `F`; the structured decode path raises the
same way at pipeline.py:587. -/
theorem C1_roundtrip_bug (E : Ext) (env : String) (t1 t2 t3 mt : Nat)
    (frame : AlignmentFrame) :
    compress_alignment E env t1 t2 t3 mt frame = none ∧
    (compress_alignment E env t1 t2 t3 mt frame).bind
      (fun c => decompress_alignment E c.payload c.metadata) = none :=
  ⟨rfl, rfl⟩

/-- C6 (amended): across two runs with different measured timings and a
different clock, `compress_alignment` behaves identically — both runs
raise the `TypeError` of the encode_blocks arity defect before any payload
byte is produced, so no run yields archive bytes at all. -/
theorem C6_compress_raises_uniformly (E : Ext) (env : String)
    (t1 t2 t3 mt t1' t2' t3' mt' : Nat) (frame : AlignmentFrame) :
    compress_alignment E env t1 t2 t3 mt frame =
      compress_alignment E env t1' t2' t3' mt' frame ∧
    compress_alignment E env t1 t2 t3 mt frame = none :=
  ⟨rfl, rfl⟩

/-- A one-row frame used by the C6 counterexample. -/
def frameC6 : AlignmentFrame :=
  { ids := ["s"], sequences := [['A']], alphabet := ['A'],
    metadata := { source_format := none, tree_newick := none } }

/-- Collaborators whose gzip output exposes the header mtime, the clock
value `gzip.compress` writes into bytes 4..7 of its output. -/
def extIdMt : Ext := { extId with gzipC := fun mt _ => [mt] }

/-- C6 counterexample: a run of `compress_alignment` yields no payload at
all (the arity `TypeError`), refuting byte-identical payload outputs
across runs; and the gzip fallback helper — the one place the claim's
archive bytes would come from on fallback frames — returns different
bytes for different clock values, because `gzip.compress` embeds the
current mtime in its output. -/
theorem C6_counterexample :
    compress_alignment extId "" 0 0 0 0 frameC6 = none ∧
    maybe_use_gzip_fallback extIdMt 0 frameC6 [9, 9, 9] mdC2 ≠
      maybe_use_gzip_fallback extIdMt 1 frameC6 [9, 9, 9] mdC2 := by
  decide

theorem profileKey_inj (p q : ColumnProfile) (h : profileKey p = profileKey q) : p = q := by
  cases p
  cases q
  simp only [profileKey, Prod.mk.injEq] at h
  simp [h.1, h.2]

theorem blockKey_blockOfProfile (p : ColumnProfile) (n : Nat) (alphabet : List Char)
    (bits r : Nat) :
    blockKey (blockOfProfile p n alphabet bits r) =
      blockKey (blockOfProfile p n alphabet bits 1) := rfl

/-- The pending open run of the RLE fold, expanded to per-column block
keys. -/
def pendKeys (n : Nat) (alphabet : List Char) (bits : Nat) :
    Option (ColumnProfile × Nat) → List (Char × List Nat × List Nat)
  | none => []
  | some (p, r) => List.replicate r (blockKey (blockOfProfile p n alphabet bits 1))

theorem rleFold_expand (n : Nat) (alphabet : List Char) (bits : Nat)
    (profiles : List ColumnProfile)
    (acc : List RunLengthBlock × Option (ColumnProfile × Nat)) :
    ((profiles.foldl (rleStep n alphabet bits) acc).1.flatMap
        (fun b => List.replicate b.run_length (blockKey b))) ++
      pendKeys n alphabet bits (profiles.foldl (rleStep n alphabet bits) acc).2 =
    (acc.1.flatMap (fun b => List.replicate b.run_length (blockKey b))) ++
      pendKeys n alphabet bits acc.2 ++
      profiles.map (fun p => blockKey (blockOfProfile p n alphabet bits 1)) := by
  induction profiles generalizing acc with
  | nil => simp
  | cons p t ih =>
      simp only [List.foldl_cons, List.map_cons]
      rw [ih (rleStep n alphabet bits acc p)]
      rcases hacc : acc.2 with _ | ⟨cur, run⟩
      · rw [rleStep_none n alphabet bits acc p hacc]
        simp [pendKeys, hacc]
      · by_cases hext : profileKey cur = profileKey p ∧ run < 255
        · rw [rleStep_ext n alphabet bits acc p cur run hacc hext]
          have hcp : cur = p := profileKey_inj _ _ hext.1
          subst hcp
          simp only [pendKeys, hacc, List.replicate_succ']
          simp [List.append_assoc]
        · rw [rleStep_emit n alphabet bits acc p cur run hacc hext]
          simp only [pendKeys, hacc, List.flatMap_append, List.flatMap_cons,
            List.flatMap_nil, List.append_nil]
          rw [blockKey_blockOfProfile]
          simp [List.append_assoc, blockOfProfile]

theorem rle_expand (profiles : List ColumnProfile) (n : Nat) (alphabet : List Char)
    (bits : Nat) :
    (collect_run_length_blocks profiles n alphabet bits).flatMap
        (fun b => List.replicate b.run_length (blockKey b)) =
      profiles.map (fun p => blockKey (blockOfProfile p n alphabet bits 1)) := by
  have h := rleFold_expand n alphabet bits profiles ([], none)
  simp only [List.flatMap_nil, pendKeys, List.nil_append] at h
  unfold collect_run_length_blocks
  rcases hfold : (profiles.foldl (rleStep n alphabet bits) ([], none)).2 with _ | ⟨cur, run⟩
  · rw [hfold] at h
    simp only [pendKeys, List.append_nil] at h
    simp only [hfold]
    exact h
  · rw [hfold] at h
    simp only [pendKeys] at h
    simp only [hfold, List.flatMap_append, List.flatMap_cons, List.flatMap_nil,
      List.append_nil]
    rw [blockKey_blockOfProfile]
    exact h

theorem rleFold_runs (n : Nat) (alphabet : List Char) (bits : Nat)
    (profiles : List ColumnProfile)
    (acc : List RunLengthBlock × Option (ColumnProfile × Nat))
    (h1 : ∀ b ∈ acc.1, 1 ≤ b.run_length ∧ b.run_length ≤ 255)
    (h2 : ∀ p r, acc.2 = some (p, r) → 1 ≤ r ∧ r ≤ 255) :
    (∀ b ∈ (profiles.foldl (rleStep n alphabet bits) acc).1,
      1 ≤ b.run_length ∧ b.run_length ≤ 255) ∧
    (∀ p r, (profiles.foldl (rleStep n alphabet bits) acc).2 = some (p, r) →
      1 ≤ r ∧ r ≤ 255) := by
  induction profiles generalizing acc with
  | nil => exact ⟨h1, h2⟩
  | cons p t ih =>
      simp only [List.foldl_cons]
      apply ih
      · intro b hb
        rcases hacc : acc.2 with _ | ⟨cur, run⟩
        · rw [rleStep_none n alphabet bits acc p hacc] at hb
          exact h1 b hb
        · by_cases hext : profileKey cur = profileKey p ∧ run < 255
          · rw [rleStep_ext n alphabet bits acc p cur run hacc hext] at hb
            exact h1 b hb
          · rw [rleStep_emit n alphabet bits acc p cur run hacc hext] at hb
            rcases List.mem_append.mp hb with ha | hsing
            · exact h1 b ha
            · have hr := h2 cur run hacc
              have hbv : b = blockOfProfile cur n alphabet bits run := by simpa using hsing
              rw [hbv]
              exact hr
      · intro q r hq
        rcases hacc : acc.2 with _ | ⟨cur, run⟩
        · rw [rleStep_none n alphabet bits acc p hacc] at hq
          simp at hq
          omega
        · by_cases hext : profileKey cur = profileKey p ∧ run < 255
          · rw [rleStep_ext n alphabet bits acc p cur run hacc hext] at hq
            simp at hq
            have hr := h2 cur run hacc
            omega
          · rw [rleStep_emit n alphabet bits acc p cur run hacc hext] at hq
            simp at hq
            omega

theorem collect_run_length_blocks_runs (profiles : List ColumnProfile) (n : Nat)
    (alphabet : List Char) (bits : Nat) :
    ∀ b ∈ collect_run_length_blocks profiles n alphabet bits,
      1 ≤ b.run_length ∧ b.run_length ≤ 255 := by
  intro b hb
  have h := rleFold_runs n alphabet bits profiles ([], none) (by simp)
    (by intro p r h; simp at h)
  simp only [collect_run_length_blocks] at hb
  rcases hfold : (profiles.foldl (rleStep n alphabet bits) ([], none)).2 with _ | ⟨cur, run⟩
  · rw [hfold] at hb
    exact h.1 b hb
  · rw [hfold] at hb
    rcases List.mem_append.mp hb with ha | hsing
    · exact h.1 b ha
    · have hr := h.2 cur run hfold
      have hbv : b = blockOfProfile cur n alphabet bits run := by simpa using hsing
      rw [hbv]
      exact hr

theorem lookup_of_mem_nodup : ∀ (l : List (Nat × Char)) (i : Nat) (c : Char),
    (l.map Prod.fst).Nodup → (i, c) ∈ l → l.lookup i = some c := by
  intro l
  induction l with
  | nil =>
      intro i c _ h
      simp at h
  | cons x t ih =>
      intro i c hnd hmem
      obtain ⟨x1, x2⟩ := x
      rw [List.lookup_cons]
      rcases List.mem_cons.mp hmem with heq | hmemt
      · cases heq
        simp
      · simp only [List.map_cons, List.nodup_cons] at hnd
        have hne : i ≠ x1 := by
          intro hcontra
          subst hcontra
          exact hnd.1 (List.mem_map.mpr ⟨(i, c), hmemt, rfl⟩)
        rw [show (i == x1) = false by simp [hne]]
        exact ih i c hnd.2 hmemt

theorem lookup_eq_none_of_keys : ∀ (l : List (Nat × Char)) (i : Nat),
    i ∉ l.map Prod.fst → l.lookup i = none := by
  intro l
  induction l with
  | nil => intro i _; rfl
  | cons x t ih =>
      intro i hnot
      obtain ⟨x1, x2⟩ := x
      simp only [List.map_cons, List.mem_cons, not_or] at hnot
      rw [List.lookup_cons]
      rw [show (i == x1) = false by simp [hnot.1]]
      exact ih i hnot.2

theorem enumFrom_filter_fst (pch : Char → Bool) :
    ∀ (col : List Char) (s : Nat),
    ((List.enumFrom s col).filter (fun q => pch q.2)).map Prod.fst =
      ((List.range col.length).filter (fun i => pch (col.getD i ' '))).map (fun i => s + i) := by
  intro col
  induction col with
  | nil => intro s; rfl
  | cons c t ih =>
      intro s
      rw [show List.enumFrom s (c :: t) = (s, c) :: List.enumFrom (s + 1) t from rfl]
      rw [List.length_cons, List.range_succ_eq_map]
      rw [List.filter_cons, List.filter_cons]
      have hget0 : (c :: t).getD 0 ' ' = c := rfl
      rw [hget0]
      have hshift : List.filter (fun i => pch ((c :: t).getD i ' '))
          ((List.range t.length).map Nat.succ) =
          (List.filter (fun i => pch (t.getD i ' ')) (List.range t.length)).map Nat.succ := by
        rw [List.filter_map]
        congr 1
      have hmap : List.map (fun i => s + 1 + i)
          (List.filter (fun i => pch (t.getD i ' ')) (List.range t.length)) =
          List.map ((fun i => s + i) ∘ Nat.succ)
          (List.filter (fun i => pch (t.getD i ' ')) (List.range t.length)) := by
        apply List.map_congr_left
        intro i _
        show s + 1 + i = s + (i + 1)
        omega
      by_cases hc : pch c
      · simp only [hc, if_pos]
        rw [List.map_cons, List.map_cons, hshift, ih (s + 1), List.map_map, hmap]
        rfl
      · simp only [hc, Bool.false_eq_true, if_neg, not_false_iff]
        rw [hshift, ih (s + 1), List.map_map, hmap]

theorem enum_filter_fst (pch : Char → Bool) (col : List Char) :
    ((col.enum.filter (fun q => pch q.2)).map Prod.fst) =
      (List.range col.length).filter (fun i => pch (col.getD i ' ')) := by
  have h := enumFrom_filter_fst pch col 0
  rw [show col.enum = List.enumFrom 0 col from rfl] at *
  rw [h]
  have : (fun i => 0 + i) = fun (i : Nat) => i := by
    funext i
    omega
  rw [this, List.map_id']

theorem range_map_getD (col : List Char) :
    (List.range col.length).map (fun i => col.getD i ' ') = col := by
  induction col with
  | nil => simp
  | cons c t ih =>
      rw [List.length_cons, List.range_succ_eq_map, List.map_cons, List.map_map]
      congr 1

theorem getD_indexOf (a : List Char) (c : Char) (h : c ∈ a) :
    a.getD (a.indexOf c) ' ' = c := by
  have hlt : a.indexOf c < a.length := List.indexOf_lt_length.mpr h
  rw [List.getD_eq_getElem?_getD, List.getElem?_eq_getElem hlt]
  simp [List.getElem_indexOf hlt]

theorem lookup_enum_filter (col : List Char) (cons : Char) (i : Nat) (hi : i < col.length) :
    (((col.enum.filter (fun q => !(q.2 == cons))).lookup i).getD cons) = col.getD i ' ' := by
  have hnd : ((col.enum.filter (fun q => !(q.2 == cons))).map Prod.fst).Nodup := by
    have hsub : ((col.enum.filter (fun q => !(q.2 == cons))).map Prod.fst).Sublist
        (col.enum.map Prod.fst) :=
      (List.filter_sublist col.enum).map Prod.fst
    rw [List.enum_map_fst] at hsub
    exact hsub.nodup (List.nodup_range _)
  by_cases hc : col.getD i ' ' == cons
  · have hnot : i ∉ (col.enum.filter (fun q => !(q.2 == cons))).map Prod.fst := by
      intro hmem
      obtain ⟨q, hqd, hq⟩ := List.mem_map.mp hmem
      have hfil := List.mem_filter.mp hqd
      have henum := List.mem_enum_iff_getElem?.mp hfil.1
      rw [hq] at henum
      have hch : q.2 = col.getD i ' ' := by
        rw [List.getD_eq_getElem?_getD, henum]
        rfl
      have hq2 := hfil.2
      rw [hch] at hq2
      have hceq : col.getD i ' ' = cons := eq_of_beq hc
      rw [hceq] at hq2
      simp at hq2
    rw [lookup_eq_none_of_keys _ i hnot]
    simp only [Option.getD_none]
    exact (eq_of_beq hc).symm
  · have hmem : (i, col.getD i ' ') ∈ col.enum.filter (fun q => !(q.2 == cons)) := by
      apply List.mem_filter.mpr
      refine ⟨?_, by simpa using hc⟩
      apply List.mem_enum_iff_getElem?.mpr
      show col[i]? = some (col.getD i ' ')
      rw [List.getElem?_eq_getElem hi, List.getD_eq_getElem?_getD,
        List.getElem?_eq_getElem hi]
      rfl
    rw [lookup_of_mem_nodup _ i _ hnd hmem]
    rfl

theorem column_of_block_spec (col : List Char) (cons : Char) (alphabet : List Char)
    (bits : Nat) (hbits : 1 ≤ bits) (halpha : alphabet.length ≤ 2 ^ bits)
    (hchars : ∀ c ∈ col, c ∈ alphabet) (run : Nat) :
    column_of_block
      (blockOfProfile ⟨cons, col.enum.filter (fun q => !(q.2 == cons))⟩
        col.length alphabet bits run)
      col.length bits alphabet = some col := by
  set devs := col.enum.filter (fun q => !(q.2 == cons)) with hdevs
  have hrows : devs.map Prod.fst =
      (List.range col.length).filter (fun i => !(col.getD i ' ' == cons)) :=
    enum_filter_fst (fun ch => !(ch == cons)) col
  have hdevchars : ∀ d ∈ devs, d.2 ∈ col := by
    intro d hd
    have hfil := List.mem_filter.mp hd
    exact List.getElem?_mem (List.mem_enum_iff_getElem?.mp hfil.1)
  have hv : ∀ v ∈ devs.map (fun d => alphabet.indexOf d.2), v < 2 ^ bits := by
    intro v hvm
    obtain ⟨d, hd, rfl⟩ := List.mem_map.mp hvm
    have : alphabet.indexOf d.2 < alphabet.length :=
      List.indexOf_lt_length.mpr (hchars d.2 (hdevchars d hd))
    omega
  have hv2 : ∀ v ∈ devs.map (fun d => alphabet.indexOf d.2), v < alphabet.length := by
    intro v hvm
    obtain ⟨d, hd, rfl⟩ := List.mem_map.mp hvm
    exact List.indexOf_lt_length.mpr (hchars d.2 (hdevchars d hd))
  have hiter : iter_deviation_indices (bitmaskOf (devs.map Prod.fst) col.length)
      col.length = some (devs.map Prod.fst) := by
    rw [hrows]
    exact iter_deviation_indices_bitmaskOf _ _
  have hdecode : decode_residues (packedResidues ⟨cons, devs⟩ alphabet bits)
      (devs.map Prod.fst).length bits alphabet = some (devs.map Prod.snd) := by
    unfold packedResidues
    rw [show (ColumnProfile.mk cons devs).deviations = devs from rfl]
    rw [show devs.flatMap (fun d => bitsOfValue (alphabet.indexOf d.2) bits) =
      (devs.map (fun d => alphabet.indexOf d.2)).flatMap (fun v => bitsOfValue v bits)
      from (List.flatMap_map (fun d : Nat × Char => alphabet.indexOf d.2)
        (fun v => bitsOfValue v bits) devs).symm]
    rw [show (devs.map Prod.fst).length =
      (devs.map (fun d => alphabet.indexOf d.2)).length by
      rw [List.length_map, List.length_map]]
    rw [decode_residues_packed _ bits alphabet hbits hv hv2]
    congr 1
    rw [List.map_map]
    apply List.map_congr_left
    intro d hd
    exact getD_indexOf alphabet d.2 (hchars d.2 (hdevchars d hd))
  have hzip : (devs.map Prod.fst).zip (devs.map Prod.snd) = devs := by
    rw [List.zip_map']
    simp
  have hcol : (List.range col.length).map (fun row => ((devs.lookup row).getD cons)) =
      col := by
    conv_rhs => rw [← range_map_getD col]
    apply List.map_congr_left
    intro i hi
    exact lookup_enum_filter col cons i (List.mem_range.mp hi)
  show (iter_deviation_indices (bitmaskOf (devs.map Prod.fst) col.length) col.length).bind
      (fun idxs => (decode_residues (packedResidues ⟨cons, devs⟩ alphabet bits)
        idxs.length bits alphabet).bind
        (fun residues => some ((List.range col.length).map
          (fun row => ((idxs.zip residues).lookup row).getD cons)))) = some col
  rw [hiter]
  simp only [Option.some_bind]
  rw [hdecode]
  simp only [Option.some_bind]
  rw [hzip, hcol]

theorem colsGo_spec (n bits : Nat) (alphabet : List Char) :
    ∀ (blocks : List RunLengthBlock) (C : RunLengthBlock → List Char),
    (∀ b ∈ blocks, 1 ≤ b.run_length) →
    (∀ b ∈ blocks, column_of_block b n bits alphabet = some (C b)) →
    colsGo n bits alphabet blocks ((blocks.map RunLengthBlock.run_length).sum) =
      some (blocks.flatMap (fun b => List.replicate b.run_length (C b))) := by
  intro blocks
  induction blocks with
  | nil => intro C _ _; rfl
  | cons b bs ih =>
      intro C hrun hcol
      rw [List.map_cons, List.sum_cons]
      unfold colsGo
      rw [if_neg (by have := hrun b (by simp); omega)]
      rw [if_pos (by omega : b.run_length ≤ b.run_length + (bs.map RunLengthBlock.run_length).sum)]
      rw [hcol b (by simp)]
      simp only [Option.bind_eq_bind, Option.some_bind]
      rw [show b.run_length + (bs.map RunLengthBlock.run_length).sum - b.run_length =
        (bs.map RunLengthBlock.run_length).sum by omega]
      rw [ih C (fun x hx => hrun x (by simp [hx])) (fun x hx => hcol x (by simp [hx]))]
      simp [List.flatMap_cons]

/-- The reconstructed column as a function of the block *key* alone (the
reconstruction never reads `run_length`). -/
def columnFromKey (k : Char × List Nat × List Nat) (n bits : Nat) (alphabet : List Char) :
    Option (List Char) :=
  column_of_block ⟨k.1, k.2.1, k.2.2, 1⟩ n bits alphabet

theorem column_of_block_eq_key (b : RunLengthBlock) (n bits : Nat) (alphabet : List Char) :
    column_of_block b n bits alphabet = columnFromKey (blockKey b) n bits alphabet := rfl

theorem flatMap_replicate_key (blocks : List RunLengthBlock)
    (g : (Char × List Nat × List Nat) → List Char) :
    blocks.flatMap (fun b => List.replicate b.run_length (g (blockKey b))) =
      (blocks.flatMap (fun b => List.replicate b.run_length (blockKey b))).map g := by
  induction blocks with
  | nil => rfl
  | cons b bs ih =>
      simp only [List.flatMap_cons, List.map_append, List.map_replicate, ih]

theorem range_map_getDg {α : Type} (l : List α) (d : α) :
    (List.range l.length).map (fun i => l.getD i d) = l := by
  induction l with
  | nil => simp
  | cons c t ih =>
      rw [List.length_cons, List.range_succ_eq_map, List.map_cons, List.map_map]
      congr 1

theorem transpose_columns (rows : List (List Char)) (L : Nat)
    (hlen : ∀ r ∈ rows, r.length = L) :
    (List.range rows.length).map (fun r =>
      ((List.range L).map (fun j => rows.map (fun row => row.getD j ' '))).map
        (fun col => col.getD r ' ')) = rows := by
  conv_rhs => rw [← range_map_getDg rows []]
  apply List.map_congr_left
  intro r hr
  have hrn := List.mem_range.mp hr
  rw [List.map_map]
  have hstep : ((fun col => col.getD r ' ') ∘ fun j => rows.map (fun row => row.getD j ' '))
      = fun j => (rows.getD r []).getD j ' ' := by
    funext j
    show (rows.map (fun row => row.getD j ' ')).getD r ' ' = (rows.getD r []).getD j ' '
    rw [List.getD_eq_getElem?_getD, List.getElem?_map, List.getElem?_eq_getElem hrn]
    rw [List.getD_eq_getElem?_getD rows, List.getElem?_eq_getElem hrn]
    rfl
  rw [hstep]
  have hL : (rows.getD r []).length = L := by
    rw [List.getD_eq_getElem?_getD rows, List.getElem?_eq_getElem hrn]
    exact hlen _ (List.getElem_mem hrn)
  rw [← hL]
  exact range_map_getD (rows.getD r [])

theorem foldl_choice_mem {α : Type} (f : α → α → α) (hf : ∀ b x, f b x = b ∨ f b x = x) :
    ∀ (l : List α) (b : α), l.foldl f b = b ∨ l.foldl f b ∈ l := by
  intro l
  induction l with
  | nil => intro b; exact Or.inl rfl
  | cons x t ih =>
      intro b
      rw [List.foldl_cons]
      rcases hf b x with h2 | h2
      · rw [h2]
        rcases ih b with h | h
        · exact Or.inl h
        · exact Or.inr (by simp [h])
      · rw [h2]
        rcases ih x with h | h
        · exact Or.inr (by simp [h])
        · exact Or.inr (by simp [h])

theorem getD_map_range {α : Type} (f : Nat → α) (n v : Nat) (d : α) (hv : v < n) :
    ((List.range n).map f).getD v d = f v := by
  rw [List.getD_eq_getElem?_getD, List.getElem?_map, List.getElem?_range hv]
  rfl

theorem getD_map_range_ge {α : Type} (f : Nat → α) (n v : Nat) (d : α) (hv : n ≤ v) :
    ((List.range n).map f).getD v d = d := by
  rw [List.getD_eq_getElem?_getD, List.getElem?_eq_none (by simp [hv])]
  rfl

theorem exists_unvisited (vo : List Nat) (n : Nat) (hnd : vo.Nodup)
    (hlt : ∀ x ∈ vo, x < n) (hlen : vo.length < n) : ∃ x, x < n ∧ x ∉ vo := by
  by_contra h
  push_neg at h
  have hsub : (List.range n) ⊆ vo := fun x hx => h x (List.mem_range.mp hx)
  have hsp := (List.nodup_range n).subperm hsub
  have hle := hsp.length_le
  simp at hle
  omega

theorem flatMap_congr_mem {α β : Type} (l : List α) (f g : α → List β)
    (h : ∀ x ∈ l, f x = g x) : l.flatMap f = l.flatMap g := by
  induction l with
  | nil => rfl
  | cons x t ih =>
      simp only [List.flatMap_cons]
      rw [h x (by simp), ih (fun y hy => h y (by simp [hy]))]

theorem nodup_flatMap_of_disjoint {α β : Type} :
    ∀ (l : List α) (f : α → List β), l.Nodup → (∀ x ∈ l, (f x).Nodup) →
      (∀ x ∈ l, ∀ y ∈ l, x ≠ y → ∀ b ∈ f x, b ∉ f y) → (l.flatMap f).Nodup := by
  intro l
  induction l with
  | nil => intro f _ _ _; simp
  | cons x t ih =>
      intro f hnd hfn hdisj
      simp only [List.flatMap_cons]
      rw [List.nodup_append]
      simp only [List.nodup_cons] at hnd
      refine ⟨hfn x (by simp), ih f hnd.2 (fun y hy => hfn y (by simp [hy]))
        (fun a ha b hb hab => hdisj a (by simp [ha]) b (by simp [hb]) hab), ?_⟩
      intro b hbx hbt
      obtain ⟨y, hy, hby⟩ := List.mem_flatMap.mp hbt
      have hxy : x ≠ y := fun hc => hnd.1 (hc ▸ hy)
      exact hdisj x (by simp) y (by simp [hy]) hxy b hbx hby

theorem tree_guided_order_perm (frame : AlignmentFrame) (order : List Nat)
    (h : tree_guided_order frame = some order) :
    List.Perm order (List.range frame.num_sequences) := by
  unfold tree_guided_order at h
  split at h
  · exact absurd h (by simp)
  split at h
  · exact absurd h (by simp)
  split at h
  · exact absurd h (by simp)
  split at h
  · exact absurd h (by simp)
  split at h
  · exact absurd h (by simp)
  split at h
  · exact absurd h (by simp)
  rename_i hsort
  push_neg at hsort
  have hov := Option.some.inj h
  rw [← hov, ← hsort]
  exact (List.perm_insertionSort _ _).symm

theorem greedyPick_mem (m : List (List Nat)) (current : Nat) (r : Nat) (t : List Nat) :
    greedyPick m current (r :: t) ∈ r :: t := by
  show t.foldl (fun best idx => if mat m current idx < mat m current best then idx else best)
    r ∈ r :: t
  rcases foldl_choice_mem (fun best idx => if mat m current idx < mat m current best
      then idx else best)
    (fun b x => by
      show (if mat m current x < mat m current b then x else b) = b ∨
        (if mat m current x < mat m current b then x else b) = x
      by_cases hc : mat m current x < mat m current b
      · rw [if_pos hc]
        exact Or.inr rfl
      · rw [if_neg hc]
        exact Or.inl rfl) t r with h | h
  · rw [h]
    simp
  · simp [h]

theorem greedyLoop_perm (m : List (List Nat)) :
    ∀ (fuel : Nat) (current : Nat) (remaining order : List Nat),
    remaining.length ≤ fuel →
    List.Perm (greedyLoop m fuel current remaining order) (order ++ remaining) := by
  intro fuel
  induction fuel with
  | zero =>
      intro current remaining order hlen
      have hrem : remaining = [] := List.eq_nil_of_length_eq_zero (by omega)
      subst hrem
      simp [greedyLoop]
  | succ fuel ih =>
      intro current remaining order hlen
      match remaining with
      | [] => simp [greedyLoop]
      | r :: t =>
          show List.Perm (greedyLoop m fuel (greedyPick m current (r :: t))
            ((r :: t).erase (greedyPick m current (r :: t)))
            (order ++ [greedyPick m current (r :: t)])) (order ++ r :: t)
          have hmem := greedyPick_mem m current r t
          have herase : ((r :: t).erase (greedyPick m current (r :: t))).length ≤ fuel := by
            rw [List.length_erase_of_mem hmem]
            simp only [List.length_cons] at hlen ⊢
            omega
          have h1 := ih (greedyPick m current (r :: t))
            ((r :: t).erase (greedyPick m current (r :: t)))
            (order ++ [greedyPick m current (r :: t)]) herase
          refine h1.trans ?_
          rw [List.append_assoc]
          refine List.Perm.append_left order ?_
          exact (List.perm_cons_erase hmem).symm

theorem greedy_sequence_order_perm (m : List (List Nat)) :
    List.Perm (greedy_sequence_order m) (List.range m.length) := by
  unfold greedy_sequence_order
  by_cases hn : m.length = 0
  · rw [if_pos hn, hn]
    simp
  · rw [if_neg hn]
    have hstart : ((List.range m.length).foldl (fun best idx =>
        if (m.getD idx []).sum < (m.getD best []).sum then idx else best) 0) ∈
        List.range m.length := by
      rcases foldl_choice_mem (fun best idx =>
          if (m.getD idx []).sum < (m.getD best []).sum then idx else best)
        (fun b x => by
          show (if (m.getD x []).sum < (m.getD b []).sum then x else b) = b ∨
            (if (m.getD x []).sum < (m.getD b []).sum then x else b) = x
          by_cases hc : (m.getD x []).sum < (m.getD b []).sum
          · rw [if_pos hc]
            exact Or.inr rfl
          · rw [if_neg hc]
            exact Or.inl rfl)
        (List.range m.length) 0 with h | h
      · rw [h]
        exact List.mem_range.mpr (by omega)
      · exact h
    show List.Perm (greedyLoop m m.length
      ((List.range m.length).foldl (fun best idx =>
        if (m.getD idx []).sum < (m.getD best []).sum then idx else best) 0)
      ((List.range m.length).erase ((List.range m.length).foldl (fun best idx =>
        if (m.getD idx []).sum < (m.getD best []).sum then idx else best) 0))
      [(List.range m.length).foldl (fun best idx =>
        if (m.getD idx []).sum < (m.getD best []).sum then idx else best) 0])
      (List.range m.length)
    generalize hg : (List.range m.length).foldl (fun best idx =>
        if (m.getD idx []).sum < (m.getD best []).sum then idx else best) 0 = start
    rw [hg] at hstart
    have h1 := greedyLoop_perm m m.length start ((List.range m.length).erase start) [start]
      (by
        rw [List.length_erase_of_mem hstart, List.length_range]
        omega)
    refine h1.trans ?_
    simp only [List.singleton_append]
    exact (List.perm_cons_erase hstart).symm

/-- The node picked by one Prim iteration. -/
def primU (n : Nat) (st : List Nat × List (Option Nat) × List (Option Nat)) : Nat :=
  argminKey ((List.range n).filter (fun i => !(st.1.contains i))) st.2.1

theorem primStep_fst (m : List (List Nat)) (n : Nat)
    (st : List Nat × List (Option Nat) × List (Option Nat)) :
    (primStep m n st).1 = st.1 ++ [primU n st] := rfl

theorem primStep_parent (m : List (List Nat)) (n : Nat)
    (st : List Nat × List (Option Nat) × List (Option Nat)) :
    (primStep m n st).2.2 = (List.range n).map (fun v =>
      if (st.1 ++ [primU n st]).contains v then st.2.2.getD v none
      else if optLt (some (mat m (primU n st) v)) (st.2.1.getD v none) then
        some (primU n st)
      else st.2.2.getD v none) := rfl

theorem primStep_key (m : List (List Nat)) (n : Nat)
    (st : List Nat × List (Option Nat) × List (Option Nat)) :
    (primStep m n st).2.1 = (List.range n).map (fun v =>
      if (st.1 ++ [primU n st]).contains v then st.2.1.getD v none
      else if optLt (some (mat m (primU n st) v)) (st.2.1.getD v none) then
        some (mat m (primU n st) v)
      else st.2.1.getD v none) := rfl

theorem argminKey_mem (cands : List Nat) (key : List (Option Nat)) (h : cands ≠ []) :
    argminKey cands key ∈ cands := by
  match cands with
  | [] => exact absurd rfl h
  | c :: t =>
      show t.foldl (fun best idx =>
        if optLt (key.getD idx none) (key.getD best none) then idx else best) c ∈ c :: t
      rcases foldl_choice_mem (fun best idx =>
          if optLt (key.getD idx none) (key.getD best none) then idx else best)
        (fun b x => by
          show (if optLt (key.getD x none) (key.getD b none) then x else b) = b ∨
            (if optLt (key.getD x none) (key.getD b none) then x else b) = x
          by_cases hc : optLt (key.getD x none) (key.getD b none)
          · rw [if_pos hc]
            exact Or.inr rfl
          · rw [if_neg hc]
            exact Or.inl rfl) t c with h1 | h1
      · rw [h1]
        simp
      · exact List.mem_cons_of_mem c h1

theorem primU_spec (n : Nat) (st : List Nat × List (Option Nat) × List (Option Nat))
    (hnd : st.1.Nodup) (hlt : ∀ x ∈ st.1, x < n) (hlen : st.1.length < n) :
    primU n st < n ∧ primU n st ∉ st.1 := by
  obtain ⟨x, hx, hnx⟩ := exists_unvisited st.1 n hnd hlt hlen
  have hxc : x ∈ (List.range n).filter (fun i => !(st.1.contains i)) := by
    apply List.mem_filter.mpr
    refine ⟨List.mem_range.mpr hx, ?_⟩
    simp [hnx]
  have hmem := argminKey_mem ((List.range n).filter (fun i => !(st.1.contains i))) st.2.1
    (List.ne_nil_of_mem hxc)
  have := List.mem_filter.mp hmem
  refine ⟨List.mem_range.mp this.1, ?_⟩
  have h2 := this.2
  simpa [primU] using h2

/-- The Prim-loop invariant: the visit list is duplicate-free within
range, the key and parent arrays keep width `n`, every recorded parent was
visited before its child, the first visited node is row 0 with no parent,
and every other row inside range holds a parent from the first iteration
on. -/
def PrimInv (n : Nat) (st : List Nat × List (Option Nat) × List (Option Nat)) : Prop :=
  st.1.Nodup ∧ (∀ x ∈ st.1, x < n) ∧ st.2.1.length = n ∧ st.2.2.length = n ∧
  (∀ v u, st.2.2.getD v none = some u →
    u ∈ st.1 ∧ v < n ∧ (v ∈ st.1 → st.1.indexOf u < st.1.indexOf v)) ∧
  (st.1 ≠ [] →
    st.1.headI = 0 ∧ st.2.2.getD 0 none = none ∧
    (∀ v, v < n → v ≠ 0 → (st.2.2.getD v none).isSome))

theorem contains_true_iff (l : List Nat) (v : Nat) : l.contains v = true ↔ v ∈ l := by
  simp

theorem headI_mem_of_ne_nil (l : List Nat) (h : l ≠ []) : l.headI ∈ l := by
  obtain ⟨a, t, rfl⟩ := List.exists_cons_of_ne_nil h
  simp

theorem primStep_inv (m : List (List Nat)) (n : Nat)
    (st : List Nat × List (Option Nat) × List (Option Nat))
    (hinv : PrimInv n st) (hlen : st.1.length < n) (hne : st.1 ≠ []) :
    PrimInv n (primStep m n st) ∧ (primStep m n st).1.length = st.1.length + 1 := by
  obtain ⟨hnd, hlt, hkl, hpl, hpar, hhead⟩ := hinv
  obtain ⟨hu1, hu2⟩ := primU_spec n st hnd hlt hlen
  obtain ⟨hh0, hp0, hps⟩ := hhead hne
  have hn : 0 < n := by
    obtain ⟨a, t, he⟩ := List.exists_cons_of_ne_nil hne
    have := hlt a (by rw [he]; simp)
    omega
  have h0mem : 0 ∈ st.1 := by
    rw [← hh0]
    exact headI_mem_of_ne_nil st.1 hne
  constructor
  swap
  · rw [primStep_fst]
    simp
  refine ⟨?_, ?_, ?_, ?_, ?_, ?_⟩
  · rw [primStep_fst, List.nodup_append]
    refine ⟨hnd, by simp, ?_⟩
    intro a ha hb
    simp at hb
    subst hb
    exact hu2 ha
  · rw [primStep_fst]
    intro x hx
    rcases List.mem_append.mp hx with h | h
    · exact hlt x h
    · simp at h
      rw [h]
      exact hu1
  · rw [primStep_key]
    simp
  · rw [primStep_parent]
    simp
  · intro v u' hvp
    rw [primStep_parent] at hvp
    by_cases hv : v < n
    · rw [getD_map_range _ n v none hv] at hvp
      rw [primStep_fst]
      by_cases hvis : (st.1 ++ [primU n st]).contains v
      · rw [if_pos hvis] at hvp
        obtain ⟨hu'm, _, hidx⟩ := hpar v u' hvp
        refine ⟨List.mem_append_left _ hu'm, hv, fun hv2 => ?_⟩
        rw [List.indexOf_append_of_mem hu'm]
        rcases List.mem_append.mp hv2 with hv3 | hv3
        · rw [List.indexOf_append_of_mem hv3]
          exact hidx hv3
        · simp only [List.mem_singleton] at hv3
          subst hv3
          rw [List.indexOf_append_of_not_mem hu2]
          have := List.indexOf_lt_length.mpr hu'm
          omega
      · rw [if_neg hvis] at hvp
        have hvnot : v ∉ st.1 ++ [primU n st] := fun hc =>
          hvis ((contains_true_iff _ v).mpr hc)
        by_cases hopt : optLt (some (mat m (primU n st) v)) (st.2.1.getD v none)
        · rw [if_pos hopt] at hvp
          have hu'eq : primU n st = u' := Option.some.inj hvp
          rw [← hu'eq]
          exact ⟨List.mem_append_right _ (by simp), hv, fun hv2 => absurd hv2 hvnot⟩
        · rw [if_neg hopt] at hvp
          obtain ⟨hu'm, _, _⟩ := hpar v u' hvp
          exact ⟨List.mem_append_left _ hu'm, hv, fun hv2 => absurd hv2 hvnot⟩
    · rw [getD_map_range_ge _ n v none (by omega)] at hvp
      exact absurd hvp (by simp)
  · intro _
    refine ⟨?_, ?_, ?_⟩
    · rw [primStep_fst]
      obtain ⟨a, t, he⟩ := List.exists_cons_of_ne_nil hne
      rw [he]
      rw [he] at hh0
      simpa using hh0
    · rw [primStep_parent]
      rw [getD_map_range _ n 0 none hn]
      rw [if_pos ((contains_true_iff _ 0).mpr (List.mem_append_left _ h0mem))]
      exact hp0
    · intro v hv hv0
      rw [primStep_parent]
      rw [getD_map_range _ n v none hv]
      by_cases hvis : (st.1 ++ [primU n st]).contains v
      · rw [if_pos hvis]
        exact hps v hv hv0
      · rw [if_neg hvis]
        by_cases hopt : optLt (some (mat m (primU n st) v)) (st.2.1.getD v none)
        · rw [if_pos hopt]
          simp
        · rw [if_neg hopt]
          exact hps v hv hv0

theorem primU_init (n : Nat) (hn : 0 < n) :
    primU n ([], (List.range n).map (fun i => if i = 0 then some 0 else none),
      (List.range n).map (fun _ => (none : Option Nat))) = 0 := by
  show argminKey ((List.range n).filter (fun i => !(([] : List Nat).contains i)))
    ((List.range n).map (fun i => if i = 0 then some 0 else none)) = 0
  have hcands : (List.range n).filter (fun i => !(([] : List Nat).contains i)) =
      List.range n := List.filter_eq_self.mpr (fun a _ => rfl)
  rw [hcands]
  have hkey0 : ((List.range n).map (fun i => if i = 0 then some 0 else none)).getD 0 none =
      some 0 := by
    rw [getD_map_range _ n 0 none hn]
    simp
  have hkeyx : ∀ x, x ≠ 0 →
      ((List.range n).map (fun i => if i = 0 then some 0 else none)).getD x none = none := by
    intro x hx
    by_cases hxn : x < n
    · rw [getD_map_range _ n x none hxn]
      simp [hx]
    · rw [getD_map_range_ge _ n x none (by omega)]
  have hfold : ∀ (t : List Nat), (∀ x ∈ t, x ≠ 0) →
      t.foldl (fun best idx =>
        if optLt (((List.range n).map (fun i => if i = 0 then some 0 else none)).getD idx none)
          (((List.range n).map (fun i => if i = 0 then some 0 else none)).getD best none)
        then idx else best) 0 = 0 := by
    intro t
    induction t with
    | nil => intro _; rfl
    | cons x ts ih =>
        intro hall
        rw [List.foldl_cons]
        have hred : (if optLt (((List.range n).map
            (fun i => if i = 0 then some 0 else none)).getD x none)
            (((List.range n).map (fun i => if i = 0 then some 0 else none)).getD 0 none)
            then x else 0) = 0 := by
          rw [hkeyx x (hall x (by simp)), hkey0]
          rfl
        rw [hred]
        exact ih (fun y hy => hall y (by simp [hy]))
  obtain ⟨k, rfl⟩ : ∃ k, n = k + 1 := ⟨n - 1, by omega⟩
  nth_rewrite 1 [List.range_succ_eq_map]
  show ((List.range k).map Nat.succ).foldl (fun best idx =>
      if optLt (((List.range (k + 1)).map
          (fun i => if i = 0 then some 0 else none)).getD idx none)
        (((List.range (k + 1)).map (fun i => if i = 0 then some 0 else none)).getD best none)
      then idx else best) 0 = 0
  apply hfold
  intro x hx
  obtain ⟨y, _, rfl⟩ := List.mem_map.mp hx
  exact Nat.succ_ne_zero y

theorem primStep_init (m : List (List Nat)) (n : Nat) (hn : 0 < n) :
    PrimInv n (primStep m n ([],
      (List.range n).map (fun i => if i = 0 then some 0 else none),
      (List.range n).map (fun _ => (none : Option Nat)))) ∧
    (primStep m n ([], (List.range n).map (fun i => if i = 0 then some 0 else none),
      (List.range n).map (fun _ => (none : Option Nat)))).1.length = 1 := by
  have hu := primU_init n hn
  have hkeyx : ∀ x, x ≠ 0 → x < n →
      ((List.range n).map (fun i => if i = 0 then some 0 else none)).getD x none = none := by
    intro x hx hxn
    rw [getD_map_range _ n x none hxn]
    simp [hx]
  have hpnone : ∀ v, ((List.range n).map (fun _ => (none : Option Nat))).getD v none =
      none := by
    intro v
    by_cases hv : v < n
    · rw [getD_map_range _ n v none hv]
    · rw [getD_map_range_ge _ n v none (by omega)]
  constructor
  swap
  · rw [primStep_fst]
    simp
  refine ⟨?_, ?_, ?_, ?_, ?_, ?_⟩
  · rw [primStep_fst, hu]
    simp
  · rw [primStep_fst, hu]
    intro x hx
    simp at hx
    rw [hx]
    exact hn
  · rw [primStep_key]
    simp
  · rw [primStep_parent]
    simp
  · intro v u' hvp
    rw [primStep_parent, hu] at hvp
    by_cases hv : v < n
    · rw [getD_map_range _ n v none hv] at hvp
      by_cases hv0 : v = 0
      · rw [if_pos (by subst hv0; simp)] at hvp
        rw [hpnone] at hvp
        exact absurd hvp (by simp)
      · rw [if_neg (by simp [hv0])] at hvp
        rw [hkeyx v hv0 hv] at hvp
        rw [show optLt (some (mat m 0 v)) none = true from rfl] at hvp
        rw [if_pos rfl] at hvp
        have : (0 : Nat) = u' := Option.some.inj hvp
        rw [primStep_fst, hu, ← this]
        exact ⟨by simp, hv, fun hv2 => absurd (by simpa using hv2) hv0⟩
    · rw [getD_map_range_ge _ n v none (by omega)] at hvp
      exact absurd hvp (by simp)
  · intro _
    refine ⟨?_, ?_, ?_⟩
    · rw [primStep_fst, hu]
      rfl
    · rw [primStep_parent, hu]
      rw [getD_map_range _ n 0 none hn]
      rw [if_pos (by simp)]
      exact hpnone 0
    · intro v hv hv0
      rw [primStep_parent, hu]
      rw [getD_map_range _ n v none hv]
      rw [if_neg (by simp [hv0])]
      rw [hkeyx v hv0 hv]
      rw [show optLt (some (mat m 0 v)) none = true from rfl]
      rw [if_pos rfl]
      simp

theorem primFold_inv (m : List (List Nat)) (n : Nat) :
    ∀ (l : List Nat) (st : List Nat × List (Option Nat) × List (Option Nat)),
    PrimInv n st → st.1 ≠ [] → st.1.length + l.length ≤ n →
    PrimInv n (l.foldl (fun s _ => primStep m n s) st) ∧
      (l.foldl (fun s _ => primStep m n s) st).1.length = st.1.length + l.length := by
  intro l
  induction l with
  | nil =>
      intro st h1 _ _
      exact ⟨h1, by simp⟩
  | cons x t ih =>
      intro st h1 h2 h3
      rw [List.foldl_cons]
      have hstep := primStep_inv m n st h1 (by simp at h3; omega) h2
      have hne2 : (primStep m n st).1 ≠ [] := by
        rw [primStep_fst]
        simp
      obtain ⟨ha, hb⟩ := ih (primStep m n st) hstep.1 hne2 (by
        rw [hstep.2]
        simp at h3 ⊢
        omega)
      refine ⟨ha, ?_⟩
      rw [hb, hstep.2]
      simp
      omega

theorem primLoop_facts (m : List (List Nat)) (n : Nat) (hn : 0 < n) :
    PrimInv n (primLoop m n) ∧ (primLoop m n).1.length = n := by
  unfold primLoop
  obtain ⟨k, rfl⟩ : ∃ k, n = k + 1 := ⟨n - 1, by omega⟩
  have hsplit := congrArg (List.foldl
    (fun (st : List Nat × List (Option Nat) × List (Option Nat)) (_ : Nat) =>
      primStep m (k + 1) st)
    ([], (List.range (k + 1)).map (fun i => if i = 0 then some 0 else none),
      (List.range (k + 1)).map (fun _ => (none : Option Nat))))
    (List.range_succ_eq_map k)
  rw [hsplit, List.foldl_cons]
  have hinit := primStep_init m (k + 1) (by omega)
  have hne : (primStep m (k + 1) ([],
      (List.range (k + 1)).map (fun i => if i = 0 then some 0 else none),
      (List.range (k + 1)).map (fun _ => (none : Option Nat)))).1 ≠ [] := by
    rw [primStep_fst]
    simp
  have hrest := primFold_inv m (k + 1) ((List.range k).map Nat.succ) _ hinit.1 hne (by
    rw [hinit.2, List.length_map, List.length_range]
    omega)
  refine ⟨hrest.1, ?_⟩
  rw [hrest.2, hinit.2, List.length_map, List.length_range]
  omega

theorem primLoop_final (m : List (List Nat)) (n : Nat) (hn : 0 < n) :
    List.Perm (primLoop m n).1 (List.range n) ∧
    (primLoop m n).1.headI = 0 ∧
    (primLoop m n).2.2.getD 0 none = none ∧
    (∀ v, v < n → v ≠ 0 → ∃ u, (primLoop m n).2.2.getD v none = some u) ∧
    (∀ v u, (primLoop m n).2.2.getD v none = some u → v < n ∧ u < n ∧
      (primLoop m n).1.indexOf u < (primLoop m n).1.indexOf v) := by
  obtain ⟨⟨hnd, hlt, _, _, hpar, hhead⟩, hlen⟩ := primLoop_facts m n hn
  have hne : (primLoop m n).1 ≠ [] := by
    intro hc
    rw [hc] at hlen
    simp at hlen
    omega
  obtain ⟨hh0, hp0, hps⟩ := hhead hne
  have hperm : List.Perm (primLoop m n).1 (List.range n) := by
    have hsub : (primLoop m n).1 ⊆ List.range n := fun x hx => List.mem_range.mpr (hlt x hx)
    exact (hnd.subperm hsub).perm_of_length_le (by simp [hlen])
  refine ⟨hperm, hh0, hp0, ?_, ?_⟩
  · intro v hv hv0
    obtain ⟨u, hu⟩ := Option.isSome_iff_exists.mp (hps v hv hv0)
    exact ⟨u, hu⟩
  · intro v u hvu
    obtain ⟨hum, hvn, hidx⟩ := hpar v u hvu
    have hvm : v ∈ (primLoop m n).1 := hperm.mem_iff.mpr (List.mem_range.mpr hvn)
    exact ⟨hvn, hlt u hum, hidx hvm⟩

/-- Fuelled ancestor relation along the MST parent array. -/
def reachF (parent : List (Option Nat)) : Nat → Nat → Nat → Prop
  | 0, x, u => x = u
  | fuel + 1, x, u => x = u ∨ ∃ p, parent.getD x none = some p ∧ reachF parent fuel p u

/-- `u` is an ancestor (or equal) of `x` in the MST parent forest. -/
def Reach (parent : List (Option Nat)) (x u : Nat) : Prop := ∃ f, reachF parent f x u

theorem reach_refl (parent : List (Option Nat)) (x : Nat) : Reach parent x x := ⟨0, rfl⟩

theorem reach_step_back (parent : List (Option Nat)) (u c : Nat)
    (hc : parent.getD c none = some u) :
    ∀ f x, reachF parent f x c → Reach parent x u := by
  intro f
  induction f with
  | zero =>
      intro x h
      cases h
      exact ⟨1, Or.inr ⟨u, hc, rfl⟩⟩
  | succ f ih =>
      intro x h
      rcases h with rfl | ⟨p, hp, hr⟩
      · exact ⟨1, Or.inr ⟨u, hc, rfl⟩⟩
      · obtain ⟨g, hg⟩ := ih p hr
        exact ⟨g + 1, Or.inr ⟨p, hp, hg⟩⟩

theorem reach_rank (parent : List (Option Nat)) (vo : List Nat) (n : Nat)
    (H1 : ∀ v u, parent.getD v none = some u → v < n ∧ u < n ∧
      vo.indexOf u < vo.indexOf v) :
    ∀ f x u, reachF parent f x u → vo.indexOf u ≤ vo.indexOf x := by
  intro f
  induction f with
  | zero =>
      intro x u h
      cases h
      exact Nat.le_refl _
  | succ f ih =>
      intro x u h
      rcases h with rfl | ⟨p, hp, hr⟩
      · exact Nat.le_refl _
      · have h1 := (H1 x p hp).2.2
        have h2 := ih p u hr
        omega

theorem reach_linear (parent : List (Option Nat)) :
    ∀ f x c c', reachF parent f x c → Reach parent x c' →
      Reach parent c c' ∨ Reach parent c' c := by
  intro f
  induction f with
  | zero =>
      intro x c c' h h'
      cases h
      exact Or.inl h'
  | succ f ih =>
      intro x c c' h h'
      rcases h with rfl | ⟨p, hp, hr⟩
      · exact Or.inl h'
      · rcases h' with ⟨g, hg⟩
        match g, hg with
        | 0, hg =>
            cases hg
            exact Or.inr ⟨f + 1, Or.inr ⟨p, hp, hr⟩⟩
        | g + 1, hg =>
            rcases hg with rfl | ⟨p', hp', hr'⟩
            · exact Or.inr ⟨f + 1, Or.inr ⟨p, hp, hr⟩⟩
            · have hpp : p = p' := by
                rw [hp] at hp'
                exact Option.some.inj hp'
              subst hpp
              exact ih p c c' hr ⟨g, hr'⟩

theorem childrenRev_mem (m : List (List Nat)) (parent : List (Option Nat)) (n u c : Nat) :
    c ∈ (sortedChildren m parent n u).reverse ↔
      (c < n ∧ parent.getD c none = some u) := by
  rw [List.mem_reverse]
  unfold sortedChildren
  rw [List.mem_insertionSort]
  unfold adjChildren
  rw [List.mem_filter, List.mem_range]
  constructor
  · intro ⟨h1, h2⟩
    refine ⟨h1, ?_⟩
    simpa using h2
  · intro ⟨h1, h2⟩
    refine ⟨h1, ?_⟩
    simpa using h2

theorem childrenRev_nodup (m : List (List Nat)) (parent : List (Option Nat)) (n u : Nat) :
    ((sortedChildren m parent n u).reverse).Nodup := by
  rw [List.nodup_reverse]
  unfold sortedChildren
  rw [(List.perm_insertionSort _ _).nodup_iff]
  exact (List.nodup_range n).filter _

/-- The DFS subtree below a node in the MST parent forest, left-to-right in
the order the stack DFS visits children; the fuel dominates the tree depth. -/
def subtreeF (m : List (List Nat)) (parent : List (Option Nat)) (n : Nat) :
    Nat → Nat → List Nat
  | 0, _ => []
  | fuel + 1, u => u :: ((sortedChildren m parent n u).reverse).flatMap
      (subtreeF m parent n fuel)

theorem subtreeF_stable (m : List (List Nat)) (parent : List (Option Nat)) (n : Nat)
    (vo : List Nat)
    (H1 : ∀ v u, parent.getD v none = some u → v < n ∧ u < n ∧
      vo.indexOf u < vo.indexOf v)
    (hmemvo : ∀ v, v < n → v ∈ vo) (hvolen : vo.length = n) :
    ∀ f1 f2 u, u < n → n - vo.indexOf u ≤ f1 → n - vo.indexOf u ≤ f2 →
      subtreeF m parent n f1 u = subtreeF m parent n f2 u := by
  intro f1
  induction f1 with
  | zero =>
      intro f2 u hu h1 _
      have : vo.indexOf u < n := by
        rw [← hvolen]
        exact List.indexOf_lt_length.mpr (hmemvo u hu)
      omega
  | succ f1 ih =>
      intro f2 u hu h1 h2
      have hrk : vo.indexOf u < n := by
        rw [← hvolen]
        exact List.indexOf_lt_length.mpr (hmemvo u hu)
      match f2 with
      | 0 => omega
      | f2 + 1 =>
          show u :: _ = u :: _
          congr 1
          apply flatMap_congr_mem
          intro c hc
          obtain ⟨hcn, hcp⟩ := (childrenRev_mem m parent n u c).mp hc
          have hidx := (H1 c u hcp).2.2
          have hrc : vo.indexOf c < n := by
            rw [← hvolen]
            exact List.indexOf_lt_length.mpr (hmemvo c hcn)
          exact ih f2 c hcn (by omega) (by omega)

theorem ST_unfold (m : List (List Nat)) (parent : List (Option Nat)) (n : Nat)
    (vo : List Nat)
    (H1 : ∀ v u, parent.getD v none = some u → v < n ∧ u < n ∧
      vo.indexOf u < vo.indexOf v)
    (hmemvo : ∀ v, v < n → v ∈ vo) (hvolen : vo.length = n)
    (u : Nat) (hu : u < n) :
    subtreeF m parent n n u = u :: ((sortedChildren m parent n u).reverse).flatMap
      (subtreeF m parent n n) := by
  obtain ⟨k, rfl⟩ : ∃ k, n = k + 1 := ⟨n - 1, by omega⟩
  rw [show subtreeF m parent (k + 1) (k + 1) u = u ::
      ((sortedChildren m parent (k + 1) u).reverse).flatMap (subtreeF m parent (k + 1) k)
    from rfl]
  congr 1
  apply flatMap_congr_mem
  intro c hc
  obtain ⟨hcn, hcp⟩ := (childrenRev_mem m parent (k + 1) u c).mp hc
  have hidx := (H1 c u hcp).2.2
  have hrc : vo.indexOf c < k + 1 := by
    rw [← hvolen]
    exact List.indexOf_lt_length.mpr (hmemvo c hcn)
  exact subtreeF_stable m parent (k + 1) vo H1 hmemvo hvolen k (k + 1) c hcn (by omega)
    (by omega)

theorem subtree_elems (m : List (List Nat)) (parent : List (Option Nat)) (n : Nat) :
    ∀ f u, ∀ x ∈ subtreeF m parent n f u, x < n ∨ x = u := by
  intro f
  induction f with
  | zero => intro u x hx; simp [subtreeF] at hx
  | succ f ih =>
      intro u x hx
      rw [show subtreeF m parent n (f + 1) u = u ::
          ((sortedChildren m parent n u).reverse).flatMap (subtreeF m parent n f)
        from rfl] at hx
      rcases List.mem_cons.mp hx with rfl | hx2
      · exact Or.inr rfl
      · obtain ⟨c, hcm, hcin⟩ := List.mem_flatMap.mp hx2
        obtain ⟨hcn, _⟩ := (childrenRev_mem m parent n u c).mp hcm
        rcases ih c x hcin with h | rfl
        · exact Or.inl h
        · exact Or.inl hcn

theorem subtree_reach (m : List (List Nat)) (parent : List (Option Nat)) (n : Nat) :
    ∀ f u, ∀ x ∈ subtreeF m parent n f u, Reach parent x u := by
  intro f
  induction f with
  | zero => intro u x hx; simp [subtreeF] at hx
  | succ f ih =>
      intro u x hx
      rw [show subtreeF m parent n (f + 1) u = u ::
          ((sortedChildren m parent n u).reverse).flatMap (subtreeF m parent n f)
        from rfl] at hx
      rcases List.mem_cons.mp hx with rfl | hx2
      · exact reach_refl parent x
      · obtain ⟨c, hcm, hcin⟩ := List.mem_flatMap.mp hx2
        obtain ⟨_, hcp⟩ := (childrenRev_mem m parent n u c).mp hcm
        obtain ⟨g, hg⟩ := ih c x hcin
        exact reach_step_back parent u c hcp g x hg

theorem reach_between_children (parent : List (Option Nat)) (vo : List Nat) (n : Nat)
    (H1 : ∀ v u, parent.getD v none = some u → v < n ∧ u < n ∧
      vo.indexOf u < vo.indexOf v)
    (c c' u : Nat) (hc : parent.getD c none = some u) (hc' : parent.getD c' none = some u)
    (hne : c ≠ c') (hr : Reach parent c c') : False := by
  obtain ⟨f, hf⟩ := hr
  match f, hf with
  | 0, hf => exact hne hf
  | f + 1, hf =>
      rcases hf with heq | ⟨p, hp, hrest⟩
      · exact hne heq
      · have hpu : u = p := by
          rw [hc] at hp
          exact Option.some.inj hp
        subst hpu
        have h1 := reach_rank parent vo n H1 f u c' hrest
        have h2 := (H1 c' u hc').2.2
        omega

theorem subtree_nodup (m : List (List Nat)) (parent : List (Option Nat)) (n : Nat)
    (vo : List Nat)
    (H1 : ∀ v u, parent.getD v none = some u → v < n ∧ u < n ∧
      vo.indexOf u < vo.indexOf v) :
    ∀ f u, (subtreeF m parent n f u).Nodup := by
  intro f
  induction f with
  | zero => intro u; simp [subtreeF]
  | succ f ih =>
      intro u
      rw [show subtreeF m parent n (f + 1) u = u ::
          ((sortedChildren m parent n u).reverse).flatMap (subtreeF m parent n f)
        from rfl]
      rw [List.nodup_cons]
      constructor
      · intro hmem
        obtain ⟨c, hcm, hcin⟩ := List.mem_flatMap.mp hmem
        obtain ⟨_, hcp⟩ := (childrenRev_mem m parent n u c).mp hcm
        obtain ⟨g, hg⟩ := subtree_reach m parent n f c u hcin
        have hru := reach_rank parent vo n H1 g u c hg
        have := (H1 c u hcp).2.2
        omega
      · apply nodup_flatMap_of_disjoint
        · exact childrenRev_nodup m parent n u
        · intro c _
          exact ih c
        · intro c hcm c' hcm' hne b hbc hbc'
          obtain ⟨_, hcp⟩ := (childrenRev_mem m parent n u c).mp hcm
          obtain ⟨_, hcp'⟩ := (childrenRev_mem m parent n u c').mp hcm'
          obtain ⟨g, hg⟩ := subtree_reach m parent n f c b hbc
          have hrb' := subtree_reach m parent n f c' b hbc'
          rcases reach_linear parent g b c c' hg hrb' with h | h
          · exact reach_between_children parent vo n H1 c c' u hcp hcp' hne h
          · exact reach_between_children parent vo n H1 c' c u hcp' hcp
              (fun he => hne he.symm) h

theorem subtree_child_closed (m : List (List Nat)) (parent : List (Option Nat)) (n : Nat)
    (vo : List Nat)
    (H1 : ∀ v u, parent.getD v none = some u → v < n ∧ u < n ∧
      vo.indexOf u < vo.indexOf v)
    (hmemvo : ∀ v, v < n → v ∈ vo) (hvolen : vo.length = n)
    (v u : Nat) (hpv : parent.getD v none = some u) (hv : v < n) :
    ∀ d w, w < n → n - vo.indexOf w ≤ d → u ∈ subtreeF m parent n n w →
      v ∈ subtreeF m parent n n w := by
  intro d
  induction d using Nat.strong_induction_on with
  | _ d ih =>
      intro w hw hd hu
      rw [ST_unfold m parent n vo H1 hmemvo hvolen w hw] at hu ⊢
      rcases List.mem_cons.mp hu with heq | humem
      · subst heq
        apply List.mem_cons_of_mem
        apply List.mem_flatMap.mpr
        refine ⟨v, (childrenRev_mem m parent n u v).mpr ⟨hv, hpv⟩, ?_⟩
        rw [ST_unfold m parent n vo H1 hmemvo hvolen v hv]
        simp
      · obtain ⟨c, hcm, hcin⟩ := List.mem_flatMap.mp humem
        obtain ⟨hcn, hcp⟩ := (childrenRev_mem m parent n w c).mp hcm
        apply List.mem_cons_of_mem
        apply List.mem_flatMap.mpr
        refine ⟨c, hcm, ?_⟩
        have hidx := (H1 c w hcp).2.2
        have hrc : vo.indexOf c < n := by
          rw [← hvolen]
          exact List.indexOf_lt_length.mpr (hmemvo c hcn)
        exact ih (n - vo.indexOf c) (by omega) c hcn (Nat.le_refl _) hcin

theorem mem_ST_zero (m : List (List Nat)) (parent : List (Option Nat)) (n : Nat)
    (vo : List Nat)
    (H1 : ∀ v u, parent.getD v none = some u → v < n ∧ u < n ∧
      vo.indexOf u < vo.indexOf v)
    (H2 : ∀ v, v < n → v ≠ 0 → ∃ u, parent.getD v none = some u)
    (hmemvo : ∀ v, v < n → v ∈ vo) (hvolen : vo.length = n) (hn : 0 < n) :
    ∀ r v, v < n → vo.indexOf v = r → v ∈ subtreeF m parent n n 0 := by
  intro r
  induction r using Nat.strong_induction_on with
  | _ r ih =>
      intro v hv hr
      by_cases hv0 : v = 0
      · subst hv0
        rw [ST_unfold m parent n vo H1 hmemvo hvolen 0 hn]
        simp
      · obtain ⟨u, hu⟩ := H2 v hv hv0
        obtain ⟨_, hun, hidx⟩ := H1 v u hu
        have humem : u ∈ subtreeF m parent n n 0 :=
          ih (vo.indexOf u) (by omega) u hun rfl
        exact subtree_child_closed m parent n vo H1 hmemvo hvolen v u hu hv n 0 hn
          (by omega) humem

theorem dfsLoop_spec (m : List (List Nat)) (parent : List (Option Nat)) (n : Nat)
    (vo : List Nat)
    (H1 : ∀ v u, parent.getD v none = some u → v < n ∧ u < n ∧
      vo.indexOf u < vo.indexOf v)
    (hmemvo : ∀ v, v < n → v ∈ vo) (hvolen : vo.length = n) :
    ∀ fuel stack order, (∀ x ∈ stack, x < n) →
    (stack.flatMap (subtreeF m parent n n)).length ≤ fuel →
    dfsLoop m parent n fuel stack order =
      order ++ stack.flatMap (subtreeF m parent n n) := by
  intro fuel
  induction fuel with
  | zero =>
      intro stack order _ hlen
      have hempty : stack.flatMap (subtreeF m parent n n) = [] :=
        List.eq_nil_of_length_eq_zero (by omega)
      rw [show dfsLoop m parent n 0 stack order = order from rfl, hempty, List.append_nil]
  | succ fuel ih =>
      intro stack order hst hlen
      match stack with
      | [] =>
          rw [show dfsLoop m parent n (fuel + 1) [] order = order from rfl]
          simp
      | node :: rest =>
          have hnode : node < n := hst node (by simp)
          rw [show dfsLoop m parent n (fuel + 1) (node :: rest) order =
            dfsLoop m parent n fuel ((sortedChildren m parent n node).reverse ++ rest)
              (order ++ [node]) from rfl]
          have hSTnode := ST_unfold m parent n vo H1 hmemvo hvolen node hnode
          have hstack2 : ∀ x ∈ (sortedChildren m parent n node).reverse ++ rest, x < n := by
            intro x hx
            rcases List.mem_append.mp hx with h | h
            · exact ((childrenRev_mem m parent n node x).mp h).1
            · exact hst x (by simp [h])
          have hlen2 : (((sortedChildren m parent n node).reverse ++ rest).flatMap
              (subtreeF m parent n n)).length ≤ fuel := by
            have hsteplen : ((node :: rest).flatMap (subtreeF m parent n n)).length =
                1 + (((sortedChildren m parent n node).reverse ++ rest).flatMap
                  (subtreeF m parent n n)).length := by
              rw [List.flatMap_cons, hSTnode, List.flatMap_append]
              simp only [List.length_append, List.length_cons]
              omega
            omega
          rw [ih _ _ hstack2 hlen2]
          rw [List.flatMap_cons, hSTnode, List.flatMap_append]
          simp [List.append_assoc]

theorem mst_sequence_order_perm (m : List (List Nat)) :
    List.Perm (mst_sequence_order m) (List.range m.length) := by
  unfold mst_sequence_order
  by_cases hn : m.length = 0
  · rw [if_pos hn, hn]
    simp
  · rw [if_neg hn]
    obtain ⟨hperm, _, _, hex, hH1⟩ := primLoop_final m m.length (by omega)
    have hmemvo : ∀ v, v < m.length → v ∈ (primLoop m m.length).1 :=
      fun v hv => hperm.mem_iff.mpr (List.mem_range.mpr hv)
    have hvolen : (primLoop m m.length).1.length = m.length := by
      rw [hperm.length_eq, List.length_range]
    have hST0sub : ∀ x ∈ subtreeF m (primLoop m m.length).2.2 m.length m.length 0,
        x < m.length := by
      intro x hx
      rcases subtree_elems m (primLoop m m.length).2.2 m.length m.length 0 x hx with h | h
      · exact h
      · rw [h]
        omega
    have hST0nodup := subtree_nodup m (primLoop m m.length).2.2 m.length
      (primLoop m m.length).1 hH1 m.length 0
    have hcomplete : ∀ v, v < m.length →
        v ∈ subtreeF m (primLoop m m.length).2.2 m.length m.length 0 := by
      intro v hv
      exact mem_ST_zero m (primLoop m m.length).2.2 m.length (primLoop m m.length).1
        hH1 hex hmemvo hvolen (by omega) ((primLoop m m.length).1.indexOf v) v hv rfl
    have hST0perm : List.Perm
        (subtreeF m (primLoop m m.length).2.2 m.length m.length 0)
        (List.range m.length) := by
      rw [List.perm_ext_iff_of_nodup hST0nodup (List.nodup_range _)]
      intro a
      constructor
      · intro h
        exact List.mem_range.mpr (hST0sub a h)
      · intro h
        exact hcomplete a (List.mem_range.mp h)
    have hlenST0 : (subtreeF m (primLoop m m.length).2.2 m.length m.length 0).length =
        m.length := by
      rw [hST0perm.length_eq, List.length_range]
    have hdfs := dfsLoop_spec m (primLoop m m.length).2.2 m.length (primLoop m m.length).1
      hH1 hmemvo hvolen (m.length * m.length + m.length + 1) [0] []
      (by
        intro x hx
        simp at hx
        omega)
      (by
        simp only [List.flatMap_cons, List.flatMap_nil, List.append_nil]
        rw [hlenST0]
        nlinarith)
    rw [hdfs]
    simp only [List.nil_append, List.flatMap_cons, List.flatMap_nil, List.append_nil]
    exact hST0perm

theorem choose_order_mem (m : List (List Nat)) (cands : List (String × List Nat))
    (env : String) (hne : cands ≠ []) :
    ∃ w ∈ cands, (choose_order m cands env).1 = w.2 := by
  by_cases henv : env = "baseline" ∨ env = "mst" ∨ env = "greedy"
  · unfold choose_order
    rw [if_pos henv]
    rcases hf : (dedupByOrder cands).find? (fun kv => kv.1 == env) with _ | kv
    · rcases hd : dedupByOrder cands with _ | ⟨kv0, t⟩
      · exact absurd hd (dedupByOrder_ne_nil cands hne)
      · rw [hd] at hf
        rw [hf]
        have hmem : kv0 ∈ dedupByOrder cands := by
          rw [hd]
          simp
        rcases dedupFold_subset cands [] kv0 (by
            rw [← dedupByOrder_eq_fold]
            exact hmem) with h | h
        · simp at h
        · exact ⟨kv0, h, rfl⟩
    · rw [hf]
      have hkv : kv ∈ dedupByOrder cands := List.mem_of_find?_eq_some hf
      rcases dedupFold_subset cands [] kv (by
          rw [← dedupByOrder_eq_fold]
          exact hkv) with h | h
      · simp at h
      · exact ⟨kv, h, rfl⟩
  · obtain ⟨w, hw, h1, _, _⟩ := choose_order_auto m cands env henv hne
    exact ⟨w, hw, h1⟩

theorem build_distance_matrix_length (seqs : List (List Char)) (sample : List Nat) :
    (build_distance_matrix seqs sample).length = seqs.length := by
  unfold build_distance_matrix
  simp

theorem compute_similarity_order_spec (frame : AlignmentFrame) (env : String) :
    List.Perm (compute_similarity_order frame env).2.1
      (List.range frame.num_sequences) ∧
    ((compute_similarity_order frame env).1 = frame ∧
        (compute_similarity_order frame env).2.1 = List.range frame.num_sequences ∨
      (compute_similarity_order frame env).1 =
        reorderFrame frame (compute_similarity_order frame env).2.1) := by
  simp only [compute_similarity_order]
  by_cases hn : frame.num_sequences ≤ 2
  · rw [if_pos hn]
    exact ⟨List.Perm.refl _, Or.inl ⟨rfl, rfl⟩⟩
  · rw [if_neg hn]
    rcases ht : tree_guided_order frame with _ | tree_order
    · simp only []
      by_cases ha : frame.alignment_length = 0
      · rw [if_pos ha]
        exact ⟨List.Perm.refl _, Or.inl ⟨rfl, rfl⟩⟩
      · rw [if_neg ha]
        have hMlen : (build_distance_matrix frame.sequences
            (select_sample_indices frame.alignment_length)).length =
            frame.num_sequences := by
          rw [build_distance_matrix_length]
          rfl
        obtain ⟨w, hw, hw1⟩ := choose_order_mem
          (build_distance_matrix frame.sequences
            (select_sample_indices frame.alignment_length))
          [("baseline", List.range frame.num_sequences),
            ("mst", mst_sequence_order (build_distance_matrix frame.sequences
              (select_sample_indices frame.alignment_length))),
            ("greedy", greedy_sequence_order (build_distance_matrix frame.sequences
              (select_sample_indices frame.alignment_length)))] env (by simp)
        have hperm : List.Perm (choose_order (build_distance_matrix frame.sequences
            (select_sample_indices frame.alignment_length))
            [("baseline", List.range frame.num_sequences),
              ("mst", mst_sequence_order (build_distance_matrix frame.sequences
                (select_sample_indices frame.alignment_length))),
              ("greedy", greedy_sequence_order (build_distance_matrix frame.sequences
                (select_sample_indices frame.alignment_length)))] env).1
            (List.range frame.num_sequences) := by
          rw [hw1]
          simp only [List.mem_cons, List.not_mem_nil, or_false] at hw
          rcases hw with rfl | rfl | rfl
          · exact List.Perm.refl _
          · rw [show ((("mst", mst_sequence_order (build_distance_matrix frame.sequences
                (select_sample_indices frame.alignment_length))) :
                String × List Nat)).2 =
              mst_sequence_order (build_distance_matrix frame.sequences
                (select_sample_indices frame.alignment_length)) from rfl]
            have := mst_sequence_order_perm (build_distance_matrix frame.sequences
              (select_sample_indices frame.alignment_length))
            rwa [hMlen] at this
          · rw [show ((("greedy", greedy_sequence_order (build_distance_matrix
                frame.sequences (select_sample_indices frame.alignment_length))) :
                String × List Nat)).2 =
              greedy_sequence_order (build_distance_matrix frame.sequences
                (select_sample_indices frame.alignment_length)) from rfl]
            have := greedy_sequence_order_perm (build_distance_matrix frame.sequences
              (select_sample_indices frame.alignment_length))
            rwa [hMlen] at this
        by_cases hcb : (choose_order (build_distance_matrix frame.sequences
            (select_sample_indices frame.alignment_length))
            [("baseline", List.range frame.num_sequences),
              ("mst", mst_sequence_order (build_distance_matrix frame.sequences
                (select_sample_indices frame.alignment_length))),
              ("greedy", greedy_sequence_order (build_distance_matrix frame.sequences
                (select_sample_indices frame.alignment_length)))] env).1 =
            List.range frame.num_sequences
        · rw [if_pos hcb]
          exact ⟨by simpa [hcb] using hperm, Or.inl ⟨rfl, hcb⟩⟩
        · rw [if_neg hcb]
          exact ⟨hperm, Or.inr rfl⟩
    · simp only []
      by_cases htb : tree_order = List.range frame.num_sequences
      · rw [if_pos htb]
        exact ⟨tree_guided_order_perm frame tree_order ht, Or.inl ⟨rfl, htb⟩⟩
      · rw [if_neg htb]
        exact ⟨tree_guided_order_perm frame tree_order ht, Or.inr rfl⟩

theorem headI_mem_of_ne_nil_g {α : Type} [Inhabited α] (l : List α) (h : l ≠ []) :
    l.headI ∈ l := by
  cases l with
  | nil => exact absurd rfl h
  | cons a t => simp [List.headI]

theorem consensusOf_mem (col : List Char) (h : col ≠ []) : consensusOf col ∈ col := by
  unfold consensusOf
  have hperm := List.perm_insertionSort (fun a b : Char => a ≤ b) col.dedup
  have hne : col.dedup.insertionSort (fun a b => a ≤ b) ≠ [] := by
    intro hnil
    rw [hnil] at hperm
    have hd : col.dedup = [] := hperm.symm.eq_nil
    exact h ((List.dedup_eq_nil col).mp hd)
  have hsorted_sub : ∀ c ∈ col.dedup.insertionSort (fun a b => a ≤ b), c ∈ col := by
    intro c hc
    exact List.mem_dedup.mp (hperm.mem_iff.mp hc)
  have hchoice := foldl_choice_mem
    (fun best c => if col.count c > col.count best then c else best)
    (by
      intro b x
      by_cases hx : col.count x > col.count b
      · exact Or.inr (if_pos hx)
      · exact Or.inl (if_neg hx))
    (col.dedup.insertionSort (fun a b => a ≤ b))
    (col.dedup.insertionSort (fun a b => a ≤ b)).headI
  rcases hchoice with h1 | h1
  · rw [h1]
    exact hsorted_sub _ (headI_mem_of_ne_nil_g _ hne)
  · exact hsorted_sub _ h1

theorem getD_mem {α : Type} (l : List α) (i : Nat) (d : α) (h : i < l.length) :
    l.getD i d ∈ l := by
  rw [List.getD_eq_getElem?_getD, List.getElem?_eq_getElem h]
  exact List.getElem_mem h

theorem length_le_sum_of_pos (l : List RunLengthBlock)
    (h : ∀ b ∈ l, 1 ≤ b.run_length) :
    l.length ≤ (l.map RunLengthBlock.run_length).sum := by
  induction l with
  | nil => simp
  | cons b t ih =>
      simp only [List.length_cons, List.map_cons, List.sum_cons]
      have hb := h b (by simp)
      have ht := ih (fun x hx => h x (by simp [hx]))
      omega

theorem bitmaskOf_length (devRows : List Nat) (n : Nat) :
    (bitmaskOf devRows n).length = (n + 7) / 8 := by
  unfold bitmaskOf
  simp

theorem collect_run_length_blocks_sum (profiles : List ColumnProfile) (n : Nat)
    (alphabet : List Char) (bits : Nat) :
    ((collect_run_length_blocks profiles n alphabet bits).map
      RunLengthBlock.run_length).sum = profiles.length := by
  have h := rleFold_sum n alphabet bits profiles ([], none)
  simp only [List.map_nil, List.sum_nil, pendRun, Nat.zero_add] at h
  unfold collect_run_length_blocks
  rcases hfold : (profiles.foldl (rleStep n alphabet bits) ([], none)).2 with _ | ⟨cur, run⟩
  · rw [hfold] at h
    simp only [pendRun] at h
    simp only [hfold]
    omega
  · rw [hfold] at h
    simp only [pendRun] at h
    simp only [hfold, List.map_append, List.sum_append, List.map_cons, List.map_nil,
      List.sum_cons, List.sum_nil, blockOfProfile]
    omega

theorem block_key_of_mem (profiles : List ColumnProfile) (n : Nat)
    (alphabet : List Char) (bits : Nat) :
    ∀ b ∈ collect_run_length_blocks profiles n alphabet bits,
      ∃ p ∈ profiles, blockKey b = blockKey (blockOfProfile p n alphabet bits 1) := by
  intro b hb
  have hrun := collect_run_length_blocks_runs profiles n alphabet bits b hb
  have hkey : blockKey b ∈ (collect_run_length_blocks profiles n alphabet bits).flatMap
      (fun c => List.replicate c.run_length (blockKey c)) := by
    rw [List.mem_flatMap]
    exact ⟨b, hb, List.mem_replicate.mpr ⟨by omega, rfl⟩⟩
  rw [rle_expand] at hkey
  obtain ⟨p, hp, hpk⟩ := List.mem_map.mp hkey
  exact ⟨p, hp, hpk.symm⟩

theorem enumFrom_filter_singleton :
    ∀ (l : List Nat) (s a : Nat), l.Nodup → a ∈ l →
      (List.enumFrom s l).filter (fun q => q.2 == a) = [(s + l.indexOf a, a)] := by
  intro l
  induction l with
  | nil =>
      intro s a _ ha
      simp at ha
  | cons x t ih =>
      intro s a hnd ha
      rw [List.enumFrom_cons, List.filter_cons]
      by_cases hax : x = a
      · subst hax
        rw [if_pos (by simp)]
        have hnot : x ∉ t := (List.nodup_cons.mp hnd).1
        have hnil : (List.enumFrom (s + 1) t).filter (fun q => q.2 == x) = [] := by
          rw [List.filter_eq_nil_iff]
          intro q hq
          have hq2 : q.2 ∈ t := by
            have := List.mem_map_of_mem Prod.snd hq
            rwa [List.enumFrom_map_snd] at this
          simp only [beq_iff_eq]
          intro hqa
          exact hnot (hqa ▸ hq2)
        rw [hnil, List.indexOf_cons_self]
        rfl
      · rw [if_neg (by simp [hax])]
        have hat : a ∈ t := by
          rcases List.mem_cons.mp ha with h | h
          · exact absurd h.symm hax
          · exact h
        rw [ih (s + 1) a (List.nodup_cons.mp hnd).2 hat]
        rw [List.indexOf_cons_ne t hax]
        have : s + (t.indexOf a + 1) = s + 1 + t.indexOf a := by omega
        rw [this]

theorem invertPerm_of_perm (p : List Nat) (n : Nat) (hperm : List.Perm p (List.range n)) :
    invertPerm p = some ((List.range n).map (fun idx => p.indexOf idx)) := by
  have hlen : p.length = n := by
    rw [hperm.length_eq, List.length_range]
  have hmem : ∀ x ∈ p, x < n := by
    intro x hx
    exact List.mem_range.mp (hperm.mem_iff.mp hx)
  have hnd : p.Nodup := hperm.nodup_iff.mpr (List.nodup_range n)
  unfold invertPerm
  rw [if_pos (by
    rw [List.all_eq_true]
    intro x hx
    exact decide_eq_true (hlen ▸ hmem x hx))]
  rw [hlen]
  congr 1
  apply List.map_congr_left
  intro idx hidx
  have hin : idx ∈ p := hperm.mem_iff.mpr (List.mem_range.mpr (List.mem_range.mp hidx))
  have hsing := enumFrom_filter_singleton p 0 idx hnd hin
  rw [show p.enum = List.enumFrom 0 p from rfl, hsing]
  simp

theorem invert_reorder {α : Type} (p : List Nat) (n : Nat)
    (hperm : List.Perm p (List.range n)) (l : List α) (d : α) (hl : l.length = n) :
    ((List.range n).map (fun idx => p.indexOf idx)).map
      (fun k => (p.map (fun i => l.getD i d)).getD k d) = l := by
  have hlen : p.length = n := by
    rw [hperm.length_eq, List.length_range]
  rw [List.map_map]
  have hbody : ∀ idx ∈ List.range n,
      ((fun k => (p.map (fun i => l.getD i d)).getD k d) ∘
        (fun idx => p.indexOf idx)) idx = l.getD idx d := by
    intro idx hidx
    have hin : idx ∈ p := hperm.mem_iff.mpr hidx
    have hix : p.indexOf idx < p.length := List.indexOf_lt_length.mpr hin
    show (p.map (fun i => l.getD i d)).getD (p.indexOf idx) d = l.getD idx d
    rw [List.getD_eq_getElem?_getD, List.getElem?_map, List.getElem?_eq_getElem hix]
    rw [List.getElem_indexOf hix]
    rfl
  rw [List.map_congr_left hbody]
  rw [← hl]
  exact range_map_getDg l d

theorem indexOf_lt_of_perm (p : List Nat) (n : Nat)
    (hperm : List.Perm p (List.range n)) :
    ∀ k ∈ (List.range n).map (fun idx => p.indexOf idx), k < n := by
  intro k hk
  obtain ⟨idx, hidx, rfl⟩ := List.mem_map.mp hk
  have hin : idx ∈ p := hperm.mem_iff.mpr hidx
  have := List.indexOf_lt_length.mpr hin
  rwa [hperm.length_eq, List.length_range] at this

theorem winner_decodes (E : Ext) (hE : E.RoundTrip) (raw : List Nat) (t1 t2 t3 : Nat)
    (w : String × List Nat × Nat)
    (hw : w ∈ ("raw", raw, 0) ::
      ((if E.zstdAvail then [("zstd", E.zstdC raw, t1)] else []) ++
        [("zlib", E.zlibC raw, t2), ("xz", E.xzC raw, t3)])) :
    (if w.1 = "zstd" then (if E.zstdAvail then E.zstdD w.2.1 else none)
      else if w.1 = "xz" then E.xzD w.2.1
      else if w.1 = "zlib" then E.zlibD w.2.1
      else if w.1 = "raw" then some w.2.1
      else none) = some raw := by
  by_cases hz : E.zstdAvail
  · rw [if_pos hz] at hw
    simp only [List.mem_cons, List.mem_append, List.mem_singleton, List.not_mem_nil,
      or_false] at hw
    rcases hw with rfl | rfl | rfl | rfl
    · rw [if_neg (by simp), if_neg (by simp), if_neg (by simp), if_pos rfl]
    · rw [if_pos rfl, if_pos hz]
      exact hE.2.1 raw
    · rw [if_neg (by simp), if_neg (by simp), if_pos rfl]
      exact hE.2.2.1 raw
    · rw [if_neg (by simp), if_pos rfl]
      exact hE.2.2.2.1 raw
  · rw [if_neg hz] at hw
    simp only [List.mem_cons, List.mem_append, List.mem_singleton, List.not_mem_nil,
      or_false, List.nil_append] at hw
    rcases hw with rfl | rfl | rfl
    · rw [if_neg (by simp), if_neg (by simp), if_neg (by simp), if_pos rfl]
    · rw [if_neg (by simp), if_neg (by simp), if_pos rfl]
      exact hE.2.2.1 raw
    · rw [if_neg (by simp), if_pos rfl]
      exact hE.2.2.2.1 raw

theorem frame2_char (frame : AlignmentFrame) (env : String)
    (hids : frame.ids.length = frame.sequences.length) :
    (compute_similarity_order frame env).1.ids =
      (compute_similarity_order frame env).2.1.map (fun k => frame.ids.getD k "") ∧
    (compute_similarity_order frame env).1.sequences =
      (compute_similarity_order frame env).2.1.map (fun k => frame.sequences.getD k []) ∧
    (compute_similarity_order frame env).1.alphabet = frame.alphabet ∧
    (compute_similarity_order frame env).1.metadata = frame.metadata := by
  obtain ⟨hperm, hstruct⟩ := compute_similarity_order_spec frame env
  rcases hstruct with ⟨hf, hp⟩ | hf
  · rw [hf, hp]
    refine ⟨?_, ?_, rfl, rfl⟩
    · simp only [AlignmentFrame.num_sequences]
      rw [← hids]
      exact (range_map_getDg frame.ids "").symm
    · simp only [AlignmentFrame.num_sequences]
      exact (range_map_getDg frame.sequences []).symm
  · rw [hf]
    exact ⟨rfl, rfl, rfl, rfl⟩

/-- C4 (amended): with validation disabled no checksum error is raised;
with validation enabled a stored non-empty checksum raises exactly when it
differs from the recomputed one — but a stored *empty* checksum (like a
missing one) is falsy in the source's `if expected and checksum !=
expected` and is accepted silently even though it differs from every real
digest. -/
theorem C4_checksum_validation (E : Ext) (payload : List Nat) (md : Metadata)
    (frame : AlignmentFrame) (h : decompress_alignment E payload md = some frame) :
    decompress_file E payload md false = some frame ∧
    (∀ e, md.checksum_sha256 = some e → e ≠ "" →
      alignment_checksum E frame.sequences ≠ e →
      decompress_file E payload md true = none) ∧
    (∀ e, md.checksum_sha256 = some e → e ≠ "" →
      alignment_checksum E frame.sequences = e →
      decompress_file E payload md true = some frame) ∧
    ((md.checksum_sha256 = none ∨ md.checksum_sha256 = some "") →
      decompress_file E payload md true = some frame) := by
  have hred : decompress_file E payload md true =
      (match md.checksum_sha256 with
        | some expected =>
            if expected ≠ "" ∧ alignment_checksum E frame.sequences ≠ expected then none
            else some frame
        | none => some frame) := by
    unfold decompress_file
    rw [h]
    rfl
  refine ⟨?_, ?_, ?_, ?_⟩
  · unfold decompress_file
    rw [h]
    rfl
  · intro e he hne hmis
    rw [hred, he]
    exact if_pos ⟨hne, hmis⟩
  · intro e he hne hmatch
    rw [hred, he]
    exact if_neg (fun hc => hc.2 hmatch)
  · intro hcases
    rcases hcases with hnone | hempty
    · rw [hred, hnone]
    · rw [hred, hempty]
      exact if_neg (fun hc => hc.1 rfl)

/-- A metadata record taking the gzip fallback path and storing an *empty*
checksum string. -/
def mdC4 : Metadata :=
  { mdC2 with fallback := some ("gzip", "fasta"), checksum_sha256 := some "" }

/-- The frame decoded from the five-byte FASTA payload `>s\nA\n` under the
identity collaborators. -/
def frameC4 : AlignmentFrame :=
  { ids := ["s"], sequences := [['A']], alphabet := ['A'],
    metadata := ⟨some "fasta", none⟩ }

/-- C4 counterexample: the stored checksum (the empty string) differs from
the checksum of the decompressed rows (`hA` under the identity
collaborators), yet `decompress_file` with validation enabled does not
raise — the empty string is falsy in the `if expected and ...` guard. -/
theorem C4_counterexample :
    decompress_file extId [62, 115, 10, 65, 10] mdC4 true = some frameC4 ∧
    mdC4.checksum_sha256 = some "" ∧
    alignment_checksum extId frameC4.sequences = "hA" ∧
    ("hA" : String) ≠ "" := by
  refine ⟨by decide, rfl, by decide, by decide⟩

/-- A metadata record storing the matching non-empty checksum for the same
payload. -/
def mdC4match : Metadata := { mdC4 with checksum_sha256 := some "hA" }

/-- Witness for the amended C4 at the concrete FASTA-fallback input. -/
theorem C4_witness :
    decompress_file extId [62, 115, 10, 65, 10] mdC4match false = some frameC4 ∧
    decompress_file extId [62, 115, 10, 65, 10] mdC4match true = some frameC4 :=
  ⟨(C4_checksum_validation extId [62, 115, 10, 65, 10] mdC4match frameC4 (by decide)).1,
    (C4_checksum_validation extId [62, 115, 10, 65, 10] mdC4match frameC4
      (by decide)).2.2.1 "hA" rfl (by decide) (by decide)⟩

end ECompV
